import Mathlib

/-!
A shallow embedding of the B-tree device index from `src/ch05/src/btree.rs`
(`IoTDevice`, `Node`, `DeviceDatabase`), together with proofs of the spec's
claims about it.

Modelling conventions:
* `u64` keys and the `usize` lengths are modelled as `Nat` (the code only
  compares keys and counts elements; no wrap-around behaviour is relied on).
  The one literal machine constant, `usize::max_value()` used as the initial
  leaf-depth accumulator in `validate`, is kept as `2 ^ 64 - 1`.
* `Vec<T>` is `List T`; `Vec::insert`/`remove`/`push`/`pop` become
  `List.insertIdx`/`List.eraseIdx`/append/`dropLast`+`getLast?`.
* Functions that can panic (an `unwrap` on `None`, or an out-of-bounds index)
  return `Option`, with `none` for the panic.
-/

namespace BtreeRs

/-- `IoTDevice` from the source: numeric id plus two strings. -/
structure IoTDevice where
  numerical_id : Nat
  address : String
  path : String
  deriving DecidableEq, Repr

/-- `IoTDevice::new(id, address, path)`. -/
def IoTDevice.new (id : Nat) (address : String) (path : String) : IoTDevice :=
  { numerical_id := id, address := address, path := path }

/-- `NodeType`: a node is either a `Leaf` or a `Regular` (internal) node. -/
inductive NodeType where
  | Leaf
  | Regular
  deriving DecidableEq, Repr

/-- `Direction`, the result of `find_closest_index`. -/
inductive Direction where
  | Left
  | Right (i : Nat)
  deriving DecidableEq, Repr

/-- `Node`: parallel vectors of optional devices and optional children,
an optional left child, and the node type tag. -/
inductive Node : Type where
  | mk (devices : List (Option IoTDevice)) (children : List (Option Node))
      (left_child : Option Node) (node_type : NodeType) : Node

/-- The `devices` field. -/
def Node.devices : Node → List (Option IoTDevice)
  | .mk ds _ _ _ => ds

/-- The `children` field. -/
def Node.children : Node → List (Option Node)
  | .mk _ cs _ _ => cs

/-- The `left_child` field. -/
def Node.left_child : Node → Option Node
  | .mk _ _ lc _ => lc

/-- The `node_type` field. -/
def Node.node_type : Node → NodeType
  | .mk _ _ _ ty => ty

/-- The slot/child payload type `Data = (Option<IoTDevice>, Option<Tree>)`. -/
abbrev Data := Option IoTDevice × Option Node

/-- `Node::new`: an empty node of the given type. -/
def Node.new (node_type : NodeType) : Node :=
  .mk [] [] none node_type

/-- `Node::new_leaf()`. -/
def Node.new_leaf : Node := Node.new .Leaf

/-- `Node::new_regular()`. -/
def Node.new_regular : Node := Node.new .Regular

/-- `Node::len()`: number of children plus one (the left child). -/
def Node.len (n : Node) : Nat := n.children.length + 1

/-- `Node::add_left_child`. -/
def Node.add_left_child (n : Node) (tree : Option Node) : Node :=
  .mk n.devices n.children tree n.node_type

/-- `Node::find_closest_index` scan loop: walk the devices left to right,
remembering the index of the last present device whose key is `≤ key`,
and stopping at the first present device whose key exceeds `key`.
Absent (`none`) entries are skipped without stopping the scan. -/
def fciLoop (key : Nat) : List (Option IoTDevice) → Nat → Direction → Direction
  | [], _, acc => acc
  | none :: rest, i, acc => fciLoop key rest (i + 1) acc
  | some dev :: rest, i, acc =>
      if dev.numerical_id ≤ key then fciLoop key rest (i + 1) (.Right i)
      else acc

/-- `Node::find_closest_index(key)`. -/
def Node.find_closest_index (n : Node) (key : Nat) : Direction :=
  fciLoop key n.devices 0 .Left

/-- `Node::add_key(key, value)`: insert the slot one past the closest index
(or at the front when the scan said `Left`); returns the success flag,
which is always `true` in the source. -/
def Node.add_key (n : Node) (key : Nat) (value : Data) : Node × Bool :=
  let pos := match n.find_closest_index key with
    | .Left => 0
    | .Right p => p + 1
  let dev := value.1
  let tree := value.2
  if pos ≥ n.devices.length then
    (.mk (n.devices ++ [dev]) (n.children ++ [tree]) n.left_child n.node_type, true)
  else
    (.mk (n.devices.insertIdx pos dev) (n.children.insertIdx pos tree)
      n.left_child n.node_type, true)

/-- `Node::remove_key(id)`: detach either the left child (`Left`) or the
slot at the found index (`Right`), returning the removed data and the
updated node.  The source always returns `Some`; the `Option` here instead
models the `unwrap` panic on the removed device being absent (which never
happens, since the scan only reports indices of present devices). -/
def Node.remove_key (n : Node) (id : Nat) :
    Option ((Nat × Data) × Node) :=
  match n.find_closest_index id with
  | .Left =>
      some ((id, (none, n.left_child)),
        .mk n.devices n.children none n.node_type)
  | .Right index =>
      match n.devices[index]?, n.children[index]? with
      | some (some dev), some tree =>
          some ((dev.numerical_id, (some dev, tree)),
            .mk (n.devices.eraseIdx index) (n.children.eraseIdx index)
              n.left_child n.node_type)
      | _, _ => none

/-- The `for` loop inside `Node::split`: `count` times, pop a device and a
child from the tails of `ds`/`cs` and insert them into the sibling with
`add_key`.  `none` models the panics (`pop().unwrap()` on an empty vector,
or `as_ref().unwrap()` on an absent popped device). -/
def splitLoop : Nat → Node → List (Option IoTDevice) → List (Option Node) →
    Option (Node × List (Option IoTDevice) × List (Option Node))
  | 0, sibling, ds, cs => some (sibling, ds, cs)
  | count + 1, sibling, ds, cs =>
      match ds.getLast?, cs.getLast? with
      | some device, some child =>
          match device with
          | some d =>
              splitLoop count (sibling.add_key d.numerical_id (device, child)).1
                ds.dropLast cs.dropLast
          | none => none
      | _, _ => none

/-- `Node::split()`: remove the midpoint slot, move the upper slots into a
fresh sibling, hand the midpoint's child to the sibling as its left child,
and return (promoted device, updated self, sibling).  `none` models the
panics (out-of-bounds `remove`, or an `unwrap` on an absent device). -/
def Node.split (n : Node) : Option (IoTDevice × Node × Node) :=
  let sibling := Node.new n.node_type
  let no_of_devices := n.devices.length
  let split_at := no_of_devices / 2
  match n.devices[split_at]?, n.children[split_at]? with
  | some dev, some node =>
      let ds := n.devices.eraseIdx split_at
      let cs := n.children.eraseIdx split_at
      match splitLoop (ds.length - split_at) sibling ds cs with
      | some (sibling, ds', cs') =>
          match dev with
          | some d =>
              some (d, .mk ds' cs' n.left_child n.node_type,
                sibling.add_left_child node)
          | none => none
      | none => none
  | _, _ => none

/-- `Node::get_device(key)`: first present device with an equal key. -/
def getDeviceLoop (key : Nat) : List (Option IoTDevice) → Option IoTDevice
  | [] => none
  | none :: rest => getDeviceLoop key rest
  | some device :: rest =>
      if device.numerical_id = key then some device else getDeviceLoop key rest

/-- `Node::get_device(key)`. -/
def Node.get_device (n : Node) (key : Nat) : Option IoTDevice :=
  getDeviceLoop key n.devices

/-- `Node::get_child(key)`: pick the left child or the found slot's child.
The outer `Option` models the `children[i]` indexing panic; the inner
`Option` is the function's `Option<&Tree>` result. -/
def Node.get_child (n : Node) (key : Nat) : Option (Option Node) :=
  match n.find_closest_index key with
  | .Left => some n.left_child
  | .Right i => n.children[i]?

/-! ### Size lemmas for termination of the recursive tree functions -/

theorem sizeOf_mk (ds : List (Option IoTDevice)) (cs : List (Option Node))
    (lc : Option Node) (ty : NodeType) :
    sizeOf (Node.mk ds cs lc ty) = 1 + sizeOf ds + sizeOf cs + sizeOf lc + sizeOf ty := by
  simp only [Node.mk.sizeOf_spec]

theorem sizeOf_lt_of_left_child {n t : Node} (h : n.left_child = some t) :
    sizeOf t < sizeOf n := by
  cases n with
  | mk ds cs lc ty =>
      simp only [Node.left_child] at h
      subst h
      simp only [sizeOf_mk, Option.some.sizeOf_spec]
      omega

theorem sizeOf_lt_of_child_mem {n : Node} {t : Node} (h : some t ∈ n.children) :
    sizeOf t < sizeOf n := by
  cases n with
  | mk ds cs lc ty =>
      simp only [Node.children] at h
      have h1 : sizeOf (some t) < sizeOf cs := List.sizeOf_lt_of_mem h
      have h2 : sizeOf (some t) = 1 + sizeOf t := by simp
      simp only [sizeOf_mk]
      omega

theorem sizeOf_lt_of_remove_key {n : Node} {id k : Nat} {dv : Option IoTDevice}
    {t : Node} {n' : Node}
    (h : n.remove_key id = some ((k, (dv, some t)), n')) : sizeOf t < sizeOf n := by
  unfold Node.remove_key at h
  split at h
  · simp only [Option.some.injEq, Prod.mk.injEq] at h
    exact sizeOf_lt_of_left_child h.1.2.2
  · split at h
    · rename_i index dev tree hdev hchild
      simp only [Option.some.injEq, Prod.mk.injEq] at h
      have hmem : some t ∈ n.children := by
        rw [h.1.2.2] at hchild
        exact List.getElem?_mem hchild
      exact sizeOf_lt_of_child_mem hmem
    · exact absurd h (by simp)

theorem sizeOf_lt_of_get_child {n t : Node} {k : Nat}
    (h : n.get_child k = some (some t)) : sizeOf t < sizeOf n := by
  unfold Node.get_child at h
  split at h
  · simp only [Option.some.injEq] at h
    exact sizeOf_lt_of_left_child h
  · exact sizeOf_lt_of_child_mem (List.getElem?_mem h)

/-! ### The device database -/

/-- `DeviceDatabase`: optional root, order, and element count. -/
structure DeviceDatabase where
  root : Option Node
  order : Nat
  length : Nat

/-- `DeviceDatabase::new_empty(order)`. -/
def DeviceDatabase.new_empty (order : Nat) : DeviceDatabase :=
  { root := none, order := order, length := 0 }

/-- The tail of `add_r`: if the node now overflows (`len > order`), split it;
at the root, wrap the two halves in a fresh `Regular` parent, otherwise pass
the promoted device and sibling up to the caller.  `inc` is the element-count
increment accumulated so far. -/
def afterOverflow (order : Nat) (node : Node) (isRoot : Bool) (inc : Nat) :
    Option (Node × Option Data × Nat) :=
  if node.len > order then
    match node.split with
    | none => none
    | some (new_parent, node', sibling) =>
        if isRoot then
          let parent := Node.new_regular
          let parent := parent.add_left_child (some node')
          let parent := (parent.add_key new_parent.numerical_id
            (some new_parent, some sibling)).1
          some (parent, none, inc)
        else
          some (node', some (some new_parent, some sibling), inc)
  else some (node, none, inc)

mutual

/-- The body of `DeviceDatabase::add_r` before the overflow check: insert
into a leaf directly, or (for a regular node) extract the slot or left-child
edge chosen by `find_closest_index`, recurse into the extracted child,
reattach it, and absorb a promoted slot if the child split.  Returns the
updated node and the element-count increment; `none` models a panic. -/
def addRCore (order : Nat) (node : Node) (device : IoTDevice) :
    Option (Node × Nat) :=
  match node.node_type with
  | .Leaf =>
      let r := node.add_key device.numerical_id (some device, none)
      some (r.1, if r.2 then 1 else 0)
  | .Regular =>
      match hrk : node.remove_key device.numerical_id with
      | none => none
      | some ((key, (dev, tree)), node1) =>
          match htr : tree with
          | none => none
          | some tr =>
              match addR order tr device false with
              | none => none
              | some (child, promo, inc) =>
                  let node2 := if dev.isNone then node1.add_left_child (some child)
                    else (node1.add_key key (dev, some child)).1
                  match promo with
                  | none => some (node2, inc)
                  | some sr =>
                      match sr.1 with
                      | none => none
                      | some nd => some ((node2.add_key nd.numerical_id sr).1, inc)
termination_by 2 * sizeOf node
decreasing_by
  subst htr
  have := sizeOf_lt_of_remove_key hrk
  omega

/-- `DeviceDatabase::add_r`: the recursive insertion procedure.  Returns the
updated node, an optional promoted (device, sibling) pair, and the
element-count increment; `none` models a panic. -/
def addR (order : Nat) (node : Node) (device : IoTDevice) (isRoot : Bool) :
    Option (Node × Option Data × Nat) :=
  match addRCore order node device with
  | none => none
  | some (node3, inc) => afterOverflow order node3 isRoot inc
termination_by 2 * sizeOf node + 1
decreasing_by
  omega

end

/-- `DeviceDatabase::add(device)`. -/
def DeviceDatabase.add (db : DeviceDatabase) (device : IoTDevice) :
    Option DeviceDatabase :=
  let node := match db.root with
    | some t => t
    | none => Node.new_leaf
  match addR db.order node device true with
  | none => none
  | some (root, _, inc) =>
      some { root := some root, order := db.order, length := db.length + inc }

/-- Inserting a list of devices one after another (`add` in a loop). -/
def addList (db : DeviceDatabase) : List IoTDevice → Option DeviceDatabase
  | [] => some db
  | d :: ds =>
      match db.add d with
      | some db' => addList db' ds
      | none => none

/-- `usize::max_value()` on a 64-bit target, used by `validate` as the
initial minimum-leaf-depth accumulator. -/
def usizeMax : Nat := 2 ^ 64 - 1

theorem sizeOf_list_append (l1 l2 : List (Option Node)) :
    sizeOf (l1 ++ l2) + 1 = sizeOf l1 + sizeOf l2 := by
  induction l1 with
  | nil => simp; omega
  | cons a l ih => simp only [List.cons_append, List.cons.sizeOf_spec]; omega

theorem sizeOf_children_chain (n : Node) :
    sizeOf (n.children ++ [n.left_child]) < sizeOf n := by
  cases n with
  | mk ds cs lc ty =>
      simp only [Node.children, Node.left_child, sizeOf_mk]
      have h1 := sizeOf_list_append cs [lc]
      have h2 : sizeOf [lc] = 1 + sizeOf lc + 1 := by simp
      have h3 : 0 < sizeOf ds := by cases ds <;> simp
      have h4 : 0 < sizeOf ty := by cases ty <;> simp
      omega

mutual

/-- `DeviceDatabase::validate(node, level)`: returns (rules satisfied,
minimum leaf depth, maximum leaf depth) for the subtree. -/
def validate (order : Nat) (node : Node) (level : Nat) : Bool × Nat × Nat :=
  match node.node_type with
  | .Leaf => (decide (node.len ≤ order), level, level)
  | .Regular =>
      let min_children := if level > 0 then order / 2 else 2
      let key_rules := decide (node.len ≤ order) && decide (node.len ≥ min_children)
      validateFold order (node.children ++ [node.left_child]) level
        (key_rules, usizeMax, level)
termination_by 2 * sizeOf node + 1
decreasing_by
  have := sizeOf_children_chain node
  omega

/-- The fold over `children.iter().chain(vec![&left_child])` in `validate`. -/
def validateFold (order : Nat) (l : List (Option Node)) (level : Nat)
    (total : Bool × Nat × Nat) : Bool × Nat × Nat :=
  match l with
  | [] => total
  | none :: rest => validateFold order rest level total
  | some tree :: rest =>
      let stats := validate order tree (level + 1)
      validateFold order rest level
        (total.1 && stats.1, min stats.2.1 total.2.1, max stats.2.2 total.2.2)
termination_by 2 * sizeOf l
decreasing_by
  all_goals simp only [List.cons.sizeOf_spec, Option.some.sizeOf_spec]
  all_goals omega

end

/-- `DeviceDatabase::is_a_valid_btree()`. -/
def DeviceDatabase.is_a_valid_btree (db : DeviceDatabase) : Bool :=
  match db.root with
  | some tree =>
      let total := validate db.order tree 0
      total.1 && decide (total.2.1 = total.2.2)
  | none => false

/-- `DeviceDatabase::find_r(node, id)`.  The outer `Option` models the
`children[i]` indexing panic inside `get_child`; the inner `Option` is the
find result. -/
def findR (node : Node) (id : Nat) : Option (Option IoTDevice) :=
  match node.get_device id with
  | some device => some (some device)
  | none =>
      if node.node_type ≠ .Leaf then
        match hgc : node.get_child id with
        | some (some tree) => findR tree id
        | some none => some none
        | none => none
      else some none
termination_by sizeOf node
decreasing_by
  exact sizeOf_lt_of_get_child hgc

/-- `DeviceDatabase::find(id)`. -/
def DeviceDatabase.find (db : DeviceDatabase) (id : Nat) :
    Option (Option IoTDevice) :=
  match db.root with
  | some tree => findR tree id
  | none => some none

mutual

/-- `DeviceDatabase::walk_in_order`: the list of devices passed to the
visitor, in visit order; `none` models the `children[i]` indexing panic
propagated from below. -/
def walkNode : Node → Option (List IoTDevice)
  | .mk ds cs lc _ty =>
      (walkOpt lc).bind fun leftPart =>
        (walkSlots ds cs).map fun rest => leftPart ++ rest
termination_by n => sizeOf n
decreasing_by
  all_goals simp only [sizeOf_mk, Option.some.sizeOf_spec]
  all_goals omega

/-- Walk an optional child: `if let Some(ref left) = ... { walk }`. -/
def walkOpt : Option Node → Option (List IoTDevice)
  | some n => walkNode n
  | none => some []
termination_by o => sizeOf o
decreasing_by
  simp only [Option.some.sizeOf_spec]
  omega

/-- The `for i in 0..devices.len()` loop of `walk_in_order`, walking the
device/child pairs in lockstep; a missing child entry is the indexing
panic. -/
def walkSlots : List (Option IoTDevice) → List (Option Node) →
    Option (List IoTDevice)
  | [], _ => some []
  | _ :: _, [] => none
  | d :: ds, c :: cs =>
      (walkOpt c).bind fun sub =>
        (walkSlots ds cs).map fun rest =>
          (match d with | some k => [k] | none => []) ++ sub ++ rest
termination_by ds cs => sizeOf ds + sizeOf cs
decreasing_by
  all_goals simp only [List.cons.sizeOf_spec, Option.some.sizeOf_spec]
  all_goals omega

end

/-- `DeviceDatabase::walk`: the in-order list of visited devices
(`some []` when the tree is empty). -/
def DeviceDatabase.walk (db : DeviceDatabase) : Option (List IoTDevice) :=
  match db.root with
  | some root => walkNode root
  | none => some []

/-! ### List helper lemmas -/

theorem list_split_at_length {α : Type} :
    ∀ (l : List α) (n : Nat), n < l.length →
    ∃ L1 x L2, l = L1 ++ x :: L2 ∧ L1.length = n
  | [], n, h => absurd h (by simp)
  | x :: l, 0, _ => ⟨[], x, l, rfl, rfl⟩
  | x :: l, n + 1, h => by
      obtain ⟨L1, y, L2, hl, hlen⟩ := list_split_at_length l n (by simpa using h)
      exact ⟨x :: L1, y, L2, by simp [hl], by simp [hlen]⟩

theorem getElem?_append_cons {α : Type} (A : List α) (x : α) (B : List α) :
    (A ++ x :: B)[A.length]? = some x := by
  induction A with
  | nil => simp
  | cons a A ih => simpa using ih

theorem getElem?_append_cons_of_length {α : Type} (A : List α) (x : α) (B : List α)
    {n : Nat} (h : A.length = n) : (A ++ x :: B)[n]? = some x := by
  subst h; exact getElem?_append_cons A x B

theorem eraseIdx_append_cons {α : Type} (A : List α) (x : α) (B : List α) :
    (A ++ x :: B).eraseIdx A.length = A ++ B := by
  induction A with
  | nil => simp
  | cons a A ih => simpa using ih

theorem insertIdx_append_cons {α : Type} (A : List α) (x : α) (B : List α) :
    (A ++ B).insertIdx A.length x = A ++ x :: B := by
  induction A with
  | nil => simp
  | cons a A ih => simpa [List.insertIdx_succ_cons] using ih

/-! ### `find_closest_index` characterization -/

/-- Strict key order on devices. -/
def devLT (a b : IoTDevice) : Prop := a.numerical_id < b.numerical_id

theorem fciLoop_append (key : Nat) (A B : List IoTDevice) (i : Nat) (acc : Direction)
    (hA : ∀ a ∈ A, a.numerical_id ≤ key)
    (hB : ∀ b, B.head? = some b → key < b.numerical_id) :
    fciLoop key ((A ++ B).map some) i acc =
      if A.isEmpty then acc else .Right (i + A.length - 1) := by
  induction A generalizing i acc with
  | nil =>
      cases B with
      | nil => simp [fciLoop]
      | cons b B =>
          have := hB b (by simp)
          simp [fciLoop, Nat.not_le.mpr this]
  | cons a A ih =>
      have ha := hA a (by simp)
      have ih2 := ih (i + 1) (.Right i) (fun x hx => hA x (List.mem_cons_of_mem a hx))
      simp only [List.cons_append, List.map_cons, fciLoop, ha, if_pos, List.append_eq]
      rw [ih2]
      cases A with
      | nil => simp
      | cons a2 A2 => simp; omega

theorem fci_left (B : List IoTDevice) (cs : List (Option Node)) (lc : Option Node)
    (ty : NodeType) (key : Nat)
    (hB : ∀ b, B.head? = some b → key < b.numerical_id) :
    (Node.mk (B.map some) cs lc ty).find_closest_index key = .Left := by
  have := fciLoop_append key [] B 0 .Left (by simp) hB
  simpa [Node.find_closest_index, Node.devices] using this

theorem fci_right (A B : List IoTDevice) (cs : List (Option Node)) (lc : Option Node)
    (ty : NodeType) (key : Nat) (hne : A ≠ [])
    (hA : ∀ a ∈ A, a.numerical_id ≤ key)
    (hB : ∀ b, B.head? = some b → key < b.numerical_id) :
    (Node.mk ((A ++ B).map some) cs lc ty).find_closest_index key =
      .Right (A.length - 1) := by
  have := fciLoop_append key A B 0 .Left hA hB
  have hA2 : A.isEmpty = false := by cases A with
    | nil => exact absurd rfl hne
    | cons a A => simp
  simp only [Node.find_closest_index, Node.devices] at this ⊢
  rw [this, hA2]
  simp

/-! ### `add_key`, `remove_key`, `get_child`, `get_device` specifications -/

theorem add_key_spec (A B : List IoTDevice) (CA CB : List (Option Node))
    (lc : Option Node) (ty : NodeType) (key : Nat) (dv : Option IoTDevice)
    (tree : Option Node)
    (hCA : CA.length = A.length) (hCB : CB.length = B.length)
    (hA : ∀ a ∈ A, a.numerical_id ≤ key)
    (hB : ∀ b, B.head? = some b → key < b.numerical_id) :
    (Node.mk ((A ++ B).map some) (CA ++ CB) lc ty).add_key key (dv, tree) =
      (.mk (A.map some ++ dv :: B.map some) (CA ++ tree :: CB) lc ty, true) := by
  have hfci : (Node.mk ((A ++ B).map some) (CA ++ CB) lc ty).find_closest_index key
      = if A.isEmpty then .Left else .Right (A.length - 1) := by
    cases A with
    | nil => simpa using fci_left B (CA ++ CB) lc ty key hB
    | cons a A2 =>
        simpa using fci_right (a :: A2) B (CA ++ CB) lc ty key (by simp) hA hB
  have hlenB : (Node.mk ((A ++ B).map some) (CA ++ CB) lc ty).devices.length
      = A.length + B.length := by simp [Node.devices]
  unfold Node.add_key
  rw [hfci]
  cases A with
  | nil =>
      have hCAnil : CA = [] := List.eq_nil_of_length_eq_zero (by simpa using hCA)
      subst hCAnil
      cases B with
      | nil =>
          have hCBnil : CB = [] := List.eq_nil_of_length_eq_zero (by simpa using hCB)
          subst hCBnil
          simp [Node.devices, Node.children, Node.left_child, Node.node_type]
      | cons b B2 =>
          simp [Node.devices, Node.children, Node.left_child, Node.node_type,
            List.insertIdx_zero]
  | cons a A2 =>
      have hpos : (a :: A2).length - 1 + 1 = (a :: A2).length := by simp
      simp only [List.isEmpty_cons, if_neg, Bool.false_eq_true, not_false_iff, hpos]
      by_cases hB0 : B = []
      · subst hB0
        have hCBnil : CB = [] := List.eq_nil_of_length_eq_zero (by simpa using hCB)
        subst hCBnil
        rw [if_pos (by simp [Node.devices])]
        simp [Node.devices, Node.children, Node.left_child, Node.node_type]
      · have hBlen : 0 < B.length := by
          cases B with
          | nil => exact absurd rfl hB0
          | cons x xs => simp
        rw [if_neg (by simp only [Node.devices, List.length_map, List.length_append]; omega)]
        have e1 : (((a :: A2) ++ B).map some) = (a :: A2).map some ++ B.map some := by
          simp
        have e2 : ((a :: A2).map some ++ B.map some).insertIdx (a :: A2).length dv
            = (a :: A2).map some ++ dv :: B.map some := by
          have := insertIdx_append_cons ((a :: A2).map some) dv (B.map some)
          simpa using this
        have e3 : (CA ++ CB).insertIdx (a :: A2).length tree = CA ++ tree :: CB := by
          have := insertIdx_append_cons CA tree CB
          rwa [hCA] at this
        simp only [Node.devices, Node.children, Node.left_child, Node.node_type,
          e1, e2, e3]

theorem remove_key_left_spec (B : List IoTDevice) (cs : List (Option Node))
    (lc : Option Node) (ty : NodeType) (id : Nat)
    (hB : ∀ b, B.head? = some b → id < b.numerical_id) :
    (Node.mk (B.map some) cs lc ty).remove_key id =
      some ((id, (none, lc)), .mk (B.map some) cs none ty) := by
  unfold Node.remove_key
  rw [fci_left B cs lc ty id hB]
  simp [Node.devices, Node.children, Node.left_child, Node.node_type]

theorem remove_key_right_spec (A2 : List IoTDevice) (da : IoTDevice)
    (B : List IoTDevice) (CA CB : List (Option Node)) (c : Option Node)
    (lc : Option Node) (ty : NodeType) (id : Nat)
    (hCA : CA.length = A2.length)
    (hA : ∀ a ∈ A2 ++ [da], a.numerical_id ≤ id)
    (hB : ∀ b, B.head? = some b → id < b.numerical_id) :
    (Node.mk ((A2 ++ da :: B).map some) (CA ++ c :: CB) lc ty).remove_key id =
      some ((da.numerical_id, (some da, c)),
        .mk ((A2 ++ B).map some) (CA ++ CB) lc ty) := by
  have hfci : (Node.mk ((A2 ++ da :: B).map some) (CA ++ c :: CB) lc ty).find_closest_index id
      = .Right A2.length := by
    have e : A2 ++ da :: B = (A2 ++ [da]) ++ B := by simp
    rw [e, fci_right (A2 ++ [da]) B _ _ _ _ (by simp) hA hB]
    simp
  unfold Node.remove_key
  rw [hfci]
  simp only [Node.devices, Node.children, Node.left_child, Node.node_type]
  have hdev : ((A2 ++ da :: B).map some)[A2.length]? = some (some da) := by
    have e : (A2 ++ da :: B).map some = A2.map some ++ some da :: B.map some := by simp
    rw [e]
    exact getElem?_append_cons_of_length _ _ _ (by simp)
  have hch : (CA ++ c :: CB)[A2.length]? = some c :=
    getElem?_append_cons_of_length _ _ _ hCA
  rw [hdev, hch]
  simp only [Node.devices, Node.children, Node.left_child, Node.node_type]
  have e1 : ((A2 ++ da :: B).map some).eraseIdx A2.length = (A2 ++ B).map some := by
    have e : (A2 ++ da :: B).map some = A2.map some ++ some da :: B.map some := by simp
    rw [e]
    have := eraseIdx_append_cons (A2.map some) (some da) (B.map some)
    simpa using this
  have e2 : (CA ++ c :: CB).eraseIdx A2.length = CA ++ CB := by
    have := eraseIdx_append_cons CA c CB
    rwa [hCA] at this
  rw [e1, e2]

theorem get_child_left_spec (B : List IoTDevice) (cs : List (Option Node))
    (lc : Option Node) (ty : NodeType) (id : Nat)
    (hB : ∀ b, B.head? = some b → id < b.numerical_id) :
    (Node.mk (B.map some) cs lc ty).get_child id = some lc := by
  unfold Node.get_child
  rw [fci_left B cs lc ty id hB]
  simp [Node.left_child]

theorem get_child_right_spec (A2 : List IoTDevice) (da : IoTDevice)
    (B : List IoTDevice) (CA CB : List (Option Node)) (c : Option Node)
    (lc : Option Node) (ty : NodeType) (id : Nat)
    (hCA : CA.length = A2.length)
    (hA : ∀ a ∈ A2 ++ [da], a.numerical_id ≤ id)
    (hB : ∀ b, B.head? = some b → id < b.numerical_id) :
    (Node.mk ((A2 ++ da :: B).map some) (CA ++ c :: CB) lc ty).get_child id = some c := by
  have hfci : (Node.mk ((A2 ++ da :: B).map some) (CA ++ c :: CB) lc ty).find_closest_index id
      = .Right A2.length := by
    have e : A2 ++ da :: B = (A2 ++ [da]) ++ B := by simp
    rw [e, fci_right (A2 ++ [da]) B _ _ _ _ (by simp) hA hB]
    simp
  unfold Node.get_child
  rw [hfci]
  simp only [Node.children, Node.left_child]
  exact getElem?_append_cons_of_length _ _ _ hCA

theorem getDeviceLoop_eq_none (key : Nat) (devs : List IoTDevice)
    (h : ∀ d ∈ devs, d.numerical_id ≠ key) :
    getDeviceLoop key (devs.map some) = none := by
  induction devs with
  | nil => rfl
  | cons d devs ih =>
      have hd := h d (by simp)
      simp only [List.map_cons, getDeviceLoop]
      rw [if_neg hd]
      exact ih (fun x hx => h x (List.mem_cons_of_mem d hx))

theorem getDeviceLoop_eq_some {key : Nat} {devs : List IoTDevice} {d : IoTDevice}
    (h : getDeviceLoop key (devs.map some) = some d) :
    d ∈ devs ∧ d.numerical_id = key := by
  induction devs with
  | nil => simp [getDeviceLoop] at h
  | cons x devs ih =>
      simp only [List.map_cons, getDeviceLoop] at h
      by_cases hx : x.numerical_id = key
      · rw [if_pos hx] at h
        cases h
        exact ⟨by simp, hx⟩
      · rw [if_neg hx] at h
        obtain ⟨hmem, hkey⟩ := ih h
        exact ⟨by simp [hmem], hkey⟩

theorem getDeviceLoop_mem_some (key : Nat) (devs : List IoTDevice)
    (h : ∃ d ∈ devs, d.numerical_id = key) :
    ∃ r, getDeviceLoop key (devs.map some) = some r ∧ r.numerical_id = key := by
  induction devs with
  | nil => simp at h
  | cons x devs ih =>
      by_cases hx : x.numerical_id = key
      · exact ⟨x, by simp [getDeviceLoop, hx], hx⟩
      · obtain ⟨d, hd, hdk⟩ := h
        rcases List.mem_cons.mp hd with rfl | hd2
        · exact absurd hdk hx
        · obtain ⟨r, hr, hrk⟩ := ih ⟨d, hd2, hdk⟩
          exact ⟨r, by simp [getDeviceLoop, hx, hr], hrk⟩

/-! ### Abstract node forms and in-order contents -/

/-- A leaf node holding exactly the devices `devs` (the only leaf shape the
insertion algorithm ever produces). -/
def mkLeafN (devs : List IoTDevice) : Node :=
  .mk (devs.map some) (List.replicate devs.length none) none .Leaf

/-- A regular node with devices `devs`, slot children `subs`, left child `l`
(the only regular shape the insertion algorithm ever produces). -/
def mkRegN (devs : List IoTDevice) (subs : List Node) (l : Node) : Node :=
  .mk (devs.map some) (subs.map some) (some l) .Regular

mutual

/-- The in-order device sequence of a node: left child first, then each
slot's device followed by that slot's child (device/child pairs are walked
in lockstep, mirroring `walk_in_order`). -/
def contents : Node → List IoTDevice
  | .mk ds cs lc _ =>
      (match lc with | some l => contents l | none => []) ++ slotsContents ds cs
termination_by n => sizeOf n
decreasing_by
  all_goals simp only [sizeOf_mk, List.cons.sizeOf_spec, Option.some.sizeOf_spec]
  all_goals omega

/-- In-order contents of the device/child slot lists. -/
def slotsContents : List (Option IoTDevice) → List (Option Node) → List IoTDevice
  | [], _ => []
  | _ :: _, [] => []
  | d :: ds, c :: cs =>
      (match d with | some k => [k] | none => []) ++
        ((match c with | some t => contents t | none => []) ++ slotsContents ds cs)
termination_by ds cs => sizeOf ds + sizeOf cs
decreasing_by
  all_goals simp only [sizeOf_mk, List.cons.sizeOf_spec, Option.some.sizeOf_spec]
  all_goals omega

end

/-- In-order contents of fully-present device/child slot lists. -/
def interD : List IoTDevice → List Node → List IoTDevice
  | d :: ds, s :: ss => d :: (contents s ++ interD ds ss)
  | _, _ => []

theorem slotsContents_map (devs : List IoTDevice) (subs : List Node) :
    slotsContents (devs.map some) (subs.map some) = interD devs subs := by
  induction devs generalizing subs with
  | nil => simp [slotsContents, interD]
  | cons d ds ih =>
      cases subs with
      | nil => simp [slotsContents, interD]
      | cons s ss => simp [slotsContents, interD, ih]

theorem slotsContents_replicate (devs : List IoTDevice) :
    slotsContents (devs.map some) (List.replicate devs.length none) = devs := by
  induction devs with
  | nil => simp [slotsContents]
  | cons d ds ih => simpa [slotsContents, List.replicate] using ih

theorem contents_mk (ds : List (Option IoTDevice)) (cs : List (Option Node))
    (lc : Option Node) (ty : NodeType) :
    contents (Node.mk ds cs lc ty) =
      (match lc with | some l => contents l | none => []) ++ slotsContents ds cs := by
  conv_lhs => rw [contents.eq_def]

theorem contents_mkLeafN (devs : List IoTDevice) :
    contents (mkLeafN devs) = devs := by
  rw [mkLeafN, contents_mk]
  simpa using slotsContents_replicate devs

theorem contents_mkRegN (devs : List IoTDevice) (subs : List Node) (l : Node) :
    contents (mkRegN devs subs l) = contents l ++ interD devs subs := by
  rw [mkRegN, contents_mk]
  simp [slotsContents_map]

theorem interD_nil (subs : List Node) : interD [] subs = [] := by
  cases subs <;> rfl

theorem interD_cons (d : IoTDevice) (ds : List IoTDevice) (s : Node) (ss : List Node) :
    interD (d :: ds) (s :: ss) = d :: (contents s ++ interD ds ss) := rfl

theorem interD_append (A B : List IoTDevice) (SA SB : List Node)
    (h : A.length = SA.length) :
    interD (A ++ B) (SA ++ SB) = interD A SA ++ interD B SB := by
  induction A generalizing SA with
  | nil =>
      have : SA = [] := List.eq_nil_of_length_eq_zero (by simpa using h.symm)
      subst this
      simp [interD_nil]
  | cons a A ih =>
      cases SA with
      | nil => simp at h
      | cons sa SA =>
          simp only [List.cons_append, interD_cons, ih SA (by simpa using h),
            List.append_assoc]

/-! ### `split` characterization on sorted nodes -/

theorem splitLoop_spec :
    ∀ (Q P : List IoTDevice) (CP CQ : List (Option Node))
      (sibDevs : List IoTDevice) (sibCs : List (Option Node))
      (slc : Option Node) (ty : NodeType),
    P.length = CP.length → Q.length = CQ.length →
    List.Pairwise devLT (P ++ Q) →
    (∀ x ∈ P ++ Q, ∀ y ∈ sibDevs, devLT x y) →
    sibDevs.length = sibCs.length →
    splitLoop Q.length (Node.mk (sibDevs.map some) sibCs slc ty)
        ((P ++ Q).map some) (CP ++ CQ) =
      some (Node.mk ((Q ++ sibDevs).map some) (CQ ++ sibCs) slc ty,
        P.map some, CP) := by
  intro Q
  induction Q using List.reverseRecOn with
  | nil =>
      intro P CP CQ sibDevs sibCs slc ty hP hQ hsort hcross hsib
      have : CQ = [] := List.eq_nil_of_length_eq_zero (by simpa using hQ.symm)
      subst this
      simp [splitLoop]
  | append_singleton Q2 a ih =>
      intro P CP CQ sibDevs sibCs slc ty hP hQ hsort hcross hsib
      have hCQne : CQ ≠ [] := by
        intro hc; subst hc; simp at hQ
      rcases List.eq_nil_or_concat CQ with hc | ⟨CQ2, cb, rfl⟩
      · exact absurd hc hCQne
      simp only [List.concat_eq_append] at hQ hCQne ⊢
      have hQ2len : Q2.length = CQ2.length := by
        simpa using hQ
      have hlen : (Q2 ++ [a]).length = CQ2.length + 1 := by simpa using hQ
      simp only [List.length_append, List.length_cons, List.length_nil]
      have hgd : ((P ++ (Q2 ++ [a])).map some).getLast? = some (some a) := by
        have e : (P ++ (Q2 ++ [a])).map some
            = (P ++ Q2).map some ++ [some a] := by simp
        rw [e, List.getLast?_concat]
      have hgc : (CP ++ (CQ2 ++ [cb])).getLast? = some cb := by
        have e : CP ++ (CQ2 ++ [cb]) = (CP ++ CQ2) ++ [cb] := by simp
        rw [e, List.getLast?_concat]
      have hdd : ((P ++ (Q2 ++ [a])).map some).dropLast = (P ++ Q2).map some := by
        have e : (P ++ (Q2 ++ [a])).map some
            = (P ++ Q2).map some ++ [some a] := by simp
        rw [e, List.dropLast_concat]
      have hdc : (CP ++ (CQ2 ++ [cb])).dropLast = CP ++ CQ2 := by
        have e : CP ++ (CQ2 ++ [cb]) = (CP ++ CQ2) ++ [cb] := by simp
        rw [e, List.dropLast_concat]
      have hamem : a ∈ P ++ (Q2 ++ [a]) := by simp
      have hakey : ∀ b, sibDevs.head? = some b → a.numerical_id < b.numerical_id := by
        intro b hb
        have hbmem : b ∈ sibDevs := by
          cases sibDevs with
          | nil => simp at hb
          | cons x xs => cases hb; simp
        exact hcross a hamem b hbmem
      have haddk : (Node.mk (sibDevs.map some) sibCs slc ty).add_key a.numerical_id
          (some a, cb) =
          (.mk ((a :: sibDevs).map some) (cb :: sibCs) slc ty, true) := by
        have := add_key_spec [] sibDevs [] sibCs slc ty a.numerical_id (some a) cb
          rfl hsib.symm (by simp) hakey
        simpa using this
      unfold splitLoop
      rw [hgd, hgc, hdd, hdc]
      show splitLoop Q2.length
          ((Node.mk (List.map some sibDevs) sibCs slc ty).add_key a.numerical_id
            (some a, cb)).1
          (List.map some (P ++ Q2)) (CP ++ CQ2)
        = some (Node.mk (List.map some (Q2 ++ [a] ++ sibDevs))
            (CQ2 ++ [cb] ++ sibCs) slc ty, List.map some P, CP)
      rw [haddk]
      have hsort2 : List.Pairwise devLT (P ++ Q2) := by
        have : (P ++ Q2).Sublist (P ++ (Q2 ++ [a])) := by
          apply List.Sublist.append_left
          exact (List.sublist_append_left Q2 [a])
        exact hsort.sublist this
      have hcross2 : ∀ x ∈ P ++ Q2, ∀ y ∈ a :: sibDevs, devLT x y := by
        intro x hx y hy
        rcases List.mem_cons.mp hy with hEq | hy2
        · -- y = a comes after x in the sorted list
          rw [hEq]
          have e : P ++ (Q2 ++ [a]) = (P ++ Q2) ++ [a] := by simp
          rw [e] at hsort
          have := (List.pairwise_append.mp hsort).2.2
          exact this x hx a (by simp)
        · exact hcross x (by
            rcases List.mem_append.mp hx with h1 | h1
            · exact List.mem_append.mpr (Or.inl h1)
            · exact List.mem_append.mpr (Or.inr (by simp [h1]))) y hy2
      have := ih P CP CQ2 (a :: sibDevs) (cb :: sibCs) slc ty hP hQ2len
        hsort2 hcross2 (by simpa using hsib)
      rw [this]
      simp

theorem split_spec (P S : List IoTDevice) (dm : IoTDevice)
    (CP CS : List (Option Node)) (c : Option Node) (lc : Option Node)
    (ty : NodeType)
    (hCP : CP.length = P.length) (hCS : CS.length = S.length)
    (hm : (P.length + S.length + 1) / 2 = P.length)
    (hsorted : List.Pairwise devLT (P ++ dm :: S)) :
    (Node.mk ((P ++ dm :: S).map some) (CP ++ c :: CS) lc ty).split =
      some (dm, .mk (P.map some) CP lc ty, .mk (S.map some) CS c ty) := by
  unfold Node.split
  have hlen : ((P ++ dm :: S).map some).length = P.length + S.length + 1 := by
    simp; omega
  have hdev : (Node.mk ((P ++ dm :: S).map some) (CP ++ c :: CS) lc ty).devices
      = (P ++ dm :: S).map some := rfl
  have hch : (Node.mk ((P ++ dm :: S).map some) (CP ++ c :: CS) lc ty).children
      = CP ++ c :: CS := rfl
  simp only [hdev, hch, Node.left_child, Node.node_type, hlen, hm, Node.new]
  have e0 : (P ++ dm :: S).map some = P.map some ++ some dm :: S.map some := by simp
  have hget1 : ((P ++ dm :: S).map some)[P.length]? = some (some dm) := by
    rw [e0]; exact getElem?_append_cons_of_length _ _ _ (by simp)
  have hget2 : (CP ++ c :: CS)[P.length]? = some c :=
    getElem?_append_cons_of_length _ _ _ hCP
  rw [hget1, hget2]
  have he1 : ((P ++ dm :: S).map some).eraseIdx P.length = (P ++ S).map some := by
    rw [e0]
    have := eraseIdx_append_cons (P.map some) (some dm) (S.map some)
    simpa using this
  have he2 : (CP ++ c :: CS).eraseIdx P.length = CP ++ CS := by
    have := eraseIdx_append_cons CP c CS
    rwa [hCP] at this
  rw [he1, he2]
  have hcount : ((P ++ S).map some).length - P.length = S.length := by simp
  rw [hcount]
  have hsort2 : List.Pairwise devLT (P ++ S) := by
    apply hsorted.sublist
    apply List.Sublist.append_left
    exact List.sublist_cons_self dm S
  have hsl := splitLoop_spec S P CP CS [] [] none ty hCP.symm hCS.symm
    hsort2 (by simp) rfl
  simp only [List.map_nil] at hsl
  rw [hsl]
  simp [Node.add_left_child, Node.devices, Node.children, Node.left_child,
    Node.node_type]

theorem split_mkLeafN (P S : List IoTDevice) (dm : IoTDevice)
    (hm : (P.length + S.length + 1) / 2 = P.length)
    (hsorted : List.Pairwise devLT (P ++ dm :: S)) :
    (mkLeafN (P ++ dm :: S)).split = some (dm, mkLeafN P, mkLeafN S) := by
  have e : List.replicate (P ++ dm :: S).length (none : Option Node)
      = List.replicate P.length none ++ none :: List.replicate S.length none := by
    simp [List.length_append, List.length_cons]
    rw [show P.length + (S.length + 1) = P.length + (1 + S.length) by omega,
      List.replicate_add]
    simp [List.replicate_add, List.replicate_succ]
  unfold mkLeafN
  rw [e]
  exact split_spec P S dm _ _ none none .Leaf (by simp) (by simp) hm hsorted

theorem split_mkRegN (P S : List IoTDevice) (dm : IoTDevice)
    (SP SS : List Node) (sc : Node) (l : Node)
    (hSP : SP.length = P.length) (hSS : SS.length = S.length)
    (hm : (P.length + S.length + 1) / 2 = P.length)
    (hsorted : List.Pairwise devLT (P ++ dm :: S)) :
    (mkRegN (P ++ dm :: S) (SP ++ sc :: SS) l).split
      = some (dm, mkRegN P SP l, mkRegN S SS sc) := by
  unfold mkRegN
  have e : (SP ++ sc :: SS).map some = SP.map some ++ some sc :: SS.map some := by
    simp
  rw [e]
  exact split_spec P S dm _ _ (some sc) (some l) .Regular (by simp [hSP])
    (by simp [hSS]) hm hsorted

theorem sublist_interD (devs : List IoTDevice) (subs : List Node)
    (h : devs.length = subs.length) : devs.Sublist (interD devs subs) := by
  induction devs generalizing subs with
  | nil => simp
  | cons d ds ih =>
      cases subs with
      | nil => simp at h
      | cons s ss =>
          rw [interD_cons]
          exact ((ih ss (by simpa using h)).trans
            (List.sublist_append_right (contents s) _)).cons₂ d

/-! ### Shape layer infrastructure: permutation and zip bookkeeping -/

theorem insertIdx_perm {α : Type} (x : α) :
    ∀ (pos : Nat) (l : List α), pos ≤ l.length → (l.insertIdx pos x).Perm (x :: l)
  | 0, l, _ => by simp [List.insertIdx_zero]
  | pos + 1, [], h => by simp at h
  | pos + 1, a :: l, h => by
      rw [List.insertIdx_succ_cons]
      exact ((insertIdx_perm x pos l (by simpa using h)).cons a).trans
        (List.Perm.swap x a l)

theorem map_insertIdx2 {α β : Type} (f : α → β) (x : α) :
    ∀ (pos : Nat) (l : List α),
    ((l.insertIdx pos x).map f) = (l.map f).insertIdx pos (f x)
  | 0, l => by simp [List.insertIdx_zero]
  | pos + 1, [] => by simp [List.insertIdx_succ_nil]
  | pos + 1, a :: l => by
      rw [List.insertIdx_succ_cons, List.map_cons, List.map_cons,
        List.insertIdx_succ_cons, map_insertIdx2 f x pos l]

theorem zip_insertIdx {α β : Type} (x : α) (y : β) :
    ∀ (pos : Nat) (l1 : List α) (l2 : List β), l1.length = l2.length →
    (l1.insertIdx pos x).zip (l2.insertIdx pos y) = (l1.zip l2).insertIdx pos (x, y)
  | 0, l1, l2, _ => by simp [List.insertIdx_zero]
  | pos + 1, [], l2, h => by
      have : l2 = [] := List.eq_nil_of_length_eq_zero (by simpa using h.symm)
      subst this
      simp [List.insertIdx_succ_nil]
  | pos + 1, a :: l1, [], h => by simp at h
  | pos + 1, a :: l1, b :: l2, h => by
      simp only [List.insertIdx_succ_cons, List.zip_cons_cons]
      rw [zip_insertIdx x y pos l1 l2 (by simpa using h)]

theorem flatten_insertIdx_perm {α : Type} (X : List α) :
    ∀ (pos : Nat) (L : List (List α)), pos ≤ L.length →
    (L.insertIdx pos X).flatten.Perm (X ++ L.flatten)
  | 0, L, _ => by simp [List.insertIdx_zero]
  | pos + 1, [], h => by simp at h
  | pos + 1, K :: L, h => by
      rw [List.insertIdx_succ_cons, List.flatten_cons, List.flatten_cons]
      have ih := flatten_insertIdx_perm X pos L (by simpa using h)
      have h1 := ih.append_left K
      have h2 : (K ++ (X ++ L.flatten)).Perm (X ++ (K ++ L.flatten)) := by
        rw [show K ++ (X ++ L.flatten) = (K ++ X) ++ L.flatten by simp,
          show X ++ (K ++ L.flatten) = (X ++ K) ++ L.flatten by simp]
        exact (List.perm_append_comm).append_right _
      exact h1.trans h2

theorem zip_append_cons {α β : Type} (A B : List α) (C D : List β) (x : α) (y : β)
    (h : A.length = C.length) :
    (A ++ x :: B).zip (C ++ y :: D) = A.zip C ++ (x, y) :: B.zip D := by
  rw [List.zip_append h]
  simp

theorem all_some_eq_map {α : Type} (l : List (Option α))
    (h : ∀ x ∈ l, ∃ y, x = some y) : ∃ l2 : List α, l = l2.map some := by
  induction l with
  | nil => exact ⟨[], rfl⟩
  | cons x l ih =>
      obtain ⟨y, hy⟩ := h x (by simp)
      obtain ⟨l2, hl2⟩ := ih (fun z hz => h z (List.mem_cons_of_mem x hz))
      exact ⟨y :: l2, by simp [hy, hl2]⟩

theorem all_none_eq_replicate {α : Type} (l : List (Option α))
    (h : ∀ x ∈ l, x = none) : l = List.replicate l.length none := by
  induction l with
  | nil => rfl
  | cons x l ih =>
      have hx := h x (by simp)
      have h2 := ih (fun z hz => h z (List.mem_cons_of_mem x hz))
      simp only [List.length_cons, List.replicate_succ]
      rw [hx]
      exact congrArg (none :: ·) h2

theorem map_some_eq_append_cons {α : Type} (subs : List α)
    (CP : List (Option α)) (c : Option α) (CS : List (Option α))
    (h : subs.map some = CP ++ c :: CS) :
    ∃ SP sc SS, subs = SP ++ sc :: SS ∧ CP = SP.map some ∧ c = some sc ∧
      CS = SS.map some := by
  induction subs generalizing CP with
  | nil =>
      exfalso
      have := congrArg List.length h
      simp at this
      omega
  | cons s subs ih =>
      cases CP with
      | nil =>
          simp only [List.map_cons, List.nil_append, List.cons.injEq] at h
          exact ⟨[], s, subs, rfl, rfl, h.1.symm, h.2.symm⟩
      | cons cp CP =>
          simp only [List.map_cons, List.cons_append, List.cons.injEq] at h
          obtain ⟨SP, sc, SS, h1, h2, h3, h4⟩ := ih CP h.2
          exact ⟨s :: SP, sc, SS, by simp [h1], by simp [h2, h.1.symm], h3, h4⟩

/-- The in-order contents contributed by one (device, child) slot pair. -/
def pcon : IoTDevice × Option Node → List IoTDevice
  | (d, c) => d :: (match c with | some t => contents t | none => [])

theorem slotsContents_nil (cs : List (Option Node)) :
    slotsContents [] cs = [] := by
  conv_lhs => rw [slotsContents.eq_def]

theorem slotsContents_cons_nil (d : Option IoTDevice)
    (ds : List (Option IoTDevice)) : slotsContents (d :: ds) [] = [] := by
  conv_lhs => rw [slotsContents.eq_def]

theorem slotsContents_cons (d : Option IoTDevice) (ds : List (Option IoTDevice))
    (c : Option Node) (cs : List (Option Node)) :
    slotsContents (d :: ds) (c :: cs) =
      (match d with | some k => [k] | none => []) ++
        ((match c with | some t => contents t | none => []) ++
          slotsContents ds cs) := by
  conv_lhs => rw [slotsContents.eq_def]

theorem slotsContents_eq_flatten :
    ∀ (devs : List IoTDevice) (cs : List (Option Node)),
    slotsContents (devs.map some) cs = ((devs.zip cs).map pcon).flatten
  | [], cs => by simp [slotsContents_nil]
  | d :: devs, [] => by simp [slotsContents_cons_nil]
  | d :: devs, c :: cs => by
      rw [List.map_cons, slotsContents_cons, List.zip_cons_cons, List.map_cons,
        List.flatten_cons, slotsContents_eq_flatten devs cs]
      simp [pcon]

/-! ### Soundness of the closest-index scan on arbitrary nodes -/

theorem fciLoop_right {key : Nat} :
    ∀ (ds : List (Option IoTDevice)) (i : Nat) (acc : Direction) {j : Nat},
    fciLoop key ds i acc = .Right j →
    acc = .Right j ∨ (i ≤ j ∧ ∃ d, ds[j - i]? = some (some d))
  | [], i, acc, j, h => by simp [fciLoop] at h; exact Or.inl h
  | none :: ds, i, acc, j, h => by
      rcases fciLoop_right ds (i + 1) acc h with h1 | ⟨h1, d, h2⟩
      · exact Or.inl h1
      · refine Or.inr ⟨by omega, d, ?_⟩
        have he : j - i = (j - (i + 1)) + 1 := by omega
        rw [he]
        simpa using h2
  | some dev :: ds, i, acc, j, h => by
      by_cases hle : dev.numerical_id ≤ key
      · rw [fciLoop, if_pos hle] at h
        rcases fciLoop_right ds (i + 1) (.Right i) h with h1 | ⟨h1, d, h2⟩
        · cases h1
          exact Or.inr ⟨Nat.le_refl _, dev, by simp⟩
        · refine Or.inr ⟨by omega, d, ?_⟩
          have he : j - i = (j - (i + 1)) + 1 := by omega
          rw [he]
          simpa using h2
      · rw [fciLoop, if_neg hle] at h
        exact Or.inl h

theorem fci_right_bound {n : Node} {key j : Nat}
    (h : n.find_closest_index key = .Right j) :
    j < n.devices.length ∧ ∃ d, n.devices[j]? = some (some d) := by
  rcases fciLoop_right n.devices 0 .Left h with h1 | ⟨_, d, h2⟩
  · exact absurd h1 (by simp)
  · rw [Nat.sub_zero] at h2
    refine ⟨?_, d, h2⟩
    have := List.getElem?_eq_some_iff.mp h2
    exact this.1

/-! ### Behaviour of the node operations on arbitrary (unsorted) nodes -/

theorem add_key_shape (ds : List (Option IoTDevice)) (cs : List (Option Node))
    (lc : Option Node) (ty : NodeType) (key : Nat) (dv : Option IoTDevice)
    (tree : Option Node) (hlen : ds.length = cs.length) :
    ∃ pos, pos ≤ ds.length ∧
      (Node.mk ds cs lc ty).add_key key (dv, tree)
        = (.mk (ds.insertIdx pos dv) (cs.insertIdx pos tree) lc ty, true) := by
  cases hfci : (Node.mk ds cs lc ty).find_closest_index key with
  | Left =>
      refine ⟨0, Nat.zero_le _, ?_⟩
      unfold Node.add_key
      rw [hfci]
      show (if (0 : Nat) ≥ ds.length
          then (Node.mk (ds ++ [dv]) (cs ++ [tree]) lc ty, true)
          else (Node.mk (List.insertIdx 0 dv ds) (List.insertIdx 0 tree cs) lc ty,
            true))
        = (Node.mk (List.insertIdx 0 dv ds) (List.insertIdx 0 tree cs) lc ty, true)
      by_cases h0 : ds.length = 0
      · have hds : ds = [] := List.eq_nil_of_length_eq_zero h0
        have hcs : cs = [] := List.eq_nil_of_length_eq_zero (by omega)
        subst hds hcs
        simp
      · rw [if_neg (show ¬ ((0 : Nat) ≥ ds.length) from
          fun hcon => h0 (Nat.le_zero.mp hcon))]
  | Right j =>
      have hb := fci_right_bound hfci
      have hjlt : j < ds.length := hb.1
      refine ⟨j + 1, by omega, ?_⟩
      unfold Node.add_key
      rw [hfci]
      show (if j + 1 ≥ ds.length
          then (Node.mk (ds ++ [dv]) (cs ++ [tree]) lc ty, true)
          else (Node.mk (List.insertIdx (j + 1) dv ds)
            (List.insertIdx (j + 1) tree cs) lc ty, true))
        = (Node.mk (List.insertIdx (j + 1) dv ds)
            (List.insertIdx (j + 1) tree cs) lc ty, true)
      by_cases hge : j + 1 ≥ ds.length
      · have hj1 : j + 1 = ds.length := by omega
        rw [if_pos hge, hj1]
        congr 1
        rw [List.insertIdx_length_self,
          show ds.length = cs.length from hlen, List.insertIdx_length_self]
      · rw [if_neg hge]


theorem remove_key_fci_left {n : Node} {id : Nat}
    (hfci : n.find_closest_index id = .Left) :
    n.remove_key id = some ((id, (none, n.left_child)),
      .mk n.devices n.children none n.node_type) := by
  unfold Node.remove_key
  rw [hfci]

theorem remove_key_fci_right {n : Node} {id j : Nat} {d : IoTDevice}
    {c : Option Node}
    (hfci : n.find_closest_index id = .Right j)
    (hd : n.devices[j]? = some (some d)) (hc : n.children[j]? = some c) :
    n.remove_key id = some ((d.numerical_id, (some d, c)),
      .mk (n.devices.eraseIdx j) (n.children.eraseIdx j)
        n.left_child n.node_type) := by
  unfold Node.remove_key
  rw [hfci]
  simp only [Node.devices, Node.children, Node.left_child, Node.node_type] at hd hc ⊢
  rw [hd, hc]

/-! ### The structural well-formedness invariant produced by insertion -/

/-- Every node reachable through `add` from an empty store is a leaf of the
form `mkLeafN devs` or a regular node `mkRegN devs subs l` with equally long
device/child vectors. -/
inductive Shape : Node → Prop
  | leaf (devs : List IoTDevice) : Shape (mkLeafN devs)
  | regular (devs : List IoTDevice) (subs : List Node) (l : Node)
      (hlen : devs.length = subs.length)
      (hsubs : ∀ s ∈ subs, Shape s) (hl : Shape l) :
      Shape (mkRegN devs subs l)

theorem shape_lens {n : Node} (hs : Shape n) :
    n.devices.length = n.children.length := by
  cases hs with
  | leaf devs => simp [mkLeafN, Node.devices, Node.children]
  | regular devs subs l hlen _ _ =>
      simp [mkRegN, Node.devices, Node.children, hlen]

theorem shape_len {n : Node} (hs : Shape n) :
    n.len = n.devices.length + 1 := by
  rw [Node.len, shape_lens hs]

/-- Unfolding lemma for `addRCore` on a leaf. -/
theorem addRCore_leaf (order : Nat) (node : Node) (device : IoTDevice)
    (hty : node.node_type = .Leaf) :
    addRCore order node device =
      some ((node.add_key device.numerical_id (some device, none)).1,
        if (node.add_key device.numerical_id (some device, none)).2
          then 1 else 0) := by
  rw [addRCore.eq_def, hty]

/-- Unfolding lemma for `addRCore` on a regular node. -/
theorem addRCore_regular (order : Nat) (node : Node) (device : IoTDevice)
    (hty : node.node_type = .Regular) {key : Nat} {dev : Option IoTDevice}
    {tr node1 : Node}
    (hrk : node.remove_key device.numerical_id
      = some ((key, (dev, some tr)), node1)) :
    addRCore order node device =
      (match addR order tr device false with
      | none => none
      | some (child, promo, inc) =>
          let node2 := if dev.isNone then node1.add_left_child (some child)
            else (node1.add_key key (dev, some child)).1
          match promo with
          | none => some (node2, inc)
          | some sr =>
              match sr.1 with
              | none => none
              | some nd => some ((node2.add_key nd.numerical_id sr).1, inc)) := by
  rw [addRCore.eq_def, hty]
  split
  · rename_i heq
    exact NodeType.noConfusion heq
  · split
    · rename_i heq
      rw [hrk] at heq
      cases heq
    · rename_i key2 dev2 tree2 node12 heq
      rw [hrk] at heq
      obtain ⟨⟨h1, h2, h3⟩, h4⟩ : (key = key2 ∧ dev = dev2 ∧ some tr = tree2) ∧
          node1 = node12 := by
        simpa using heq
      subst h1 h2 h4
      subst h3
      rfl

/-- Unfolding lemma for `addR`. -/
theorem addR_eq (order : Nat) (node : Node) (device : IoTDevice) (isRoot : Bool) :
    addR order node device isRoot =
      match addRCore order node device with
      | none => none
      | some (node3, inc) => afterOverflow order node3 isRoot inc := by
  rw [addR.eq_def]

/-! ### `split` on arbitrary well-shaped nodes: multiset bookkeeping -/

theorem splitLoop_shape :
    ∀ (Q P : List IoTDevice) (CP CQ : List (Option Node))
      (sibDevs : List IoTDevice) (sibCs : List (Option Node))
      (slc : Option Node) (ty : NodeType),
    P.length = CP.length → Q.length = CQ.length → sibDevs.length = sibCs.length →
    ∃ (devs2 : List IoTDevice) (cs2 : List (Option Node)),
      splitLoop Q.length (Node.mk (sibDevs.map some) sibCs slc ty)
          ((P ++ Q).map some) (CP ++ CQ) =
        some (Node.mk (devs2.map some) cs2 slc ty, P.map some, CP) ∧
      devs2.length = cs2.length ∧
      (devs2.zip cs2).Perm (Q.zip CQ ++ sibDevs.zip sibCs) := by
  intro Q
  induction Q using List.reverseRecOn with
  | nil =>
      intro P CP CQ sibDevs sibCs slc ty hP hQ hsib
      have : CQ = [] := List.eq_nil_of_length_eq_zero (by simpa using hQ.symm)
      subst this
      exact ⟨sibDevs, sibCs, by simp [splitLoop], hsib, by simp⟩
  | append_singleton Q2 a ih =>
      intro P CP CQ sibDevs sibCs slc ty hP hQ hsib
      have hCQne : CQ ≠ [] := by
        intro hc; subst hc; simp at hQ
      rcases List.eq_nil_or_concat CQ with hc | ⟨CQ2, cb, rfl⟩
      · exact absurd hc hCQne
      simp only [List.concat_eq_append] at hQ hCQne ⊢
      have hQ2len : Q2.length = CQ2.length := by simpa using hQ
      have hgd : ((P ++ (Q2 ++ [a])).map some).getLast? = some (some a) := by
        have e : (P ++ (Q2 ++ [a])).map some
            = (P ++ Q2).map some ++ [some a] := by simp
        rw [e, List.getLast?_concat]
      have hgc : (CP ++ (CQ2 ++ [cb])).getLast? = some cb := by
        have e : CP ++ (CQ2 ++ [cb]) = (CP ++ CQ2) ++ [cb] := by simp
        rw [e, List.getLast?_concat]
      have hdd : ((P ++ (Q2 ++ [a])).map some).dropLast = (P ++ Q2).map some := by
        have e : (P ++ (Q2 ++ [a])).map some
            = (P ++ Q2).map some ++ [some a] := by simp
        rw [e, List.dropLast_concat]
      have hdc : (CP ++ (CQ2 ++ [cb])).dropLast = CP ++ CQ2 := by
        have e : CP ++ (CQ2 ++ [cb]) = (CP ++ CQ2) ++ [cb] := by simp
        rw [e, List.dropLast_concat]
      obtain ⟨pos, hpos, haddk⟩ := add_key_shape (sibDevs.map some) sibCs slc ty
        a.numerical_id (some a) cb (by simpa using hsib)
      have hposlen : pos ≤ sibDevs.length := by simpa using hpos
      have hmap : (sibDevs.map some).insertIdx pos (some a)
          = (sibDevs.insertIdx pos a).map some :=
        (map_insertIdx2 some a pos sibDevs).symm
      have hlen1 : (sibDevs.insertIdx pos a).length = sibDevs.length + 1 :=
        List.length_insertIdx pos sibDevs hposlen
      have hlen2 : (sibCs.insertIdx pos cb).length = sibCs.length + 1 :=
        List.length_insertIdx pos sibCs (by omega)
      obtain ⟨devs2, cs2, hspl, hl2, hperm⟩ := ih P CP CQ2
        (sibDevs.insertIdx pos a) (sibCs.insertIdx pos cb) slc ty hP hQ2len
        (by omega)
      refine ⟨devs2, cs2, ?_, hl2, ?_⟩
      · simp only [List.length_append, List.length_cons, List.length_nil]
        unfold splitLoop
        rw [hgd, hgc, hdd, hdc]
        show splitLoop Q2.length
            ((Node.mk (List.map some sibDevs) sibCs slc ty).add_key
              a.numerical_id (some a, cb)).1
            (List.map some (P ++ Q2)) (CP ++ CQ2)
          = some (Node.mk (devs2.map some) cs2 slc ty, P.map some, CP)
        rw [haddk]
        show splitLoop Q2.length
            (Node.mk ((sibDevs.map some).insertIdx pos (some a))
              (sibCs.insertIdx pos cb) slc ty)
            (List.map some (P ++ Q2)) (CP ++ CQ2)
          = some (Node.mk (devs2.map some) cs2 slc ty, P.map some, CP)
        rw [hmap]
        exact hspl
      · rw [zip_insertIdx a cb pos sibDevs sibCs hsib] at hperm
        have hzlen : pos ≤ (sibDevs.zip sibCs).length := by
          rw [List.length_zip]
          omega
        have h2 : (((sibDevs.zip sibCs).insertIdx pos (a, cb))).Perm
            ((a, cb) :: sibDevs.zip sibCs) := insertIdx_perm (a, cb) pos _ hzlen
        have h3 := hperm.trans (h2.append_left (Q2.zip CQ2))
        have e : Q2.zip CQ2 ++ (a, cb) :: sibDevs.zip sibCs
            = (Q2 ++ [a]).zip (CQ2 ++ [cb]) ++ sibDevs.zip sibCs := by
          rw [zip_append_cons Q2 [] CQ2 [] a cb hQ2len]
          simp
        rw [e] at h3
        exact h3

theorem split_shape (devs : List IoTDevice) (cs : List (Option Node))
    (lc : Option Node) (ty : NodeType)
    (hlen : devs.length = cs.length) (hne : devs ≠ []) :
    ∃ (dm : IoTDevice) (c : Option Node) (P S : List IoTDevice)
      (CP CS : List (Option Node)) (devs2 : List IoTDevice)
      (cs2 : List (Option Node)),
      (Node.mk (devs.map some) cs lc ty).split
        = some (dm, .mk (P.map some) CP lc ty, .mk (devs2.map some) cs2 c ty) ∧
      devs = P ++ dm :: S ∧ cs = CP ++ c :: CS ∧
      P.length = CP.length ∧ S.length = CS.length ∧
      P.length = devs.length / 2 ∧
      devs2.length = cs2.length ∧ (devs2.zip cs2).Perm (S.zip CS) := by
  have hpos : 0 < devs.length := by
    cases devs with
    | nil => exact absurd rfl hne
    | cons x xs => simp
  have hmlt : devs.length / 2 < devs.length := Nat.div_lt_self hpos (by omega)
  obtain ⟨P, dm, S, hdevs, hP⟩ := list_split_at_length devs (devs.length / 2) hmlt
  obtain ⟨CP, c, CS, hcs, hCP⟩ := list_split_at_length cs (devs.length / 2)
    (by omega)
  have hPCP : P.length = CP.length := by rw [hP, hCP]
  have hSCS : S.length = CS.length := by
    have h1 := congrArg List.length hdevs
    have h2 := congrArg List.length hcs
    simp at h1 h2
    omega
  obtain ⟨devs2, cs2, hspl, hl2, hperm⟩ := splitLoop_shape S P CP CS [] [] none ty
    hPCP hSCS rfl
  simp only [List.map_nil] at hspl
  refine ⟨dm, c, P, S, CP, CS, devs2, cs2, ?_, hdevs, hcs, hPCP, hSCS, hP, hl2,
    by simpa using hperm⟩
  unfold Node.split
  have hdev : (Node.mk (devs.map some) cs lc ty).devices = devs.map some := rfl
  have hch : (Node.mk (devs.map some) cs lc ty).children = cs := rfl
  simp only [hdev, hch, Node.left_child, Node.node_type, Node.new,
    List.length_map]
  have e0 : devs.map some = P.map some ++ some dm :: S.map some := by
    rw [hdevs]; simp
  have hget1 : (devs.map some)[devs.length / 2]? = some (some dm) := by
    rw [e0]; exact getElem?_append_cons_of_length _ _ _ (by simp [hP])
  have hget2 : cs[devs.length / 2]? = some c := by
    rw [hcs]; exact getElem?_append_cons_of_length _ _ _ hCP
  rw [hget1, hget2]
  have he1 : (devs.map some).eraseIdx (devs.length / 2) = (P ++ S).map some := by
    rw [e0]
    have := eraseIdx_append_cons (P.map some) (some dm) (S.map some)
    rw [show (P.map some).length = devs.length / 2 by simp [hP]] at this
    rw [this]
    simp
  have he2 : cs.eraseIdx (devs.length / 2) = CP ++ CS := by
    rw [hcs]
    have := eraseIdx_append_cons CP c CS
    rwa [hCP] at this
  rw [he1, he2]
  have hcount : ((P ++ S).map some).length - devs.length / 2 = S.length := by
    simp [List.length_map, List.length_append, hP.symm]
  rw [hcount, hspl]
  simp [Node.add_left_child, Node.devices, Node.children, Node.left_child,
    Node.node_type]

/-- The contents of an optional child. -/
def optContents : Option Node → List IoTDevice
  | some t => contents t
  | none => []

theorem contents_mk2 (ds : List (Option IoTDevice)) (cs : List (Option Node))
    (lc : Option Node) (ty : NodeType) :
    contents (Node.mk ds cs lc ty) = optContents lc ++ slotsContents ds cs := by
  rw [contents_mk]
  cases lc <;> rfl

theorem mem_zip_right {α β : Type} :
    ∀ {l1 : List α} {l2 : List β} {y : β}, l1.length = l2.length → y ∈ l2 →
    ∃ x, (x, y) ∈ l1.zip l2
  | [], l2, y, hlen, hy => by
      have : l2 = [] := List.eq_nil_of_length_eq_zero (by simpa using hlen.symm)
      subst this
      simp at hy
  | x :: l1, [], y, hlen, hy => by simp at hy
  | x :: l1, b :: l2, y, hlen, hy => by
      rcases List.mem_cons.mp hy with hEq | hy2
      · exact ⟨x, by simp [hEq]⟩
      · obtain ⟨x2, hx2⟩ := mem_zip_right (by simpa using hlen) hy2
        exact ⟨x2, by simp [hx2]⟩

theorem interD_perm_of_zip_perm {devs2 subs2 S SS}
    (h1 : devs2.length = subs2.length) (h2 : S.length = SS.length)
    (hperm : (devs2.zip (subs2.map some)).Perm (S.zip (SS.map some))) :
    (interD devs2 subs2).Perm (interD S SS) := by
  have e1 : interD devs2 subs2 = ((devs2.zip (subs2.map some)).map pcon).flatten := by
    rw [← slotsContents_map, slotsContents_eq_flatten]
  have e2 : interD S SS = ((S.zip (SS.map some)).map pcon).flatten := by
    rw [← slotsContents_map, slotsContents_eq_flatten]
  rw [e1, e2]
  exact (hperm.map pcon).flatten

/-- `split` on any well-shaped node with at least one device succeeds and
produces two well-shaped halves of the same node type whose contents,
together with the promoted device, are a permutation of the original
contents. -/
theorem shape_split_strong {n : Node} (hs : Shape n) (hne : 0 < n.devices.length) :
    ∃ dm lower sib, n.split = some (dm, lower, sib) ∧
      Shape lower ∧ Shape sib ∧
      lower.node_type = n.node_type ∧ sib.node_type = n.node_type ∧
      (contents lower ++ dm :: contents sib).Perm (contents n) := by
  cases hs with
  | leaf devs =>
      have hdne : devs ≠ [] := by
        intro hc
        subst hc
        simp [mkLeafN, Node.devices] at hne
      obtain ⟨dm, c, P, S, CP, CS, devs2, cs2, hsplit, hdevs, hcs, hPCP, hSCS,
        hP, hl2, hperm⟩ := split_shape devs (List.replicate devs.length none)
          none .Leaf (by simp) hdne
      have hcsmem : ∀ x ∈ CP ++ c :: CS, x = (none : Option Node) := by
        intro x hx
        rw [← hcs] at hx
        exact List.eq_of_mem_replicate hx
      have hc : c = none := hcsmem c (by simp)
      have hCPr : CP = List.replicate CP.length none :=
        all_none_eq_replicate CP (fun x hx => hcsmem x (by simp [hx]))
      have hcs2r : cs2 = List.replicate cs2.length none := by
        apply all_none_eq_replicate
        intro x hx
        obtain ⟨d2, hd2⟩ := mem_zip_right hl2 hx
        have hmem2 : (d2, x) ∈ S.zip CS := hperm.mem_iff.mp hd2
        have hxCS : x ∈ CS := (List.of_mem_zip hmem2).2
        exact hcsmem x (by simp [hxCS])
      have hdevs2S : devs2.Perm S := by
        have e1 : (devs2.zip cs2).map Prod.fst = devs2 :=
          List.map_fst_zip devs2 cs2 (by omega)
        have e2 : (S.zip CS).map Prod.fst = S :=
          List.map_fst_zip S CS (by omega)
        rw [← e1, ← e2]
        exact hperm.map Prod.fst
      have hlower : Node.mk (P.map some) CP none NodeType.Leaf = mkLeafN P := by
        rw [mkLeafN, hCPr, hPCP]
      have hsib : Node.mk (devs2.map some) cs2 c NodeType.Leaf = mkLeafN devs2 := by
        rw [mkLeafN, hc, hcs2r, hl2]
      refine ⟨dm, _, _, hsplit, ?_, ?_, ?_, ?_, ?_⟩
      · rw [hlower]; exact Shape.leaf P
      · rw [hsib]; exact Shape.leaf devs2
      · rw [hlower]; rfl
      · rw [hsib]; rfl
      · rw [hlower, hsib, contents_mkLeafN, contents_mkLeafN, contents_mkLeafN,
          hdevs]
        exact ((hdevs2S.cons dm).append_left P)
  | regular devs subs l hlen hsubs hl =>
      have hdne : devs ≠ [] := by
        intro hc
        subst hc
        simp [mkRegN, Node.devices] at hne
      obtain ⟨dm, c, P, S, CP, CS, devs2, cs2, hsplit, hdevs, hcs, hPCP, hSCS,
        hP, hl2, hperm⟩ := split_shape devs (subs.map some)
          (some l) .Regular (by simp [hlen]) hdne
      obtain ⟨SP, sc, SS, hsubs2, hCPm, hcm, hCSm⟩ :=
        map_some_eq_append_cons subs CP c CS hcs
      have hcs2s : ∃ subs2 : List Node, cs2 = subs2.map some := by
        apply all_some_eq_map
        intro x hx
        obtain ⟨d2, hd2⟩ := mem_zip_right hl2 hx
        have hmem2 : (d2, x) ∈ S.zip CS := hperm.mem_iff.mp hd2
        have hxCS : x ∈ CS := (List.of_mem_zip hmem2).2
        rw [hCSm] at hxCS
        obtain ⟨y, _, hy⟩ := List.mem_map.mp hxCS
        exact ⟨y, hy.symm⟩
      obtain ⟨subs2, hsubs2m⟩ := hcs2s
      have hlower : Node.mk (P.map some) CP (some l) NodeType.Regular
          = mkRegN P SP l := by
        rw [mkRegN, hCPm]
      have hsibn : Node.mk (devs2.map some) cs2 c NodeType.Regular
          = mkRegN devs2 subs2 sc := by
        rw [mkRegN, hsubs2m, hcm]
      have hl2n : devs2.length = subs2.length := by
        rw [hsubs2m] at hl2
        simpa using hl2
      have hSSlen : S.length = SS.length := by
        rw [hCSm] at hSCS
        simpa using hSCS
      have hzip2 : (devs2.zip (subs2.map some)).Perm (S.zip (SS.map some)) := by
        rw [← hsubs2m, ← hCSm]
        exact hperm
      have hinter : (interD devs2 subs2).Perm (interD S SS) :=
        interD_perm_of_zip_perm hl2n hSSlen hzip2
      have hmemSP : ∀ s ∈ SP, s ∈ subs := by
        intro s hsmem
        rw [hsubs2]
        simp [hsmem]
      have hmemSS : ∀ s ∈ SS, s ∈ subs := by
        intro s hsmem
        rw [hsubs2]
        simp [hsmem]
      have hscmem : sc ∈ subs := by rw [hsubs2]; simp
      have hmemsubs2 : ∀ s ∈ subs2, s ∈ subs := by
        intro s hsmem
        have hx : some s ∈ cs2 := by rw [hsubs2m]; simp [hsmem]
        obtain ⟨d2, hd2⟩ := mem_zip_right hl2 hx
        have hmem2 : (d2, some s) ∈ S.zip CS := hperm.mem_iff.mp hd2
        have hxCS : some s ∈ CS := (List.of_mem_zip hmem2).2
        rw [hCSm] at hxCS
        obtain ⟨y, hy1, hy2⟩ := List.mem_map.mp hxCS
        have : y = s := by simpa using hy2
        subst this
        exact hmemSS y hy1
      refine ⟨dm, _, _, hsplit, ?_, ?_, ?_, ?_, ?_⟩
      · rw [hlower]
        exact Shape.regular P SP l (by rw [hPCP, hCPm]; simp)
          (fun s hsmem => hsubs s (hmemSP s hsmem)) hl
      · rw [hsibn]
        exact Shape.regular devs2 subs2 sc hl2n
          (fun s hsmem => hsubs s (hmemsubs2 s hsmem)) (hsubs sc hscmem)
      · rw [hlower]; rfl
      · rw [hsibn]; rfl
      · rw [hlower, hsibn, contents_mkRegN, contents_mkRegN, contents_mkRegN,
          hdevs, hsubs2]
        rw [interD_append P (dm :: S) SP (sc :: SS) (by rw [hPCP, hCPm]; simp),
          interD_cons]
        have goalperm : (contents l ++ interD P SP ++
            dm :: (contents sc ++ interD devs2 subs2)).Perm
            (contents l ++ (interD P SP ++
              (dm :: (contents sc ++ interD S SS)))) := by
          rw [← List.append_assoc]
          exact ((hinter.append_left (contents sc)).cons dm).append_left _
        simpa using goalperm

theorem insertIdx_replicate_self {α : Type} (x : α) :
    ∀ (pos n : Nat), pos ≤ n →
    (List.replicate n x).insertIdx pos x = List.replicate (n + 1) x
  | 0, n, _ => by simp [List.insertIdx_zero, List.replicate_succ]
  | pos + 1, 0, h => by omega
  | pos + 1, n + 1, h => by
      rw [List.replicate_succ, List.insertIdx_succ_cons,
        insertIdx_replicate_self x pos n (by omega)]
      simp [List.replicate_succ]

theorem map_eraseIdx2 {α β : Type} (f : α → β) :
    ∀ (l : List α) (j : Nat), (l.map f).eraseIdx j = (l.eraseIdx j).map f
  | [], j => by simp
  | x :: l, 0 => by simp
  | x :: l, j + 1 => by
      simp only [List.map_cons, List.eraseIdx_cons_succ, List.map_cons]
      rw [map_eraseIdx2 f l j]

/-- `afterOverflow` with `is_root = false` on a well-shaped node: either no
overflow (node returned untouched, no promotion) or a split into two
well-shaped halves plus a promoted device. -/
theorem afterOverflow_shape_false (order : Nat) (hord : 1 ≤ order)
    (node3 : Node) (inc : Nat) (hs : Shape node3) :
    ∃ node4 promo, afterOverflow order node3 false inc = some (node4, promo, inc) ∧
      Shape node4 ∧ node4.node_type = node3.node_type ∧
      ((promo = none ∧ node4 = node3) ∨
        (∃ pd sib, promo = some (some pd, some sib) ∧ Shape sib ∧
          sib.node_type = node3.node_type ∧
          (contents node4 ++ pd :: contents sib).Perm (contents node3))) := by
  unfold afterOverflow
  by_cases hov : node3.len > order
  · rw [if_pos hov]
    have hne : 0 < node3.devices.length := by
      have h1 := shape_len hs
      have h2 : 1 ≤ node3.len := by rw [Node.len]; omega
      rw [Node.len] at hov
      have := shape_lens hs
      omega
    obtain ⟨dm, lower, sib, hsplit, hsl, hss, hty1, hty2, hperm⟩ :=
      shape_split_strong hs hne
    rw [hsplit]
    exact ⟨lower, some (some dm, some sib), rfl, hsl, hty1,
      Or.inr ⟨dm, sib, rfl, hss, hty2, hperm⟩⟩
  · rw [if_neg hov]
    exact ⟨node3, none, rfl, hs, rfl, Or.inl ⟨rfl, rfl⟩⟩

/-- `afterOverflow` with `is_root = true` on a well-shaped node: the result
is a well-shaped node with the same contents (a fresh regular root is built
when the node overflowed). -/
theorem afterOverflow_shape_true (order : Nat) (hord : 1 ≤ order)
    (node3 : Node) (inc : Nat) (hs : Shape node3) :
    ∃ node4, afterOverflow order node3 true inc = some (node4, none, inc) ∧
      Shape node4 ∧ (contents node4).Perm (contents node3) := by
  unfold afterOverflow
  by_cases hov : node3.len > order
  · rw [if_pos hov]
    have hne : 0 < node3.devices.length := by
      rw [Node.len] at hov
      have := shape_lens hs
      omega
    obtain ⟨dm, lower, sib, hsplit, hsl, hss, hty1, hty2, hperm⟩ :=
      shape_split_strong hs hne
    rw [hsplit]
    have hpar : ((Node.new_regular.add_left_child (some lower)).add_key
        dm.numerical_id (some dm, some sib)).1 = mkRegN [dm] [sib] lower := rfl
    refine ⟨mkRegN [dm] [sib] lower, ?_, ?_, ?_⟩
    · show some (((Node.new_regular.add_left_child (some lower)).add_key
          dm.numerical_id (some dm, some sib)).1, none, inc)
        = some (mkRegN [dm] [sib] lower, none, inc)
      rw [hpar]
    · exact Shape.regular [dm] [sib] lower rfl
        (fun s hsm => by
          have : s = sib := by simpa using hsm
          rw [this]; exact hss) hsl
    · rw [contents_mkRegN]
      have e : interD [dm] [sib] = dm :: (contents sib ++ []) := rfl
      rw [e]
      rw [List.perm_iff_count]
      intro x
      have hc := hperm.count_eq x
      simp [List.count_append, List.count_cons] at hc ⊢
      omega
  · rw [if_neg hov]
    exact ⟨node3, rfl, hs, List.Perm.refl _⟩

theorem interD_insertIdx_perm (devs : List IoTDevice) (subs : List Node)
    (pd : IoTDevice) (sib : Node) (pos : Nat)
    (hlen : devs.length = subs.length) (hpos : pos ≤ devs.length) :
    (interD (devs.insertIdx pos pd) (subs.insertIdx pos sib)).Perm
      (pd :: (contents sib ++ interD devs subs)) := by
  have e1 : interD (devs.insertIdx pos pd) (subs.insertIdx pos sib)
      = (((devs.insertIdx pos pd).zip
          ((subs.insertIdx pos sib).map some)).map pcon).flatten := by
    rw [← slotsContents_map, slotsContents_eq_flatten]
  rw [e1, map_insertIdx2 some sib pos subs,
    zip_insertIdx pd (some sib) pos devs (subs.map some) (by simp [hlen]),
    map_insertIdx2 pcon (pd, some sib) pos (devs.zip (subs.map some))]
  have hflat := flatten_insertIdx_perm (pcon (pd, some sib)) pos
    ((devs.zip (subs.map some)).map pcon)
    (by rw [List.length_map, List.length_zip]; simp [hlen]; omega)
  refine hflat.trans ?_
  rw [show pcon (pd, some sib) = pd :: contents sib from rfl,
    ← slotsContents_eq_flatten, slotsContents_map]
  simp

/-- Core insertion on any well-shaped node succeeds, increments the element
count by one, preserves the node type and shape, and adds exactly the new
device to the contents. -/
theorem addRCore_shape (order : Nat) (hord : 1 ≤ order) {node : Node}
    (hs : Shape node) :
    ∀ device : IoTDevice,
    ∃ node3, addRCore order node device = some (node3, 1) ∧ Shape node3 ∧
      node3.node_type = node.node_type ∧
      (contents node3).Perm (device :: contents node) := by
  induction hs with
  | leaf devs =>
      intro device
      obtain ⟨pos, hpos, haddk⟩ := add_key_shape (devs.map some)
        (List.replicate devs.length none) none .Leaf device.numerical_id
        (some device) none (by simp)
      have hposlen : pos ≤ devs.length := by simpa using hpos
      have hnode : ((mkLeafN devs).add_key device.numerical_id (some device, none))
          = (mkLeafN (devs.insertIdx pos device), true) := by
        show ((Node.mk (devs.map some) (List.replicate devs.length none) none
          .Leaf).add_key device.numerical_id (some device, none)) = _
        rw [haddk, ← map_insertIdx2 some device pos devs,
          insertIdx_replicate_self none pos devs.length hposlen, mkLeafN,
          List.length_insertIdx pos devs hposlen]
      rw [addRCore_leaf order (mkLeafN devs) device rfl, hnode]
      refine ⟨mkLeafN (devs.insertIdx pos device), by simp, Shape.leaf _, rfl, ?_⟩
      rw [contents_mkLeafN, contents_mkLeafN]
      exact insertIdx_perm device pos devs hposlen
  | regular devs subs l hlen hsubs hl ihsubs ihl =>
      intro device
      cases hfci : (mkRegN devs subs l).find_closest_index device.numerical_id with
      | Left =>
          have hrk : (mkRegN devs subs l).remove_key device.numerical_id
              = some ((device.numerical_id, (none, some l)),
                Node.mk (devs.map some) (subs.map some) none .Regular) :=
            remove_key_fci_left hfci
          obtain ⟨c3, hcore3, hs3, hty3, hp3⟩ := ihl device
          obtain ⟨node4, promo, hao, hs4, hty4, hcase⟩ :=
            afterOverflow_shape_false order hord c3 1 hs3
          have haddRl : addR order l device false = some (node4, promo, 1) := by
            rw [addR_eq, hcore3]
            exact hao
          rw [addRCore_regular order (mkRegN devs subs l) device rfl hrk, haddRl]
          rcases hcase with ⟨hpn, hn4⟩ | ⟨pd, sib, hps, hssib, htysib, hpermsib⟩
          · subst hpn
            subst hn4
            refine ⟨mkRegN devs subs node4, rfl, ?_, rfl, ?_⟩
            · exact Shape.regular devs subs node4 hlen hsubs hs4
            · rw [contents_mkRegN, contents_mkRegN, List.perm_iff_count]
              intro x
              have h1 := hp3.count_eq x
              simp only [List.count_append, List.count_cons] at h1 ⊢
              omega
          · subst hps
            obtain ⟨pos2, hpos2, haddk2⟩ := add_key_shape (devs.map some)
              (subs.map some) (some node4) .Regular pd.numerical_id (some pd)
              (some sib) (by simp [hlen])
            have hpos2len : pos2 ≤ devs.length := by simpa using hpos2
            have hnode3 : ((Node.mk (devs.map some) (subs.map some) (some node4)
                .Regular).add_key pd.numerical_id (some pd, some sib)).1
                = mkRegN (devs.insertIdx pos2 pd) (subs.insertIdx pos2 sib)
                    node4 := by
              rw [haddk2, ← map_insertIdx2 some pd pos2 devs,
                ← map_insertIdx2 some sib pos2 subs]
              rfl
            refine ⟨mkRegN (devs.insertIdx pos2 pd) (subs.insertIdx pos2 sib)
              node4, ?_, ?_, rfl, ?_⟩
            · show some (((Node.mk (devs.map some) (subs.map some) (some node4)
                  .Regular).add_key pd.numerical_id (some pd, some sib)).1, 1)
                = _
              rw [hnode3]
            · refine Shape.regular _ _ _ ?_ ?_ hs4
              · rw [List.length_insertIdx pos2 devs hpos2len,
                  List.length_insertIdx pos2 subs (by omega), hlen]
              · intro s hsm
                have hmem := (insertIdx_perm sib pos2 subs
                  (by omega)).mem_iff.mp hsm
                rcases List.mem_cons.mp hmem with hEq | hm2
                · rw [hEq]; exact hssib
                · exact hsubs s hm2
            · have hint := interD_insertIdx_perm devs subs pd sib pos2 hlen
                hpos2len
              rw [contents_mkRegN, contents_mkRegN, List.perm_iff_count]
              intro x
              have h1 := hp3.count_eq x
              have h2 := hpermsib.count_eq x
              have h3 := hint.count_eq x
              simp only [List.count_append, List.count_cons] at h1 h2 h3 ⊢
              omega
      | Right j =>
          have hb := fci_right_bound hfci
          have hjlt : j < devs.length := by
            have h0 : j < (devs.map some).length := hb.1
            simpa using h0
          obtain ⟨dj0, hdj0⟩ := hb.2
          have hdj : (devs.map some)[j]? = some (some dj0) := hdj0
          have hdevsj : devs[j]? = some dj0 := by
            rw [List.getElem?_map] at hdj
            cases hx : devs[j]? with
            | none => rw [hx] at hdj; simp at hdj
            | some d =>
                rw [hx] at hdj
                have hd : d = dj0 := by simpa using hdj
                exact congrArg some hd
          obtain ⟨sj, hsj⟩ : ∃ sj, subs[j]? = some sj := by
            cases hx : subs[j]? with
            | none =>
                rw [List.getElem?_eq_none_iff] at hx
                omega
            | some s => exact ⟨s, rfl⟩
          have hcj : (mkRegN devs subs l).children[j]? = some (some sj) := by
            show (subs.map some)[j]? = some (some sj)
            rw [List.getElem?_map, hsj]
            rfl
          have hd2 : (mkRegN devs subs l).devices[j]? = some (some dj0) := hdj
          have hrk : (mkRegN devs subs l).remove_key device.numerical_id
              = some ((dj0.numerical_id, (some dj0, some sj)),
                mkRegN (devs.eraseIdx j) (subs.eraseIdx j) l) := by
            have h0 := remove_key_fci_right hfci hd2 hcj
            have e1 : (mkRegN devs subs l).devices.eraseIdx j
                = (devs.eraseIdx j).map some := by
              show (devs.map some).eraseIdx j = _
              rw [map_eraseIdx2]
            have e2 : (mkRegN devs subs l).children.eraseIdx j
                = (subs.eraseIdx j).map some := by
              show (subs.map some).eraseIdx j = _
              rw [map_eraseIdx2]
            rw [e1, e2] at h0
            exact h0
          obtain ⟨DP, dj, DS, hdd, hDP⟩ := list_split_at_length devs j hjlt
          obtain ⟨SP, sj2, SS, hss2, hSP⟩ := list_split_at_length subs j (by omega)
          have hdjeq : dj0 = dj := by
            have : devs[j]? = some dj := by
              rw [hdd]
              exact getElem?_append_cons_of_length _ _ _ hDP
            rw [this] at hdevsj
            exact (Option.some.inj hdevsj).symm
          subst hdjeq
          have hsjeq : sj = sj2 := by
            have : subs[j]? = some sj2 := by
              rw [hss2]
              exact getElem?_append_cons_of_length _ _ _ hSP
            rw [this] at hsj
            exact (Option.some.inj hsj).symm
          subst hsjeq
          have herased : devs.eraseIdx j = DP ++ DS := by
            rw [hdd, ← hDP]
            exact eraseIdx_append_cons DP dj0 DS
          have herases : subs.eraseIdx j = SP ++ SS := by
            rw [hss2, ← hSP]
            exact eraseIdx_append_cons SP sj SS
          have hlens : DP.length + DS.length = SP.length + SS.length := by
            have h1 := congrArg List.length hdd
            have h2 := congrArg List.length hss2
            simp at h1 h2
            omega
          have hsjmem : sj ∈ subs := List.getElem?_mem hsj
          obtain ⟨c3, hcore3, hs3, hty3, hp3⟩ := ihsubs sj hsjmem device
          obtain ⟨node4, promo, hao, hs4, hty4, hcase⟩ :=
            afterOverflow_shape_false order hord c3 1 hs3
          have haddRl : addR order sj device false = some (node4, promo, 1) := by
            rw [addR_eq, hcore3]
            exact hao
          rw [addRCore_regular order (mkRegN devs subs l) device rfl hrk, haddRl, herased, herases]
          obtain ⟨pos2, hpos2, haddk2⟩ := add_key_shape ((DP ++ DS).map some)
            ((SP ++ SS).map some) (some l) .Regular dj0.numerical_id
            (some dj0) (some node4) (by simp; omega)
          have hpos2len : pos2 ≤ (DP ++ DS).length := by simpa using hpos2
          have hnode2 : ((Node.mk ((DP ++ DS).map some) ((SP ++ SS).map some)
              (some l) .Regular).add_key dj0.numerical_id
                (some dj0, some node4)).1
              = mkRegN ((DP ++ DS).insertIdx pos2 dj0)
                  ((SP ++ SS).insertIdx pos2 node4) l := by
            rw [haddk2, ← map_insertIdx2 some dj0 pos2 (DP ++ DS),
              ← map_insertIdx2 some node4 pos2 (SP ++ SS)]
            rfl
          have hlen2 : ((DP ++ DS).insertIdx pos2 dj0).length
              = ((SP ++ SS).insertIdx pos2 node4).length := by
            rw [List.length_insertIdx pos2 _ hpos2len,
              List.length_insertIdx pos2 _ (by simp at hpos2len ⊢; omega)]
            simp
            omega
          have hmem2 : ∀ s ∈ (SP ++ SS).insertIdx pos2 node4,
              s = node4 ∨ s ∈ subs := by
            intro s hsm
            have hmem := (insertIdx_perm node4 pos2 (SP ++ SS)
              (by simp at hpos2len ⊢; omega)).mem_iff.mp hsm
            rcases List.mem_cons.mp hmem with hEq | hm2
            · exact Or.inl hEq
            · right
              rw [hss2]
              rcases List.mem_append.mp hm2 with h | h
              · exact List.mem_append.mpr (Or.inl h)
              · exact List.mem_append.mpr (Or.inr (List.mem_cons_of_mem _ h))
          have hint2 := interD_insertIdx_perm (DP ++ DS) (SP ++ SS) dj0 node4
            pos2 (by simp; omega) hpos2len
          have hintersplit : interD (DP ++ DS) (SP ++ SS)
              = interD DP SP ++ interD DS SS := by
            have hds : DP.length = SP.length := by omega
            exact interD_append DP DS SP SS hds
          have hcontn : contents (mkRegN devs subs l)
              = contents l ++ interD DP SP
                ++ (dj0 :: (contents sj ++ interD DS SS)) := by
            rw [contents_mkRegN, hdd, hss2,
              interD_append DP (dj0 :: DS) SP (sj :: SS) (by omega),
              interD_cons]
            simp
          rcases hcase with ⟨hpn, hn4⟩ | ⟨pd, sib, hps, hssib, htysib, hpermsib⟩
          · subst hpn
            subst hn4
            refine ⟨mkRegN ((DP ++ DS).insertIdx pos2 dj0)
              ((SP ++ SS).insertIdx pos2 node4) l, ?_, ?_, rfl, ?_⟩
            · show some (((Node.mk ((DP ++ DS).map some) ((SP ++ SS).map some)
                  (some l) .Regular).add_key dj0.numerical_id
                    (some dj0, some node4)).1, 1) = _
              rw [hnode2]
            · refine Shape.regular _ _ _ hlen2 ?_ hl
              intro s hsm
              rcases hmem2 s hsm with h | h
              · rw [h]; exact hs4
              · exact hsubs s h
            · rw [contents_mkRegN, hcontn, List.perm_iff_count]
              intro x
              have h1 := hp3.count_eq x
              have h3 := hint2.count_eq x
              rw [hintersplit] at h3
              simp only [List.count_append, List.count_cons] at h1 h3 ⊢
              omega
          · subst hps
            obtain ⟨pos3, hpos3, haddk3⟩ := add_key_shape
              (((DP ++ DS).insertIdx pos2 dj0).map some)
              (((SP ++ SS).insertIdx pos2 node4).map some) (some l) .Regular
              pd.numerical_id (some pd) (some sib) (by simp [hlen2])
            have hpos3len : pos3 ≤ ((DP ++ DS).insertIdx pos2 dj0).length := by
              simpa using hpos3
            have hnode3 : ((mkRegN ((DP ++ DS).insertIdx pos2 dj0)
                ((SP ++ SS).insertIdx pos2 node4) l).add_key pd.numerical_id
                  (some pd, some sib)).1
                = mkRegN (((DP ++ DS).insertIdx pos2 dj0).insertIdx pos3 pd)
                    ((((SP ++ SS).insertIdx pos2 node4)).insertIdx pos3 sib)
                    l := by
              show ((Node.mk (((DP ++ DS).insertIdx pos2 dj0).map some)
                (((SP ++ SS).insertIdx pos2 node4).map some) (some l)
                .Regular).add_key pd.numerical_id (some pd, some sib)).1 = _
              rw [haddk3, ← map_insertIdx2 some pd pos3 _,
                ← map_insertIdx2 some sib pos3 _]
              rfl
            have hint3 := interD_insertIdx_perm ((DP ++ DS).insertIdx pos2 dj0)
              ((SP ++ SS).insertIdx pos2 node4) pd sib pos3 hlen2 hpos3len
            refine ⟨mkRegN (((DP ++ DS).insertIdx pos2 dj0).insertIdx pos3 pd)
              ((((SP ++ SS).insertIdx pos2 node4)).insertIdx pos3 sib) l,
              ?_, ?_, rfl, ?_⟩
            · show some ((((Node.mk ((DP ++ DS).map some) ((SP ++ SS).map some)
                  (some l) .Regular).add_key dj0.numerical_id
                    (some dj0, some node4)).1.add_key pd.numerical_id
                      (some pd, some sib)).1, 1)
                = _
              rw [hnode2, hnode3]
            · refine Shape.regular _ _ _ ?_ ?_ hl
              · rw [List.length_insertIdx pos3 _ hpos3len,
                  List.length_insertIdx pos3 _ (by omega), hlen2]
              · intro s hsm
                have hmem := (insertIdx_perm sib pos3 _
                  (by omega)).mem_iff.mp hsm
                rcases List.mem_cons.mp hmem with hEq | hm2
                · rw [hEq]; exact hssib
                · rcases hmem2 s hm2 with h | h
                  · rw [h]; exact hs4
                  · exact hsubs s h
            · rw [contents_mkRegN, hcontn, List.perm_iff_count]
              intro x
              have h1 := hp3.count_eq x
              have h2 := hpermsib.count_eq x
              have h3 := hint2.count_eq x
              have h4 := hint3.count_eq x
              rw [hintersplit] at h3
              simp only [List.count_append, List.count_cons] at h1 h2 h3 h4 ⊢
              omega

/-- Root-level insertion on a well-shaped node: always succeeds, returns a
well-shaped root holding the old contents plus the new device. -/
theorem addR_true_shape (order : Nat) (hord : 1 ≤ order) {node : Node}
    (hs : Shape node) (device : IoTDevice) :
    ∃ root, addR order node device true = some (root, none, 1) ∧ Shape root ∧
      (contents root).Perm (device :: contents node) := by
  obtain ⟨node3, hcore, hs3, _, hp3⟩ := addRCore_shape order hord hs device
  obtain ⟨node4, hao, hs4, hp4⟩ := afterOverflow_shape_true order hord node3 1 hs3
  refine ⟨node4, ?_, hs4, hp4.trans hp3⟩
  rw [addR_eq, hcore]
  exact hao

/-- The database invariant maintained by arbitrary `add` sequences (duplicate
keys allowed): the element count matches and the root, when present, is
well-shaped and holds exactly the inserted devices. -/
def ShapeDB (db : DeviceDatabase) (l : List IoTDevice) : Prop :=
  db.length = l.length ∧
  ((db.root = none ∧ l = []) ∨
    (∃ t, db.root = some t ∧ Shape t ∧ (contents t).Perm l))

theorem ShapeDB_new (order : Nat) : ShapeDB (DeviceDatabase.new_empty order) [] :=
  ⟨rfl, Or.inl ⟨rfl, rfl⟩⟩

theorem ShapeDB_perm {db : DeviceDatabase} {l1 l2 : List IoTDevice}
    (hdb : ShapeDB db l1) (hp : l1.Perm l2) : ShapeDB db l2 := by
  obtain ⟨hlen, hroot⟩ := hdb
  refine ⟨by rw [hlen, hp.length_eq], ?_⟩
  rcases hroot with ⟨hn, hl⟩ | ⟨t, ht, hst, hpt⟩
  · subst hl
    exact Or.inl ⟨hn, hp.symm.eq_nil⟩
  · exact Or.inr ⟨t, ht, hst, hpt.trans hp⟩

theorem ShapeDB_add {db : DeviceDatabase} {l : List IoTDevice}
    (hord : 1 ≤ db.order) (hdb : ShapeDB db l) (device : IoTDevice) :
    ∃ db2, db.add device = some db2 ∧ ShapeDB db2 (device :: l) ∧
      db2.order = db.order ∧ db2.length = db.length + 1 := by
  obtain ⟨hlen, hroot⟩ := hdb
  have hnode : ∃ node,
      (match db.root with | some t => t | none => Node.new_leaf) = node ∧
      Shape node ∧ (contents node).Perm l := by
    rcases hroot with ⟨hn, hl0⟩ | ⟨t, ht, hst, hpt⟩
    · subst hl0
      rw [hn]
      refine ⟨Node.new_leaf, rfl, ?_, ?_⟩
      · exact (show Node.new_leaf = mkLeafN [] from rfl) ▸ Shape.leaf []
      · rw [show Node.new_leaf = mkLeafN [] from rfl, contents_mkLeafN]
    · rw [ht]
      exact ⟨t, rfl, hst, hpt⟩
  obtain ⟨node, hne, hsn, hpn⟩ := hnode
  obtain ⟨root, hr, hsr, hpr⟩ := addR_true_shape db.order hord hsn device
  refine ⟨{root := some root, order := db.order, length := db.length + 1},
    ?_, ⟨by simp [hlen], Or.inr ⟨root, rfl, hsr,
      hpr.trans (hpn.cons device)⟩⟩, rfl, rfl⟩
  unfold DeviceDatabase.add
  simp only [hne, hr]

theorem ShapeDB_addList {db : DeviceDatabase} {l : List IoTDevice}
    (hord : 1 ≤ db.order) (hdb : ShapeDB db l) :
    ∀ ds : List IoTDevice,
    ∃ db2, addList db ds = some db2 ∧ ShapeDB db2 (ds ++ l) ∧
      db2.order = db.order ∧ db2.length = db.length + ds.length := by
  intro ds
  induction ds generalizing db l with
  | nil => exact ⟨db, rfl, hdb, rfl, rfl⟩
  | cons d ds ih =>
      obtain ⟨db1, hadd, hdb1, hord1, hlen1⟩ := ShapeDB_add hord hdb d
      obtain ⟨db2, hlist, hdb2, hord2, hlen2⟩ := @ih db1 (d :: l)
        (by rw [hord1]; exact hord) hdb1
      refine ⟨db2, ?_, ShapeDB_perm hdb2 ?_, by rw [hord2, hord1],
        by rw [hlen2, hlen1]; simp; omega⟩
      · unfold addList
        rw [hadd]
        exact hlist
      · rw [List.perm_iff_count]
        intro x
        simp [List.count_append, List.count_cons]
        omega

/-! ### The in-order walk on well-shaped trees never panics -/

theorem walkSlots_mapped :
    ∀ (ds : List IoTDevice) (ss : List Node), ds.length = ss.length →
    (∀ s ∈ ss, walkNode s = some (contents s)) →
    walkSlots (ds.map some) (ss.map some) = some (interD ds ss)
  | [], ss, h, _ => by
      have : ss = [] := List.eq_nil_of_length_eq_zero (by simpa using h.symm)
      subst this
      simp [walkSlots, interD_nil]
  | d :: ds, [], h, _ => by simp at h
  | d :: ds, s :: ss, h, hw => by
      have hrec := walkSlots_mapped ds ss (by simpa using h)
        (fun x hx => hw x (List.mem_cons_of_mem s hx))
      simp [walkSlots, walkOpt, hw s (by simp), hrec, interD_cons]

theorem walkSlots_leaf (ds : List IoTDevice) :
    walkSlots (ds.map some) (List.replicate ds.length none) = some ds := by
  induction ds with
  | nil => simp [walkSlots]
  | cons d ds ih => simp [walkSlots, walkOpt, List.replicate_succ, ih]

/-- On a well-shaped tree the in-order walk visits no out-of-range index and
produces exactly the in-order contents. -/
theorem walk_shape {n : Node} (hs : Shape n) : walkNode n = some (contents n) := by
  induction hs with
  | leaf devs =>
      show walkNode (Node.mk (devs.map some) (List.replicate devs.length none)
        none .Leaf) = some (contents (mkLeafN devs))
      rw [contents_mkLeafN]
      simp [walkNode, walkOpt, walkSlots_leaf devs]
  | regular devs subs l hlen hsubs hl ihsubs ihl =>
      show walkNode (Node.mk (devs.map some) (subs.map some) (some l) .Regular)
        = some (contents (mkRegN devs subs l))
      rw [contents_mkRegN]
      have hws := walkSlots_mapped devs subs hlen ihsubs
      simp [walkNode, walkOpt, ihl, hws]

/-! ### Equal device/child vector lengths in every node -/

mutual

/-- Checks `devices.len() == children.len()` on every node of a tree. -/
def eqLensB : Node → Bool
  | .mk ds cs lc _ => (ds.length == cs.length) && eqLensO lc && eqLensL cs
termination_by n => sizeOf n
decreasing_by
  all_goals simp only [sizeOf_mk]
  all_goals omega

/-- `eqLensB` on an optional child. -/
def eqLensO : Option Node → Bool
  | some t => eqLensB t
  | none => true
termination_by o => sizeOf o
decreasing_by
  simp only [Option.some.sizeOf_spec]
  omega

/-- `eqLensB` on a child vector. -/
def eqLensL : List (Option Node) → Bool
  | [] => true
  | c :: cs => eqLensO c && eqLensL cs
termination_by l => sizeOf l
decreasing_by
  all_goals simp only [List.cons.sizeOf_spec]
  all_goals omega

end

theorem shape_eqLensB {n : Node} (hs : Shape n) : eqLensB n = true := by
  induction hs with
  | leaf devs =>
      show eqLensB (Node.mk (devs.map some) (List.replicate devs.length none)
        none .Leaf) = true
      have hl : ∀ m, eqLensL (List.replicate m (none : Option Node)) = true := by
        intro m
        induction m with
        | zero => simp [eqLensL]
        | succ m ih => simp [List.replicate_succ, eqLensL, eqLensO, ih]
      simp [eqLensB, eqLensO, hl]
  | regular devs subs l hlen hsubs hl ihsubs ihl =>
      show eqLensB (Node.mk (devs.map some) (subs.map some) (some l) .Regular)
        = true
      have hList : ∀ ss : List Node, (∀ s ∈ ss, eqLensB s = true) →
          eqLensL (ss.map some) = true := by
        intro ss
        induction ss with
        | nil => intro _; simp [eqLensL]
        | cons s ss ih =>
            intro hall
            simp [eqLensL, eqLensO, hall s (by simp),
              ih (fun x hx => hall x (List.mem_cons_of_mem s hx))]
      simp [eqLensB, eqLensO, hlen, ihl, hList subs ihsubs]

/-! ### Node-local safety of the direct index accesses -/

theorem get_child_total {n : Node} (k : Nat)
    (hlen : n.devices.length = n.children.length) :
    ∃ r, n.get_child k = some r := by
  unfold Node.get_child
  cases hfci : n.find_closest_index k with
  | Left => exact ⟨n.left_child, rfl⟩
  | Right i =>
      have hb := fci_right_bound hfci
      have hi : i < n.children.length := by omega
      cases hx : n.children[i]? with
      | none =>
          rw [List.getElem?_eq_none_iff] at hx
          omega
      | some c => exact ⟨c, hx⟩

theorem add_key_preserves_lens (n : Node) (key : Nat) (v : Data)
    (h : n.devices.length = n.children.length) :
    ((n.add_key key v).1).devices.length
      = ((n.add_key key v).1).children.length := by
  obtain ⟨dv, tree⟩ := v
  cases n with
  | mk ds cs lc ty =>
      have h2 : ds.length = cs.length := h
      obtain ⟨pos, hpos, he⟩ := add_key_shape ds cs lc ty key dv tree h2
      rw [he]
      show (ds.insertIdx pos dv).length = (cs.insertIdx pos tree).length
      rw [List.length_insertIdx pos ds hpos,
        List.length_insertIdx pos cs (by omega), h2]

theorem remove_key_preserves_lens {n : Node} {id : Nat} {r : Nat × Data}
    {n2 : Node} (hrk : n.remove_key id = some (r, n2))
    (h : n.devices.length = n.children.length) :
    n2.devices.length = n2.children.length := by
  unfold Node.remove_key at hrk
  split at hrk
  · simp only [Option.some.injEq, Prod.mk.injEq] at hrk
    rw [← hrk.2]
    exact h
  · split at hrk
    · rename_i x0 index hfci x1 x2 dev tree hdev hch
      simp only [Option.some.injEq, Prod.mk.injEq] at hrk
      rw [← hrk.2]
      show (n.devices.eraseIdx index).length = (n.children.eraseIdx index).length
      have hi1 : index < n.devices.length := (List.getElem?_eq_some_iff.mp hdev).1
      have hi2 : index < n.children.length := (List.getElem?_eq_some_iff.mp hch).1
      rw [List.length_eraseIdx_of_lt hi1, List.length_eraseIdx_of_lt hi2, h]
    · exact absurd hrk (by simp)

theorem splitLoop_preserves_lens :
    ∀ (count : Nat) (sib : Node) (ds : List (Option IoTDevice))
      (cs : List (Option Node)) (sib2 : Node) (ds2 : List (Option IoTDevice))
      (cs2 : List (Option Node)),
    sib.devices.length = sib.children.length → ds.length = cs.length →
    splitLoop count sib ds cs = some (sib2, ds2, cs2) →
    sib2.devices.length = sib2.children.length ∧ ds2.length = cs2.length
  | 0, sib, ds, cs, sib2, ds2, cs2, hsib, hds, h => by
      simp only [splitLoop, Option.some.injEq, Prod.mk.injEq] at h
      obtain ⟨h1, h2, h3⟩ := h
      subst h1 h2 h3
      exact ⟨hsib, hds⟩
  | count + 1, sib, ds, cs, sib2, ds2, cs2, hsib, hds, h => by
      simp only [splitLoop] at h
      split at h
      · split at h
        · exact splitLoop_preserves_lens count _ _ _ _ _ _
            (add_key_preserves_lens _ _ _ hsib)
            (by simp [List.length_dropLast, hds]) h
        · exact absurd h (by simp)
      · exact absurd h (by simp)

theorem split_preserves_lens {n : Node}
    (h : n.devices.length = n.children.length) {dm : IoTDevice} {n1 n2 : Node}
    (hsp : n.split = some (dm, n1, n2)) :
    n1.devices.length = n1.children.length
      ∧ n2.devices.length = n2.children.length := by
  unfold Node.split at hsp
  simp only [] at hsp
  split at hsp
  · rename_i dev node hdev hnode
    split at hsp
    · rename_i sib dsr csr hloop
      split at hsp
      · rename_i d
        simp only [Option.some.injEq, Prod.mk.injEq] at hsp
        obtain ⟨h1, h2, h3⟩ := hsp
        have hi1 : n.devices.length / 2 < n.devices.length :=
          (List.getElem?_eq_some_iff.mp hdev).1
        have hi2 : n.devices.length / 2 < n.children.length := by omega
        have hers : (n.devices.eraseIdx (n.devices.length / 2)).length
            = (n.children.eraseIdx (n.devices.length / 2)).length := by
          rw [List.length_eraseIdx_of_lt hi1, List.length_eraseIdx_of_lt hi2, h]
        have hnew : (Node.new n.node_type).devices.length
            = (Node.new n.node_type).children.length := rfl
        obtain ⟨hsib, hrem⟩ :=
          splitLoop_preserves_lens _ _ _ _ _ _ _ hnew hers hloop
        constructor
        · rw [← h2]
          exact hrem
        · rw [← h3]
          exact hsib
      · exact absurd hsp (by simp)
    · exact absurd hsp (by simp)
  · exact absurd hsp (by simp)


/-! ### Helper facts about `takeWhile`/`dropWhile` -/

theorem dropWhile_head_false {α : Type} (p : α → Bool) :
    ∀ (l : List α) (b : α), (l.dropWhile p).head? = some b → p b = false
  | [], b, h => by simp [List.dropWhile] at h
  | a :: l, b, h => by
      by_cases hp : p a
      · rw [List.dropWhile_cons_of_pos hp] at h
        exact dropWhile_head_false p l b h
      · rw [List.dropWhile_cons_of_neg hp] at h
        simp only [List.head?_cons, Option.some.injEq] at h
        subst h
        simpa using hp

/-! ### The spec claims -/

/-- C6: `Node::split` on a node with at least one slot whose slots are
sorted ascending removes the slot at the midpoint index (slot count `/ 2`,
integer division): that slot's record is returned as the promoted key, its
child becomes the new sibling's left child, the slots past the midpoint are
moved in order into the sibling (so the sibling holds the upper half of the
slots, sorted), and the node retains exactly the lower half of its slots
together with its original left child.  Here `P`/`CP` are the slots below
the midpoint, `dm`/`c` the midpoint slot, and `S`/`CS` the slots above
it. -/
theorem C6_split_midpoint (P S : List IoTDevice) (dm : IoTDevice)
    (CP CS : List (Option Node)) (c lc : Option Node) (ty : NodeType)
    (hCP : CP.length = P.length) (hCS : CS.length = S.length)
    (hmid : (P.length + S.length + 1) / 2 = P.length)
    (hsorted : List.Pairwise devLT (P ++ dm :: S)) :
    (Node.mk ((P ++ dm :: S).map some) (CP ++ c :: CS) lc ty).split =
      some (dm, .mk (P.map some) CP lc ty, .mk (S.map some) CS c ty) :=
  split_spec P S dm CP CS c lc ty hCP hCS hmid hsorted

/-- Witness for `C6_split_midpoint`: splitting a two-slot leaf node. -/
theorem C6_split_midpoint_witness :
    ([(none : Option Node)].length = [IoTDevice.new 1 "a" "x"].length) ∧
    (([] : List (Option Node)).length = ([] : List IoTDevice).length) ∧
    (([IoTDevice.new 1 "a" "x"].length + ([] : List IoTDevice).length + 1) / 2
      = [IoTDevice.new 1 "a" "x"].length) ∧
    List.Pairwise devLT ([IoTDevice.new 1 "a" "x"]
      ++ IoTDevice.new 2 "b" "y" :: ([] : List IoTDevice)) ∧
    (Node.mk (([IoTDevice.new 1 "a" "x"]
          ++ IoTDevice.new 2 "b" "y" :: ([] : List IoTDevice)).map some)
        ([(none : Option Node)] ++ (none : Option Node)
          :: ([] : List (Option Node))) none .Leaf).split =
      some (IoTDevice.new 2 "b" "y",
        .mk ([IoTDevice.new 1 "a" "x"].map some) [(none : Option Node)]
          none .Leaf,
        .mk (([] : List IoTDevice).map some) ([] : List (Option Node))
          none .Leaf) :=
  ⟨rfl, rfl, rfl, by simp [List.pairwise_cons, devLT, IoTDevice.new],
    C6_split_midpoint [IoTDevice.new 1 "a" "x"] [] (IoTDevice.new 2 "b" "y")
      [(none : Option Node)] [] none none .Leaf rfl rfl rfl
      (by simp [List.pairwise_cons, devLT, IoTDevice.new])⟩

/-- C7: on a node whose slots are sorted ascending (non-strictly) by key,
`find_closest_index(k)` returns `Left` exactly when no slot key is `≤ k`,
and otherwise returns `Right i` where `i` is the index of the last slot
whose key is `≤ k`; under ties the returned index is the rightmost
qualifying slot. -/
theorem C7_find_closest_index_rightmost (devs : List IoTDevice)
    (cs : List (Option Node)) (lc : Option Node) (ty : NodeType) (k : Nat)
    (hsorted : devs.Pairwise (fun a b => a.numerical_id ≤ b.numerical_id)) :
    ((Node.mk (devs.map some) cs lc ty).find_closest_index k = .Left ↔
      ∀ d ∈ devs, k < d.numerical_id) ∧
    ∀ i, (Node.mk (devs.map some) cs lc ty).find_closest_index k = .Right i →
      (∃ d, devs[i]? = some d ∧ d.numerical_id ≤ k) ∧
      ∀ j d, devs[j]? = some d → d.numerical_id ≤ k → j ≤ i := by
  have hAB : devs = devs.takeWhile (fun d => decide (d.numerical_id ≤ k))
      ++ devs.dropWhile (fun d => decide (d.numerical_id ≤ k)) := by
    rw [List.takeWhile_append_dropWhile]
  set A := devs.takeWhile (fun d => decide (d.numerical_id ≤ k)) with hAdef
  set B := devs.dropWhile (fun d => decide (d.numerical_id ≤ k)) with hBdef
  have hA : ∀ a ∈ A, a.numerical_id ≤ k := by
    intro a ha
    rw [hAdef] at ha
    have h1 := List.mem_takeWhile_imp ha
    exact of_decide_eq_true h1
  have hBhead : ∀ b, B.head? = some b → k < b.numerical_id := by
    intro b hb
    have h1 := dropWhile_head_false (fun d => decide (d.numerical_id ≤ k))
      devs b hb
    have h2 := of_decide_eq_false h1
    omega
  have hBall : ∀ b ∈ B, k < b.numerical_id := by
    intro b hb
    cases hB : B with
    | nil => rw [hB] at hb; simp at hb
    | cons b0 B2 =>
        have hk0 : k < b0.numerical_id := hBhead b0 (by rw [hB]; rfl)
        have hsB : B.Pairwise (fun a b => a.numerical_id ≤ b.numerical_id) :=
          hsorted.sublist (List.IsSuffix.sublist (List.dropWhile_suffix _))
        rw [hB] at hb hsB
        rcases List.mem_cons.mp hb with rfl | hb2
        · exact hk0
        · have := (List.pairwise_cons.mp hsB).1 b hb2
          omega
  by_cases hAe : A = []
  · have hdevs : devs = B := by rw [hAB, hAe, List.nil_append]
    have hfci : (Node.mk (devs.map some) cs lc ty).find_closest_index k
        = .Left := by
      rw [hdevs]
      exact fci_left B cs lc ty k hBhead
    constructor
    · exact iff_of_true hfci (fun d hd => hBall d (hdevs ▸ hd))
    · intro i hi
      rw [hfci] at hi
      exact absurd hi (by simp)
  · have hfci : (Node.mk (devs.map some) cs lc ty).find_closest_index k
        = .Right (A.length - 1) := by
      rw [hAB]
      exact fci_right A B cs lc ty k hAe hA hBhead
    have hApos : 0 < A.length := List.length_pos.mpr hAe
    constructor
    · refine iff_of_false (by rw [hfci]; simp) ?_
      intro hall
      obtain ⟨a, ha⟩ := List.exists_mem_of_ne_nil A hAe
      have h1 := hall a (by rw [hAB]; exact List.mem_append_left B ha)
      have h2 := hA a ha
      omega
    · intro i hi
      rw [hfci] at hi
      obtain rfl : A.length - 1 = i := Direction.Right.inj hi
      have hlt : A.length - 1 < A.length := by omega
      refine ⟨⟨A[A.length - 1], ?_, hA _ (A.getElem_mem hlt)⟩, ?_⟩
      · rw [hAB, List.getElem?_append_left hlt]
        exact List.getElem?_eq_getElem hlt
      · intro j d hjd hdk
        by_contra hcon
        have hj : A.length ≤ j := by omega
        rw [hAB, List.getElem?_append_right hj] at hjd
        have hdB : d ∈ B := List.getElem?_mem hjd
        have := hBall d hdB
        omega

/-- Witness for `C7_find_closest_index_rightmost`: a node with slot keys
`[1, 2, 2]` queried at `k = 2` (ties on key 2). -/
theorem C7_find_closest_index_rightmost_witness :
    List.Pairwise (fun a b => a.numerical_id ≤ b.numerical_id)
      [IoTDevice.new 1 "a" "x", IoTDevice.new 2 "b" "y",
        IoTDevice.new 2 "c" "z"] ∧
    (((Node.mk ([IoTDevice.new 1 "a" "x", IoTDevice.new 2 "b" "y",
          IoTDevice.new 2 "c" "z"].map some) [none, none, none] none
          .Leaf).find_closest_index 2 = .Left ↔
      ∀ d ∈ [IoTDevice.new 1 "a" "x", IoTDevice.new 2 "b" "y",
        IoTDevice.new 2 "c" "z"], 2 < d.numerical_id) ∧
    ∀ i, (Node.mk ([IoTDevice.new 1 "a" "x", IoTDevice.new 2 "b" "y",
        IoTDevice.new 2 "c" "z"].map some) [none, none, none] none
          .Leaf).find_closest_index 2 = .Right i →
      (∃ d, [IoTDevice.new 1 "a" "x", IoTDevice.new 2 "b" "y",
        IoTDevice.new 2 "c" "z"][i]? = some d ∧ d.numerical_id ≤ 2) ∧
      ∀ j d, [IoTDevice.new 1 "a" "x", IoTDevice.new 2 "b" "y",
        IoTDevice.new 2 "c" "z"][j]? = some d → d.numerical_id ≤ 2 → j ≤ i) :=
  ⟨by simp [List.pairwise_cons, IoTDevice.new],
    C7_find_closest_index_rightmost
      [IoTDevice.new 1 "a" "x", IoTDevice.new 2 "b" "y",
        IoTDevice.new 2 "c" "z"] [none, none, none] none .Leaf 2
      (by simp [List.pairwise_cons, IoTDevice.new])⟩

/-- C8: on a store with `order ≥ 3` built by `add` from empty that already
holds a record with key `k`, adding a second record with key `k` succeeds
(no error, no replacement): the element count grows by one and the tree then
holds at least two slots whose records have key `k`. -/
theorem C8_duplicate_key_appended (order : Nat) (hord : 3 ≤ order)
    (ds : List IoTDevice) (k : Nat) (hk : ∃ d0 ∈ ds, d0.numerical_id = k)
    (d : IoTDevice) (hd : d.numerical_id = k) :
    ∃ db db2 t, addList (DeviceDatabase.new_empty order) ds = some db ∧
      db.add d = some db2 ∧ db2.length = db.length + 1 ∧
      db2.root = some t ∧
      2 ≤ (contents t).countP (fun x => x.numerical_id == k) := by
  have hord1 : 1 ≤ (DeviceDatabase.new_empty order).order := by
    show 1 ≤ order
    omega
  obtain ⟨db, hbuild, hdb, hordb, _⟩ :=
    ShapeDB_addList hord1 (ShapeDB_new order) ds
  obtain ⟨db2, hadd, hdb2, _, hlen2⟩ :=
    ShapeDB_add (by rw [hordb]; exact hord1) hdb d
  obtain ⟨_, hroot⟩ := hdb2
  rcases hroot with ⟨_, hnil⟩ | ⟨t, ht, _, hpt⟩
  · exact absurd hnil (by simp)
  · refine ⟨db, db2, t, hbuild, hadd, hlen2, ht, ?_⟩
    rw [hpt.countP_eq (fun x : IoTDevice => x.numerical_id == k)]
    obtain ⟨d0, hd0m, hd0k⟩ := hk
    have h2 : 0 < (ds ++ []).countP (fun x : IoTDevice => x.numerical_id == k) := by
      rw [List.countP_pos_iff]
      exact ⟨d0, by simp [hd0m], by simp [hd0k]⟩
    have h3 : (d :: (ds ++ [])).countP
          (fun x : IoTDevice => x.numerical_id == k)
        = (ds ++ []).countP (fun x : IoTDevice => x.numerical_id == k) + 1 := by
      simp [List.countP_cons, hd]
    omega

/-- Witness for `C8_duplicate_key_appended`: insert key 5, then insert a
second record with key 5. -/
theorem C8_duplicate_key_appended_witness :
    (3 ≤ 3) ∧ (∃ d0 ∈ [IoTDevice.new 5 "a" "x"], d0.numerical_id = 5) ∧
    ((IoTDevice.new 5 "b" "y").numerical_id = 5) ∧
    ∃ db db2 t,
      addList (DeviceDatabase.new_empty 3) [IoTDevice.new 5 "a" "x"]
        = some db ∧
      db.add (IoTDevice.new 5 "b" "y") = some db2 ∧
      db2.length = db.length + 1 ∧ db2.root = some t ∧
      2 ≤ (contents t).countP (fun x => x.numerical_id == 5) :=
  ⟨by decide, ⟨IoTDevice.new 5 "a" "x", by simp, rfl⟩, rfl,
    C8_duplicate_key_appended 3 (by decide) [IoTDevice.new 5 "a" "x"] 5
      ⟨IoTDevice.new 5 "a" "x", by simp, rfl⟩ (IoTDevice.new 5 "b" "y") rfl⟩

/-- C9: from an empty store with `order ≥ 3`, every sequence of insertions
via `add` runs to completion with no reachable failure: every `unwrap`
taken during the recursive insertion succeeds (a `none` anywhere in the
model would make `addList` return `none`). -/
theorem C9_add_never_fails (order : Nat) (hord : 3 ≤ order)
    (ds : List IoTDevice) :
    ∃ db, addList (DeviceDatabase.new_empty order) ds = some db := by
  have hord1 : 1 ≤ (DeviceDatabase.new_empty order).order := by
    show 1 ≤ order
    omega
  obtain ⟨db, h, _⟩ := ShapeDB_addList hord1 (ShapeDB_new order) ds
  exact ⟨db, h⟩

/-- Witness for `C9_add_never_fails`: a concrete insertion sequence. -/
theorem C9_add_never_fails_witness :
    (3 ≤ 3) ∧ ∃ db, addList (DeviceDatabase.new_empty 3)
      [IoTDevice.new 2 "a" "x", IoTDevice.new 1 "b" "y",
        IoTDevice.new 3 "c" "z"] = some db :=
  ⟨by decide, C9_add_never_fails 3 (by decide)
    [IoTDevice.new 2 "a" "x", IoTDevice.new 1 "b" "y",
      IoTDevice.new 3 "c" "z"]⟩

/-- C10: every tree built solely through `add` from an empty store satisfies
`devices.len() == children.len()` at every node (`eqLensB`), and on such a
tree the in-order walk completes without an out-of-bounds index and
`get_child` always returns (no `children[i]` panic); moreover the length
equality is preserved node-locally by each of `add_key`, `remove_key` and
`split`, and `get_child` is in bounds on any node satisfying it. -/
theorem C10_equal_vector_lengths (order : Nat) (hord : 3 ≤ order)
    (ds : List IoTDevice) :
    (∀ db t, addList (DeviceDatabase.new_empty order) ds = some db →
      db.root = some t →
      eqLensB t = true ∧ walkNode t = some (contents t) ∧
      ∀ k, ∃ r, t.get_child k = some r) ∧
    (∀ (n : Node) (key : Nat) (v : Data),
      n.devices.length = n.children.length →
      ((n.add_key key v).1).devices.length
        = ((n.add_key key v).1).children.length) ∧
    (∀ (n : Node) (id : Nat) (r : Nat × Data) (n2 : Node),
      n.devices.length = n.children.length →
      n.remove_key id = some (r, n2) →
      n2.devices.length = n2.children.length) ∧
    (∀ (n : Node) (dm : IoTDevice) (n1 n2 : Node),
      n.devices.length = n.children.length →
      n.split = some (dm, n1, n2) →
      n1.devices.length = n1.children.length
        ∧ n2.devices.length = n2.children.length) ∧
    (∀ (n : Node) (k : Nat), n.devices.length = n.children.length →
      ∃ r, n.get_child k = some r) := by
  refine ⟨?_, ?_, ?_, ?_, ?_⟩
  · intro db t hbuild hroot
    have hord1 : 1 ≤ (DeviceDatabase.new_empty order).order := by
      show 1 ≤ order
      omega
    obtain ⟨db2, hb2, hdb2, _, _⟩ :=
      ShapeDB_addList hord1 (ShapeDB_new order) ds
    rw [hbuild] at hb2
    obtain rfl : db = db2 := Option.some.inj hb2
    obtain ⟨_, hroot2⟩ := hdb2
    rcases hroot2 with ⟨hn, _⟩ | ⟨t2, ht2, hst, _⟩
    · rw [hn] at hroot
      exact absurd hroot (by simp)
    · rw [ht2] at hroot
      obtain rfl : t2 = t := Option.some.inj hroot
      exact ⟨shape_eqLensB hst, walk_shape hst,
        fun k => get_child_total k (shape_lens hst)⟩
  · intro n key v h
    exact add_key_preserves_lens n key v h
  · intro n id r n2 h hrk
    exact remove_key_preserves_lens hrk h
  · intro n dm n1 n2 h hsp
    exact split_preserves_lens h hsp
  · intro n k h
    exact get_child_total k h

/-- Witness for `C10_equal_vector_lengths` at order 3 and a concrete
insertion sequence. -/
theorem C10_equal_vector_lengths_witness :
    (3 ≤ 3) ∧
    ((∀ db t, addList (DeviceDatabase.new_empty 3)
        [IoTDevice.new 1 "a" "x", IoTDevice.new 2 "b" "y"] = some db →
      db.root = some t →
      eqLensB t = true ∧ walkNode t = some (contents t) ∧
      ∀ k, ∃ r, t.get_child k = some r) ∧
    (∀ (n : Node) (key : Nat) (v : Data),
      n.devices.length = n.children.length →
      ((n.add_key key v).1).devices.length
        = ((n.add_key key v).1).children.length) ∧
    (∀ (n : Node) (id : Nat) (r : Nat × Data) (n2 : Node),
      n.devices.length = n.children.length →
      n.remove_key id = some (r, n2) →
      n2.devices.length = n2.children.length) ∧
    (∀ (n : Node) (dm : IoTDevice) (n1 n2 : Node),
      n.devices.length = n.children.length →
      n.split = some (dm, n1, n2) →
      n1.devices.length = n1.children.length
        ∧ n2.devices.length = n2.children.length) ∧
    (∀ (n : Node) (k : Nat), n.devices.length = n.children.length →
      ∃ r, n.get_child k = some r)) :=
  ⟨by decide, C10_equal_vector_lengths 3 (by decide)
    [IoTDevice.new 1 "a" "x", IoTDevice.new 2 "b" "y"]⟩

/-! ### The full B-tree invariant (`Good`): structure, fill bounds, uniform
height, as `validate` checks them -/

/-- The invariant of a non-root subtree of height `h` in a tree built by
`add`: `Shape`-style mapped structure, slot-count bounds as `validate`
checks them on non-root nodes, and uniform leaf depth.  A leaf carries only
the upper slot bound (`validate` applies no minimum to leaves); a regular
node carries the upper bound, the half-order minimum, at least one slot,
and children of equal height. -/
inductive Good (order : Nat) : Nat → Node → Prop
  | leaf (devs : List IoTDevice) (hub : devs.length + 1 ≤ order) :
      Good order 0 (mkLeafN devs)
  | regular (h : Nat) (devs : List IoTDevice) (subs : List Node) (l : Node)
      (hlen : devs.length = subs.length)
      (hpos : 1 ≤ devs.length)
      (hub : devs.length + 1 ≤ order)
      (hmin : order / 2 ≤ devs.length + 1)
      (hsubs : ∀ s ∈ subs, Good order h s) (hl : Good order h l) :
      Good order (h + 1) (mkRegN devs subs l)

/-- The invariant of the root: as `Good` but a regular root only needs one
slot (`len ≥ 2`), with no half-order minimum. -/
inductive RootGood (order : Nat) : Nat → Node → Prop
  | leaf (devs : List IoTDevice) (hub : devs.length + 1 ≤ order) :
      RootGood order 0 (mkLeafN devs)
  | regular (h : Nat) (devs : List IoTDevice) (subs : List Node) (l : Node)
      (hlen : devs.length = subs.length)
      (hpos : 1 ≤ devs.length)
      (hub : devs.length + 1 ≤ order)
      (hsubs : ∀ s ∈ subs, Good order h s) (hl : Good order h l) :
      RootGood order (h + 1) (mkRegN devs subs l)

/-- The result of `add_r`'s pre-overflow body: like `Good`, but the top
node may (transiently) hold up to `order` slots. -/
inductive GoodPre (order : Nat) : Nat → Node → Prop
  | leaf (devs : List IoTDevice) (hub : devs.length ≤ order) :
      GoodPre order 0 (mkLeafN devs)
  | regular (h : Nat) (devs : List IoTDevice) (subs : List Node) (l : Node)
      (hlen : devs.length = subs.length)
      (hpos : 1 ≤ devs.length)
      (hub : devs.length ≤ order)
      (hsubs : ∀ s ∈ subs, Good order h s) (hl : Good order h l) :
      GoodPre order (h + 1) (mkRegN devs subs l)

theorem good_rootGood {order h : Nat} {n : Node} (hg : Good order h n) :
    RootGood order h n := by
  cases hg with
  | leaf devs hub => exact RootGood.leaf devs hub
  | regular h devs subs l hlen hpos hub hmin hsubs hl =>
      exact RootGood.regular h devs subs l hlen hpos hub hsubs hl

theorem goodPre_to_good {order h : Nat} {n : Node} (hp : GoodPre order h n)
    (hub : n.devices.length + 1 ≤ order)
    (hmin : n.node_type = .Regular → order / 2 ≤ n.devices.length + 1) :
    Good order h n := by
  cases hp with
  | leaf devs _ =>
      refine Good.leaf devs ?_
      have : (mkLeafN devs).devices.length = devs.length := by
        simp [mkLeafN, Node.devices]
      omega
  | regular h devs subs l hlen hpos _ hsubs hl =>
      have hd : (mkRegN devs subs l).devices.length = devs.length := by
        simp [mkRegN, Node.devices]
      have hm := hmin rfl
      exact Good.regular h devs subs l hlen hpos (by omega) (by omega) hsubs hl

theorem rootGood_shape {order h : Nat} {n : Node} (hg : RootGood order h n) :
    Shape n := by
  induction h using Nat.strong_induction_on generalizing n with
  | _ h ih =>
      cases hg with
      | leaf devs _ => exact Shape.leaf devs
      | regular h devs subs l hlen _ _ hsubs hl =>
          exact Shape.regular devs subs l hlen
            (fun s hs => ih h (by omega) (good_rootGood (hsubs s hs)))
            (ih h (by omega) (good_rootGood hl))

theorem good_shape {order h : Nat} {n : Node} (hg : Good order h n) :
    Shape n := rootGood_shape (good_rootGood hg)

theorem rootGood_type {order h : Nat} {n : Node} (hg : RootGood order h n) :
    (h = 0 ∧ n.node_type = .Leaf) ∨ (1 ≤ h ∧ n.node_type = .Regular) := by
  cases hg with
  | leaf devs _ => exact Or.inl ⟨rfl, rfl⟩
  | regular h devs subs l _ _ _ _ _ => exact Or.inr ⟨by omega, rfl⟩

/-- Every level of a good tree holds at least one device, so the height is
bounded by the number of stored devices. -/
theorem good_height_le {order h : Nat} {n : Node} (hg : Good order h n) :
    h ≤ (contents n).length := by
  induction hg with
  | leaf devs _ => exact Nat.zero_le _
  | regular h devs subs l hlen hpos _ _ _ _ ihsubs ihl =>
      rw [contents_mkRegN]
      have hsub : devs.Sublist (interD devs subs) := sublist_interD devs subs hlen
      have := hsub.length_le
      simp only [List.length_append]
      omega

theorem rootGood_height_le {order h : Nat} {n : Node}
    (hg : RootGood order h n) : h ≤ (contents n).length := by
  cases hg with
  | leaf devs _ => exact Nat.zero_le _
  | regular h devs subs l hlen hpos _ _ hl =>
      rw [contents_mkRegN]
      have hsub : devs.Sublist (interD devs subs) := sublist_interD devs subs hlen
      have h1 := hsub.length_le
      have h2 := good_height_le hl
      simp only [List.length_append]
      omega

/-! ### Sorted-list helpers -/

theorem pairwise_head_le {l : List IoTDevice} {b : IoTDevice}
    (hs : List.Pairwise devLT l) (hh : l.head? = some b) :
    ∀ x ∈ l, b.numerical_id ≤ x.numerical_id := by
  cases l with
  | nil => simp at hh
  | cons a t =>
      obtain rfl : a = b := by simpa using hh
      intro x hx
      rcases List.mem_cons.mp hx with rfl | hx2
      · exact Nat.le_refl _
      · exact Nat.le_of_lt ((List.pairwise_cons.mp hs).1 x hx2)

theorem interD_head {devs : List IoTDevice} {subs : List Node} (d : IoTDevice)
    (hd : devs.head? = some d) (hlen : devs.length = subs.length) :
    (interD devs subs).head? = some d := by
  cases devs with
  | nil => simp at hd
  | cons a t =>
      cases subs with
      | nil => simp at hlen
      | cons s ss =>
          rw [interD_cons]
          simpa using hd

/-- If the first slot key of a node already exceeds `key`, every device of
the slot region does. -/
theorem interD_lower_bound {key : Nat} {devs : List IoTDevice}
    {subs : List Node} (hlen : devs.length = subs.length)
    (hs : List.Pairwise devLT (interD devs subs))
    (hd : ∀ b, devs.head? = some b → key < b.numerical_id) :
    ∀ z ∈ interD devs subs, key < z.numerical_id := by
  intro z hz
  cases hdev : devs with
  | nil =>
      rw [hdev, interD_nil] at hz
      simp at hz
  | cons a t =>
      have hb := hd a (by rw [hdev]; rfl)
      have hh : (interD devs subs).head? = some a :=
        interD_head a (by rw [hdev]; rfl) hlen
      have := pairwise_head_le hs hh z hz
      omega

theorem pairwise_insert_middle {X Y : List IoTDevice} {d : IoTDevice}
    (hs : List.Pairwise devLT (X ++ Y))
    (hX : ∀ x ∈ X, devLT x d) (hY : ∀ y ∈ Y, devLT d y) :
    List.Pairwise devLT (X ++ d :: Y) := by
  rw [List.pairwise_append] at hs ⊢
  obtain ⟨hX1, hY1, hcross⟩ := hs
  refine ⟨hX1, ?_, ?_⟩
  · rw [List.pairwise_cons]
    exact ⟨hY, hY1⟩
  · intro a ha b hb
    rcases List.mem_cons.mp hb with rfl | hb2
    · exact hX a ha
    · exact hcross a ha b hb2

/-- Splitting a sorted device list around a fresh key: the strictly-smaller
prefix and the strictly-larger suffix. -/
theorem sorted_split_at_key (key : Nat) (devs : List IoTDevice)
    (hs : List.Pairwise devLT devs)
    (hfresh : ∀ x ∈ devs, x.numerical_id ≠ key) :
    ∃ A B, devs = A ++ B ∧
      (∀ a ∈ A, a.numerical_id < key) ∧
      (∀ b ∈ B, key < b.numerical_id) ∧
      (∀ b, B.head? = some b → key < b.numerical_id) := by
  have hAB : devs = devs.takeWhile (fun d => decide (d.numerical_id ≤ key))
      ++ devs.dropWhile (fun d => decide (d.numerical_id ≤ key)) := by
    rw [List.takeWhile_append_dropWhile]
  refine ⟨devs.takeWhile (fun d => decide (d.numerical_id ≤ key)),
    devs.dropWhile (fun d => decide (d.numerical_id ≤ key)), hAB, ?_, ?_, ?_⟩
  · intro a ha
    have h1 : a.numerical_id ≤ key := by
      have := List.mem_takeWhile_imp ha
      simpa using this
    have h2 : a ∈ devs := List.Sublist.mem ha
      (List.takeWhile_sublist (fun d : IoTDevice => decide (d.numerical_id ≤ key)))
    have h3 := hfresh a h2
    omega
  · intro b hb
    have hsB : (devs.dropWhile (fun d => decide (d.numerical_id ≤ key))).Pairwise
        devLT := hs.sublist (List.IsSuffix.sublist (List.dropWhile_suffix _))
    cases hB : devs.dropWhile (fun d => decide (d.numerical_id ≤ key)) with
    | nil => rw [hB] at hb; simp at hb
    | cons b0 B2 =>
        have hk0 : key < b0.numerical_id := by
          have h1 := dropWhile_head_false
            (fun d => decide (d.numerical_id ≤ key)) devs b0 (by rw [hB]; rfl)
          have h2 := of_decide_eq_false h1
          omega
        rw [hB] at hb hsB
        rcases List.mem_cons.mp hb with rfl | hb2
        · exact hk0
        · have h3 : b0.numerical_id < b.numerical_id :=
            (List.pairwise_cons.mp hsB).1 b hb2
          omega
  · intro b hb
    have h1 := dropWhile_head_false
      (fun d => decide (d.numerical_id ≤ key)) devs b hb
    have h2 := of_decide_eq_false h1
    omega

theorem good_min {order h : Nat} {n : Node} (hg : Good order h n)
    (hty : n.node_type = .Regular) : order / 2 ≤ n.devices.length + 1 := by
  cases hg with
  | leaf devs _ => exact absurd hty (by simp [mkLeafN, Node.node_type])
  | regular h devs subs l _ _ _ hmin _ _ =>
      have : (mkRegN devs subs l).devices.length = devs.length := by
        simp [mkRegN, Node.devices]
      omega

theorem good_ub {order h : Nat} {n : Node} (hg : Good order h n) :
    n.devices.length + 1 ≤ order := by
  cases hg with
  | leaf devs hub =>
      have : (mkLeafN devs).devices.length = devs.length := by
        simp [mkLeafN, Node.devices]
      omega
  | regular h devs subs l _ _ hub _ _ _ =>
      have : (mkRegN devs subs l).devices.length = devs.length := by
        simp [mkRegN, Node.devices]
      omega

theorem mkLeafN_len (devs : List IoTDevice) :
    (mkLeafN devs).len = devs.length + 1 := by
  simp [mkLeafN, Node.len, Node.children]

theorem mkRegN_len (devs : List IoTDevice) (subs : List Node) (l : Node)
    (hlen : devs.length = subs.length) :
    (mkRegN devs subs l).len = devs.length + 1 := by
  simp [mkRegN, Node.len, Node.children, hlen]

theorem goodPre_devs {order h : Nat} {n : Node} (hp : GoodPre order h n) :
    n.len = n.devices.length + 1 ∧ n.devices.length ≤ order := by
  cases hp with
  | leaf devs hub =>
      have e : (mkLeafN devs).devices.length = devs.length := by
        simp [mkLeafN, Node.devices]
      rw [e, mkLeafN_len]
      exact ⟨rfl, hub⟩
  | regular h devs subs l hlen _ hub hsubs hl =>
      have e : (mkRegN devs subs l).devices.length = devs.length := by
        simp [mkRegN, Node.devices]
      rw [e, mkRegN_len devs subs l hlen]
      exact ⟨rfl, hub⟩

/-- Decomposition of a sorted five-zone in-order list into its cross
bounds. -/
theorem pairwise_five {W1 W2 W4 W5 : List IoTDevice} {da : IoTDevice}
    (hs : List.Pairwise devLT (W1 ++ (W2 ++ da :: (W4 ++ W5)))) :
    (∀ x ∈ W1, ∀ z, (z ∈ W2 ∨ z = da ∨ z ∈ W4 ∨ z ∈ W5) → devLT x z) ∧
    (∀ x ∈ W2, ∀ z, (z = da ∨ z ∈ W4 ∨ z ∈ W5) → devLT x z) ∧
    (∀ z, (z ∈ W4 ∨ z ∈ W5) → devLT da z) ∧
    (∀ x ∈ W4, ∀ z ∈ W5, devLT x z) ∧
    List.Pairwise devLT (W4 ++ W5) := by
  rw [List.pairwise_append] at hs
  obtain ⟨h1, h2, hc1⟩ := hs
  rw [List.pairwise_append] at h2
  obtain ⟨h3, h4, hc2⟩ := h2
  rw [List.pairwise_cons] at h4
  obtain ⟨hda, h5⟩ := h4
  have h45 := List.pairwise_append.mp h5
  refine ⟨?_, ?_, ?_, h45.2.2, h5⟩
  · intro x hx z hz
    refine hc1 x hx z ?_
    rcases hz with hz | hz | hz | hz
    · exact List.mem_append_left _ hz
    · subst hz
      exact List.mem_append_right _ (by simp)
    · exact List.mem_append_right _ (by simp [hz])
    · exact List.mem_append_right _ (by simp [hz])
  · intro x hx z hz
    refine hc2 x hx z ?_
    rcases hz with hz | hz | hz
    · subst hz
      simp
    · simp [hz]
    · simp [hz]
  · intro z hz
    refine hda z ?_
    rcases hz with hz | hz
    · exact List.mem_append_left _ hz
    · exact List.mem_append_right _ hz

/-! ### `afterOverflow` on good nodes -/

theorem afterOverflow_good_false (order : Nat) (hord : 3 ≤ order) {h : Nat}
    {node3 : Node} (hp : GoodPre order h node3)
    (hsorted : List.Pairwise devLT (contents node3)) (inc : Nat) :
    (node3.devices.length + 1 ≤ order ∧
      afterOverflow order node3 false inc = some (node3, none, inc)) ∨
    (node3.devices.length = order ∧ ∃ dm lower sib,
      afterOverflow order node3 false inc
        = some (lower, some (some dm, some sib), inc) ∧
      Good order h lower ∧ Good order h sib ∧
      lower.node_type = node3.node_type ∧ sib.node_type = node3.node_type ∧
      contents lower ++ dm :: contents sib = contents node3) := by
  obtain ⟨hlen3, hub3⟩ := goodPre_devs hp
  by_cases hov : node3.len > order
  · right
    have hcnt : node3.devices.length = order := by omega
    refine ⟨hcnt, ?_⟩
    cases hp with
    | leaf devs hub =>
        have hcnt2 : devs.length = order := by
          have : (mkLeafN devs).devices.length = devs.length := by
            simp [mkLeafN, Node.devices]
          omega
        obtain ⟨P, dm, S, hPS, hP⟩ := list_split_at_length devs (order / 2)
          (by omega)
        have hsdevs : List.Pairwise devLT devs := by
          rwa [contents_mkLeafN] at hsorted
        have htot : P.length + S.length + 1 = order := by
          have h2 := hcnt2
          rw [hPS] at h2
          simp at h2
          omega
        have hm : (P.length + S.length + 1) / 2 = P.length := by omega
        have hsp := split_mkLeafN P S dm hm (by rw [← hPS]; exact hsdevs)
        rw [hPS]
        refine ⟨dm, mkLeafN P, mkLeafN S, ?_, ?_, ?_, rfl, rfl, ?_⟩
        · unfold afterOverflow
          rw [if_pos (by rw [← hPS]; exact hov), hsp]
          simp
        · exact Good.leaf P (by omega)
        · exact Good.leaf S (by omega)
        · rw [contents_mkLeafN, contents_mkLeafN, contents_mkLeafN]
    | regular h devs subs l hlen hpos hub hsubs hl =>
        have hcnt2 : devs.length = order := by
          have : (mkRegN devs subs l).devices.length = devs.length := by
            simp [mkRegN, Node.devices]
          omega
        obtain ⟨P, dm, S, hPS, hP⟩ := list_split_at_length devs (order / 2)
          (by omega)
        obtain ⟨SP, sc, SS, hSS2, hSP⟩ := list_split_at_length subs (order / 2)
          (by omega)
        have hsdevs : List.Pairwise devLT devs := by
          rw [contents_mkRegN] at hsorted
          exact (List.pairwise_append.mp hsorted).2.1.sublist
            (sublist_interD devs subs hlen)
        have htot : P.length + S.length + 1 = order := by
          have h2 := hcnt2
          rw [hPS] at h2
          simp at h2
          omega
        have hSlen : SP.length + SS.length + 1 = order := by
          have h2 : subs.length = order := by omega
          rw [hSS2] at h2
          simp at h2
          omega
        have hm : (P.length + S.length + 1) / 2 = P.length := by omega
        have hsp := split_mkRegN P S dm SP SS sc l (by omega) (by omega) hm
          (by rw [← hPS]; exact hsdevs)
        rw [hPS, hSS2]
        refine ⟨dm, mkRegN P SP l, mkRegN S SS sc, ?_, ?_, ?_, rfl, rfl, ?_⟩
        · unfold afterOverflow
          rw [if_pos (by rw [← hPS, ← hSS2]; exact hov), hsp]
          simp
        · refine Good.regular _ P SP l (by omega) (by omega) (by omega)
            (by omega) (fun s hs => hsubs s (by rw [hSS2]; simp [hs])) hl
        · refine Good.regular _ S SS sc (by omega) (by omega) (by omega)
            (by omega) (fun s hs => hsubs s (by rw [hSS2]; simp [hs]))
            (hsubs sc (by rw [hSS2]; simp))
        · rw [contents_mkRegN, contents_mkRegN, contents_mkRegN,
            interD_append P (dm :: S) SP (sc :: SS) (by omega), interD_cons]
          simp [List.append_assoc]
  · left
    refine ⟨by omega, ?_⟩
    unfold afterOverflow
    rw [if_neg hov]

theorem afterOverflow_good_true (order : Nat) (hord : 3 ≤ order) {h : Nat}
    {node3 : Node} (hp : GoodPre order h node3)
    (hsorted : List.Pairwise devLT (contents node3)) (inc : Nat) :
    (node3.devices.length + 1 ≤ order ∧
      afterOverflow order node3 true inc = some (node3, none, inc)) ∨
    (node3.devices.length = order ∧ ∃ dm lower sib,
      afterOverflow order node3 true inc
        = some (mkRegN [dm] [sib] lower, none, inc) ∧
      Good order h lower ∧ Good order h sib ∧
      lower.node_type = node3.node_type ∧ sib.node_type = node3.node_type ∧
      contents lower ++ dm :: contents sib = contents node3) := by
  obtain ⟨hlen3, hub3⟩ := goodPre_devs hp
  by_cases hov : node3.len > order
  · right
    have hcnt : node3.devices.length = order := by omega
    refine ⟨hcnt, ?_⟩
    -- reuse the `false` analysis through the split itself
    rcases afterOverflow_good_false order hord hp hsorted inc with
      ⟨hle, _⟩ | ⟨_, dm, lower, sib, hao, hglow, hgsib, htyl, htys, hcont⟩
    · omega
    · refine ⟨dm, lower, sib, ?_, hglow, hgsib, htyl, htys, hcont⟩
      have hsp : node3.split = some (dm, lower, sib) := by
        unfold afterOverflow at hao
        rw [if_pos hov] at hao
        cases hspl : node3.split with
        | none => rw [hspl] at hao; exact absurd hao (by simp)
        | some r =>
            obtain ⟨d2, l2, s2⟩ := r
            rw [hspl] at hao
            simp only [Option.some.injEq, Prod.mk.injEq] at hao
            obtain ⟨h1, ⟨h2, h3⟩, -⟩ := hao
            rfl
      unfold afterOverflow
      rw [if_pos hov, hsp]
      have hparent : ((Node.new_regular.add_left_child (some lower)).add_key
          dm.numerical_id (some dm, some sib)).1 = mkRegN [dm] [sib] lower := by
        rfl
      simp [hparent]
  · left
    refine ⟨by omega, ?_⟩
    unfold afterOverflow
    rw [if_neg hov]

/-! ### The `add_r` body on good sorted nodes: sorted positional insertion -/

theorem addRCore_good (order : Nat) (hord : 3 ≤ order) :
    ∀ (h : Nat) (node : Node), RootGood order h node →
    ∀ device : IoTDevice,
    List.Pairwise devLT (contents node) →
    (∀ x ∈ contents node, x.numerical_id ≠ device.numerical_id) →
    ∃ node3 X Y, addRCore order node device = some (node3, 1) ∧
      contents node = X ++ Y ∧ contents node3 = X ++ device :: Y ∧
      (∀ x ∈ X, devLT x device) ∧ (∀ y ∈ Y, devLT device y) ∧
      node3.node_type = node.node_type ∧
      node.devices.length ≤ node3.devices.length ∧
      GoodPre order h node3 := by
  intro h
  induction h using Nat.strong_induction_on with
  | _ h ih =>
  intro node hg device hsorted hfresh
  cases hg with
  | leaf devs hub =>
      rw [contents_mkLeafN] at hsorted hfresh
      obtain ⟨A, B, hAB, hAlt, hBgt, hBhead⟩ :=
        sorted_split_at_key device.numerical_id devs hsorted hfresh
      have e0 : mkLeafN devs = Node.mk ((A ++ B).map some)
          (List.replicate A.length none ++ List.replicate B.length none)
          none .Leaf := by
        rw [mkLeafN, hAB, List.length_append, List.replicate_add]
      have hak := add_key_spec A B (List.replicate A.length none)
        (List.replicate B.length none) none .Leaf device.numerical_id
        (some device) none (by simp) (by simp)
        (fun a ha => Nat.le_of_lt (hAlt a ha)) hBhead
      have hnode3 : ((mkLeafN devs).add_key device.numerical_id
          (some device, none)).1 = mkLeafN (A ++ device :: B) := by
        rw [e0, hak, mkLeafN]
        simp [List.replicate_add, List.replicate_succ]
      have htrue : ((mkLeafN devs).add_key device.numerical_id
          (some device, none)).2 = true := by
        rw [e0, hak]
      refine ⟨mkLeafN (A ++ device :: B), A, B, ?_, ?_, ?_, hAlt, hBgt, ?_, ?_,
        ?_⟩
      · rw [addRCore_leaf order (mkLeafN devs) device rfl, hnode3, htrue]
        rfl
      · rw [contents_mkLeafN, hAB]
      · rw [contents_mkLeafN]
      · rfl
      · show (devs.map some).length ≤ ((A ++ device :: B).map some).length
        rw [hAB]
        simp
      · refine GoodPre.leaf (A ++ device :: B) ?_
        have : devs.length = A.length + B.length := by rw [hAB]; simp
        simp only [List.length_append, List.length_cons]
        omega
  | regular h2 devs subs l hlen hpos hub hsubs hl =>
      rw [contents_mkRegN] at hsorted hfresh
      have hPl : List.Pairwise devLT (contents l) :=
        (List.pairwise_append.mp hsorted).1
      have hPint : List.Pairwise devLT (interD devs subs) :=
        (List.pairwise_append.mp hsorted).2.1
      have hcrossLI : ∀ x ∈ contents l, ∀ z ∈ interD devs subs, devLT x z :=
        (List.pairwise_append.mp hsorted).2.2
      have hPdevs : List.Pairwise devLT devs :=
        hPint.sublist (sublist_interD devs subs hlen)
      have hfreshdevs : ∀ x ∈ devs, x.numerical_id ≠ device.numerical_id :=
        fun x hx => hfresh x (List.mem_append_right _
          (List.Sublist.mem hx (sublist_interD devs subs hlen)))
      have hfreshl : ∀ x ∈ contents l, x.numerical_id ≠ device.numerical_id :=
        fun x hx => hfresh x (List.mem_append_left _ hx)
      obtain ⟨A, B, hAB, hAlt, hBgt, hBhead⟩ :=
        sorted_split_at_key device.numerical_id devs hPdevs hfreshdevs
      rcases List.eq_nil_or_concat A with hA0 | ⟨A2, da, hA2⟩
      · -- `find_closest_index` says Left: descend into the left child
        subst hA0
        simp only [List.nil_append] at hAB
        subst hAB
        have hrk : (mkRegN devs subs l).remove_key device.numerical_id
            = some ((device.numerical_id, (none, some l)),
              Node.mk (devs.map some) (subs.map some) none .Regular) :=
          remove_key_left_spec devs (subs.map some) (some l) .Regular
            device.numerical_id hBhead
        obtain ⟨c3, X, Y, hcore3, hXY, hc3, hXlt, hYgt, hty3, hmono3, hp3⟩ :=
          ih h2 (by omega) l (good_rootGood hl) device hPl hfreshl
        have hsc3 : List.Pairwise devLT (contents c3) := by
          rw [hc3]
          exact pairwise_insert_middle (by rw [← hXY]; exact hPl) hXlt hYgt
        have hIgt : ∀ z ∈ interD devs subs,
            device.numerical_id < z.numerical_id :=
          interD_lower_bound hlen hPint hBhead
        rcases afterOverflow_good_false order hord hp3 hsc3 1 with
          ⟨hle, hao⟩ | ⟨hcnt, dm, lower, sib, hao, hglow, hgsib, htyl, htys,
            hcont⟩
        · -- the child did not split
          have haddRl : addR order l device false = some (c3, none, 1) := by
            rw [addR_eq, hcore3]
            exact hao
          rw [addRCore_regular order (mkRegN devs subs l) device rfl hrk,
            haddRl]
          refine ⟨mkRegN devs subs c3, X, Y ++ interD devs subs, rfl, ?_, ?_,
            hXlt, ?_, rfl, ?_, ?_⟩
          · rw [contents_mkRegN, hXY, List.append_assoc]
          · rw [contents_mkRegN, hc3]
            simp
          · intro y hy
            rcases List.mem_append.mp hy with hy | hy
            · exact hYgt y hy
            · exact hIgt y hy
          · exact Nat.le_refl _
          · refine GoodPre.regular h2 devs subs c3 hlen hpos (by omega) hsubs
              (goodPre_to_good hp3 (by omega) ?_)
            intro hreg
            have hlreg : l.node_type = .Regular := by rw [← hty3]; exact hreg
            have := good_min hl hlreg
            omega
        · -- the child split; absorb the promoted slot at the front
          have haddRl : addR order l device false
              = some (lower, some (some dm, some sib), 1) := by
            rw [addR_eq, hcore3]
            exact hao
          rw [addRCore_regular order (mkRegN devs subs l) device rfl hrk,
            haddRl]
          have hdmmem : dm ∈ X ++ device :: Y := by
            rw [← hc3, ← hcont]
            exact List.mem_append_right _ (by simp)
          have hltdevs : ∀ b, devs.head? = some b →
              ∀ z ∈ X ++ device :: Y, z.numerical_id < b.numerical_id := by
            intro b hb z hz
            have hbdevs : b ∈ devs := List.mem_of_mem_head? (by rw [hb]; rfl)
            have hbint : b ∈ interD devs subs :=
              List.Sublist.mem hbdevs (sublist_interD devs subs hlen)
            rcases List.mem_append.mp hz with hz | hz
            · exact hcrossLI z (by rw [hXY]; exact List.mem_append_left _ hz)
                b hbint
            · rcases List.mem_cons.mp hz with rfl | hz
              · exact hBgt b hbdevs
              · exact hcrossLI z (by rw [hXY]; exact List.mem_append_right _ hz)
                  b hbint
          have hak := add_key_spec [] devs [] (subs.map some) (some lower)
            .Regular dm.numerical_id (some dm) (some sib) (by simp)
            (by simp [hlen]) (by simp)
            (fun b hb => hltdevs b hb dm hdmmem)
          have hnode5 : (((Node.mk (devs.map some) (subs.map some) none
              .Regular).add_left_child (some lower)).add_key dm.numerical_id
              (some dm, some sib)).1
              = mkRegN (dm :: devs) (sib :: subs) lower := by
            show ((Node.mk (devs.map some) (subs.map some) (some lower)
              .Regular).add_key dm.numerical_id (some dm, some sib)).1 = _
            rw [show (Node.mk (devs.map some) (subs.map some) (some lower)
              .Regular) = Node.mk ((([] : List IoTDevice) ++ devs).map some)
              (([] : List (Option Node)) ++ subs.map some) (some lower)
              .Regular from by simp, hak]
            rw [mkRegN]
            simp
          refine ⟨mkRegN (dm :: devs) (sib :: subs) lower, X,
            Y ++ interD devs subs, ?_, ?_, ?_, hXlt, ?_, rfl, ?_, ?_⟩
          · show some ((((Node.mk (devs.map some) (subs.map some) none
              .Regular).add_left_child (some lower)).add_key dm.numerical_id
              (some dm, some sib)).1, 1) = _
            rw [hnode5]
          · rw [contents_mkRegN, hXY, List.append_assoc]
          · rw [contents_mkRegN, interD_cons,
              show contents lower ++ (dm :: (contents sib ++ interD devs subs))
                = (contents lower ++ dm :: contents sib) ++ interD devs subs
                from by simp, hcont, hc3]
            simp
          · intro y hy
            rcases List.mem_append.mp hy with hy | hy
            · exact hYgt y hy
            · exact hIgt y hy
          · show (devs.map some).length ≤ ((dm :: devs).map some).length
            simp
          · refine GoodPre.regular h2 (dm :: devs) (sib :: subs) lower
              (by simp [hlen]) (by simp) (by simp; omega) ?_ hglow
            intro s hs
            rcases List.mem_cons.mp hs with rfl | hs
            · exact hgsib
            · exact hsubs s hs
      · -- `find_closest_index` says Right: descend into slot `da`'s child
        subst hA2
        simp only [List.concat_eq_append] at hAB hAlt
        have hdevs2 : devs = A2 ++ da :: B := by rw [hAB]; simp
        have hSA2lt : A2.length < subs.length := by
          have : devs.length = A2.length + 1 + B.length := by
            rw [hdevs2]; simp; omega
          omega
        obtain ⟨SA2, sa, SB, hsubs2, hSA2len⟩ :=
          list_split_at_length subs A2.length hSA2lt
        have hlB : B.length = SB.length := by
          have h1 : devs.length = A2.length + 1 + B.length := by
            rw [hdevs2]; simp; omega
          have h2 : subs.length = SA2.length + 1 + SB.length := by
            rw [hsubs2]; simp; omega
          omega
        have hinter : interD devs subs
            = interD A2 SA2 ++ da :: (contents sa ++ interD B SB) := by
          rw [hdevs2, hsubs2,
            interD_append A2 (da :: B) SA2 (sa :: SB) hSA2len.symm, interD_cons]
        rw [hinter] at hsorted hfresh
        obtain ⟨hb1, hb2, hb3, hb4, hb45⟩ := pairwise_five hsorted
        have hsa_sorted : List.Pairwise devLT (contents sa) :=
          (List.pairwise_append.mp hb45).1
        have hW5_sorted : List.Pairwise devLT (interD B SB) :=
          (List.pairwise_append.mp hb45).2.1
        have hgsa : Good order h2 sa := hsubs sa (by rw [hsubs2]; simp)
        have hfreshsa : ∀ x ∈ contents sa,
            x.numerical_id ≠ device.numerical_id := by
          intro x hx
          exact hfresh x (by
            refine List.mem_append_right _ ?_
            refine List.mem_append_right _ ?_
            exact List.mem_cons_of_mem da
              (List.mem_append_left _ hx))
        have hdaA : da.numerical_id < device.numerical_id :=
          hAlt da (by simp)
        have hA2da : ∀ a ∈ A2, a.numerical_id < da.numerical_id := by
          intro a ha
          have hp2 : List.Pairwise devLT (A2 ++ da :: B) := by
            rw [← hdevs2]; exact hPdevs
          exact (List.pairwise_append.mp hp2).2.2 a ha da (by simp)
        have hdaB : ∀ b, B.head? = some b →
            da.numerical_id < b.numerical_id := by
          intro b hb
          have hp2 : List.Pairwise devLT (A2 ++ da :: B) := by
            rw [← hdevs2]; exact hPdevs
          have hbB : b ∈ B := List.mem_of_mem_head? (by rw [hb]; rfl)
          exact (List.pairwise_cons.mp (List.pairwise_append.mp hp2).2.1).1 b hbB
        have hAda_le : ∀ a ∈ A2 ++ [da],
            a.numerical_id ≤ device.numerical_id :=
          fun a ha => Nat.le_of_lt (hAlt a ha)
        have hIgt : ∀ z ∈ interD B SB,
            device.numerical_id < z.numerical_id :=
          interD_lower_bound hlB hW5_sorted hBhead
        have hnodeeq : mkRegN devs subs l = Node.mk ((A2 ++ da :: B).map some)
            (SA2.map some ++ some sa :: SB.map some) (some l) .Regular := by
          rw [mkRegN, hdevs2, hsubs2]
          simp
        have hrk : (mkRegN devs subs l).remove_key device.numerical_id
            = some ((da.numerical_id, (some da, some sa)),
              Node.mk ((A2 ++ B).map some) (SA2.map some ++ SB.map some)
                (some l) .Regular) := by
          rw [hnodeeq]
          exact remove_key_right_spec A2 da B (SA2.map some) (SB.map some)
            (some sa) (some l) .Regular device.numerical_id
            (by simp [hSA2len]) hAda_le hBhead
        obtain ⟨c3, X, Y, hcore3, hXY, hc3, hXlt, hYgt, hty3, hmono3, hp3⟩ :=
          ih h2 (by omega) sa (good_rootGood hgsa) device hsa_sorted hfreshsa
        have hsc3 : List.Pairwise devLT (contents c3) := by
          rw [hc3]
          exact pairwise_insert_middle (by rw [← hXY]; exact hsa_sorted)
            hXlt hYgt
        -- bounds reused by both branches
        have hXlt2 : ∀ x ∈ contents l ++ (interD A2 SA2 ++ da :: X),
            devLT x device := by
          intro x hx
          rcases List.mem_append.mp hx with hx | hx
          · have h1 : x.numerical_id < da.numerical_id :=
              hb1 x hx da (Or.inr (Or.inl rfl))
            show x.numerical_id < device.numerical_id
            omega
          · rcases List.mem_append.mp hx with hx | hx
            · have h1 : x.numerical_id < da.numerical_id :=
                hb2 x hx da (Or.inl rfl)
              show x.numerical_id < device.numerical_id
              omega
            · rcases List.mem_cons.mp hx with rfl | hx
              · exact hdaA
              · exact hXlt x hx
        have hYgt2 : ∀ y ∈ Y ++ interD B SB, devLT device y := by
          intro y hy
          rcases List.mem_append.mp hy with hy | hy
          · exact hYgt y hy
          · exact hIgt y hy
        rcases afterOverflow_good_false order hord hp3 hsc3 1 with
          ⟨hle, hao⟩ | ⟨hcnt, dm, lower, sib, hao, hglow, hgsib, htyl, htys,
            hcont⟩
        · -- the child did not split
          have haddRl : addR order sa device false = some (c3, none, 1) := by
            rw [addR_eq, hcore3]
            exact hao
          rw [addRCore_regular order (mkRegN devs subs l) device rfl hrk,
            haddRl]
          have hak := add_key_spec A2 B (SA2.map some) (SB.map some) (some l)
            .Regular da.numerical_id (some da) (some c3) (by simp [hSA2len])
            (by simp [hlB]) (fun a ha => Nat.le_of_lt (hA2da a ha)) hdaB
          have hnode2 : ((Node.mk ((A2 ++ B).map some)
              (SA2.map some ++ SB.map some) (some l) .Regular).add_key
              da.numerical_id (some da, some c3)).1
              = mkRegN (A2 ++ da :: B) (SA2 ++ c3 :: SB) l := by
            rw [hak, mkRegN]
            simp
          refine ⟨mkRegN (A2 ++ da :: B) (SA2 ++ c3 :: SB) l,
            contents l ++ (interD A2 SA2 ++ da :: X), Y ++ interD B SB,
            ?_, ?_, ?_, hXlt2, hYgt2, rfl, ?_, ?_⟩
          · show some ((if (some da : Option IoTDevice).isNone
              then (Node.mk ((A2 ++ B).map some)
                (SA2.map some ++ SB.map some) (some l)
                  .Regular).add_left_child (some c3)
              else ((Node.mk ((A2 ++ B).map some)
                (SA2.map some ++ SB.map some) (some l) .Regular).add_key
                  da.numerical_id (some da, some c3)).1), 1) = _
            rw [show (some da : Option IoTDevice).isNone = false from rfl]
            simp only [Bool.false_eq_true, if_false]
            rw [hnode2]
          · rw [contents_mkRegN, hinter, hXY]
            simp
          · rw [contents_mkRegN,
              interD_append A2 (da :: B) SA2 (c3 :: SB) hSA2len.symm,
              interD_cons, hc3]
            simp
          · show (devs.map some).length
              ≤ (((A2 ++ da :: B)).map some).length
            rw [hdevs2]
          · refine GoodPre.regular h2 (A2 ++ da :: B) (SA2 ++ c3 :: SB) l
              ?_ (by simp; omega) ?_ ?_ hl
            · simp [hSA2len, hlB]
            · have : devs.length = A2.length + 1 + B.length := by
                rw [hdevs2]; simp; omega
              simp
              omega
            · intro s hs
              rcases List.mem_append.mp hs with hs | hs
              · exact hsubs s (by rw [hsubs2]; simp [hs])
              · rcases List.mem_cons.mp hs with rfl | hs
                · refine goodPre_to_good hp3 (by omega) ?_
                  intro hreg
                  have hsareg : sa.node_type = .Regular := by
                    rw [← hty3]; exact hreg
                  have := good_min hgsa hsareg
                  omega
                · exact hsubs s (by rw [hsubs2]; simp [hs])
        · -- the child split; absorb the promoted slot after `da`
          have haddRl : addR order sa device false
              = some (lower, some (some dm, some sib), 1) := by
            rw [addR_eq, hcore3]
            exact hao
          rw [addRCore_regular order (mkRegN devs subs l) device rfl hrk,
            haddRl]
          have hak := add_key_spec A2 B (SA2.map some) (SB.map some) (some l)
            .Regular da.numerical_id (some da) (some lower) (by simp [hSA2len])
            (by simp [hlB]) (fun a ha => Nat.le_of_lt (hA2da a ha)) hdaB
          have hnode2 : ((Node.mk ((A2 ++ B).map some)
              (SA2.map some ++ SB.map some) (some l) .Regular).add_key
              da.numerical_id (some da, some lower)).1
              = Node.mk (((A2 ++ [da]) ++ B).map some)
                ((SA2.map some ++ [some lower]) ++ SB.map some) (some l)
                .Regular := by
            rw [hak]
            simp
          have hdmmem : dm ∈ X ++ device :: Y := by
            rw [← hc3, ← hcont]
            exact List.mem_append_right _ (by simp)
          have hWlt : ∀ z ∈ X ++ device :: Y,
              da.numerical_id < z.numerical_id := by
            intro z hz
            rcases List.mem_append.mp hz with hz | hz
            · exact hb3 z (Or.inl (by rw [hXY]; exact List.mem_append_left _ hz))
            · rcases List.mem_cons.mp hz with rfl | hz
              · exact hdaA
              · exact hb3 z
                  (Or.inl (by rw [hXY]; exact List.mem_append_right _ hz))
          have hWltB : ∀ b, B.head? = some b → ∀ z ∈ X ++ device :: Y,
              z.numerical_id < b.numerical_id := by
            intro b hb z hz
            have hbB : b ∈ B := List.mem_of_mem_head? (by rw [hb]; rfl)
            have hbW5 : b ∈ interD B SB :=
              List.Sublist.mem hbB (sublist_interD B SB hlB)
            rcases List.mem_append.mp hz with hz | hz
            · exact hb4 z (by rw [hXY]; exact List.mem_append_left _ hz) b hbW5
            · rcases List.mem_cons.mp hz with rfl | hz
              · exact hBgt b hbB
              · exact hb4 z (by rw [hXY]; exact List.mem_append_right _ hz)
                  b hbW5
          have hak2 := add_key_spec (A2 ++ [da]) B
            (SA2.map some ++ [some lower]) (SB.map some) (some l) .Regular
            dm.numerical_id (some dm) (some sib) (by simp [hSA2len])
            (by simp [hlB])
            (fun a ha => Nat.le_of_lt (hWlt dm hdmmem |> fun hdm =>
              by
                rcases List.mem_append.mp ha with ha | ha
                · have := hA2da a ha
                  omega
                · have : a = da := by simpa using ha
                  subst this
                  exact hdm))
            (fun b hb => hWltB b hb dm hdmmem)
          have hnode6 : ((Node.mk (((A2 ++ [da]) ++ B).map some)
              ((SA2.map some ++ [some lower]) ++ SB.map some) (some l)
              .Regular).add_key dm.numerical_id (some dm, some sib)).1
              = mkRegN (A2 ++ da :: dm :: B) (SA2 ++ lower :: sib :: SB)
                  l := by
            rw [hak2, mkRegN]
            simp
          refine ⟨mkRegN (A2 ++ da :: dm :: B) (SA2 ++ lower :: sib :: SB) l,
            contents l ++ (interD A2 SA2 ++ da :: X), Y ++ interD B SB,
            ?_, ?_, ?_, hXlt2, hYgt2, rfl, ?_, ?_⟩
          · show some ((((if (some da : Option IoTDevice).isNone
              then (Node.mk ((A2 ++ B).map some)
                (SA2.map some ++ SB.map some) (some l)
                  .Regular).add_left_child (some lower)
              else ((Node.mk ((A2 ++ B).map some)
                (SA2.map some ++ SB.map some) (some l) .Regular).add_key
                  da.numerical_id (some da, some lower)).1)).add_key
                dm.numerical_id (some dm, some sib)).1, 1) = _
            rw [show (some da : Option IoTDevice).isNone = false from rfl]
            simp only [Bool.false_eq_true, if_false]
            rw [hnode2, hnode6]
          · rw [contents_mkRegN, hinter, hXY]
            simp
          · rw [contents_mkRegN,
              interD_append A2 (da :: dm :: B) SA2 (lower :: sib :: SB)
                hSA2len.symm,
              interD_cons, interD_cons,
              show contents lower ++ (dm :: (contents sib ++ interD B SB))
                = (contents lower ++ dm :: contents sib) ++ interD B SB
                from by simp, hcont, hc3]
            simp
          · show (devs.map some).length
              ≤ ((A2 ++ da :: dm :: B).map some).length
            rw [hdevs2]
            simp
          · refine GoodPre.regular h2 (A2 ++ da :: dm :: B)
              (SA2 ++ lower :: sib :: SB) l ?_ (by simp; omega) ?_ ?_ hl
            · simp [hSA2len, hlB]
            · have : devs.length = A2.length + 1 + B.length := by
                rw [hdevs2]; simp; omega
              simp
              omega
            · intro s hs
              rcases List.mem_append.mp hs with hs | hs
              · exact hsubs s (by rw [hsubs2]; simp [hs])
              · rcases List.mem_cons.mp hs with rfl | hs
                · exact hglow
                · rcases List.mem_cons.mp hs with rfl | hs
                  · exact hgsib
                  · exact hsubs s (by rw [hsubs2]; simp [hs])

theorem goodPre_to_rootGood {order h : Nat} {n : Node} (hp : GoodPre order h n)
    (hub : n.devices.length + 1 ≤ order) : RootGood order h n := by
  cases hp with
  | leaf devs _ =>
      refine RootGood.leaf devs ?_
      have : (mkLeafN devs).devices.length = devs.length := by
        simp [mkLeafN, Node.devices]
      omega
  | regular h devs subs l hlen hpos _ hsubs hl =>
      have : (mkRegN devs subs l).devices.length = devs.length := by
        simp [mkRegN, Node.devices]
      exact RootGood.regular h devs subs l hlen hpos (by omega) hsubs hl

/-- Root-level insertion on a good sorted tree with a fresh key: it
succeeds, preserves the invariant (height grows by at most one), and puts
the new device at its sorted position. -/
theorem addR_true_good (order : Nat) (hord : 3 ≤ order) {h : Nat}
    {node : Node} (hg : RootGood order h node) (device : IoTDevice)
    (hsorted : List.Pairwise devLT (contents node))
    (hfresh : ∀ x ∈ contents node, x.numerical_id ≠ device.numerical_id) :
    ∃ root h2 X Y, addR order node device true = some (root, none, 1) ∧
      RootGood order h2 root ∧ h2 ≤ h + 1 ∧
      contents node = X ++ Y ∧ contents root = X ++ device :: Y ∧
      (∀ x ∈ X, devLT x device) ∧ (∀ y ∈ Y, devLT device y) := by
  obtain ⟨node3, X, Y, hcore, hXY, hc3, hXlt, hYgt, hty3, hmono, hp3⟩ :=
    addRCore_good order hord h node hg device hsorted hfresh
  have hs3 : List.Pairwise devLT (contents node3) := by
    rw [hc3]
    exact pairwise_insert_middle (by rw [← hXY]; exact hsorted) hXlt hYgt
  rcases afterOverflow_good_true order hord hp3 hs3 1 with
    ⟨hle, hao⟩ | ⟨hcnt, dm, lower, sib, hao, hglow, hgsib, htyl, htys, hcont⟩
  · refine ⟨node3, h, X, Y, ?_, goodPre_to_rootGood hp3 (by omega),
      by omega, hXY, hc3, hXlt, hYgt⟩
    rw [addR_eq, hcore]
    exact hao
  · refine ⟨mkRegN [dm] [sib] lower, h + 1, X, Y, ?_, ?_, by omega, hXY, ?_,
      hXlt, hYgt⟩
    · rw [addR_eq, hcore]
      exact hao
    · refine RootGood.regular h [dm] [sib] lower (by simp) (by simp)
        (by simp; omega) ?_ hglow
      intro s hs
      rcases List.mem_cons.mp hs with rfl | hs
      · exact hgsib
      · simp at hs
    · rw [contents_mkRegN, interD_cons,
        show contents sib ++ interD ([] : List IoTDevice) ([] : List Node)
          = contents sib from by simp [interD_nil], hcont, hc3]

/-! ### The database invariant for distinct-key insertion sequences -/

/-- The invariant of a store built from empty by `add` with pairwise
distinct keys: the count matches, and the root (when present) is a good
sorted tree holding exactly the inserted devices, of height at most the
number of devices. -/
def GoodDB (db : DeviceDatabase) (l : List IoTDevice) : Prop :=
  3 ≤ db.order ∧ db.length = l.length ∧
  ((db.root = none ∧ l = []) ∨
    ∃ t h, db.root = some t ∧ RootGood db.order h t ∧
      List.Pairwise devLT (contents t) ∧ (contents t).Perm l ∧ h ≤ l.length)

theorem GoodDB_new (order : Nat) (hord : 3 ≤ order) :
    GoodDB (DeviceDatabase.new_empty order) [] :=
  ⟨hord, rfl, Or.inl ⟨rfl, rfl⟩⟩

theorem GoodDB_perm {db : DeviceDatabase} {l1 l2 : List IoTDevice}
    (hdb : GoodDB db l1) (hp : l1.Perm l2) : GoodDB db l2 := by
  obtain ⟨hord, hlen, hroot⟩ := hdb
  refine ⟨hord, by rw [hlen, hp.length_eq], ?_⟩
  rcases hroot with ⟨hn, hl⟩ | ⟨t, h, ht, hg, hs, hpt, hh⟩
  · subst hl
    exact Or.inl ⟨hn, hp.symm.eq_nil⟩
  · refine Or.inr ⟨t, h, ht, hg, hs, hpt.trans hp, ?_⟩
    rw [← hp.length_eq]
    exact hh

theorem GoodDB_add {db : DeviceDatabase} {l : List IoTDevice}
    (hdb : GoodDB db l) (device : IoTDevice)
    (hfresh : ∀ x ∈ l, x.numerical_id ≠ device.numerical_id) :
    ∃ db2, db.add device = some db2 ∧ GoodDB db2 (device :: l) ∧
      db2.order = db.order ∧ db2.length = db.length + 1 := by
  obtain ⟨hord, hlen, hroot⟩ := hdb
  have hnode : ∃ node h,
      (match db.root with | some t => t | none => Node.new_leaf) = node ∧
      RootGood db.order h node ∧ List.Pairwise devLT (contents node) ∧
      (contents node).Perm l ∧ h ≤ l.length := by
    rcases hroot with ⟨hn, hl0⟩ | ⟨t, h, ht, hg, hs, hpt, hh⟩
    · subst hl0
      rw [hn]
      refine ⟨Node.new_leaf, 0, rfl, ?_, ?_, ?_, by omega⟩
      · exact (show Node.new_leaf = mkLeafN [] from rfl) ▸
          RootGood.leaf [] (by simp; omega)
      · rw [show Node.new_leaf = mkLeafN [] from rfl, contents_mkLeafN]
        exact List.Pairwise.nil
      · rw [show Node.new_leaf = mkLeafN [] from rfl, contents_mkLeafN]
    · rw [ht]
      exact ⟨t, h, rfl, hg, hs, hpt, hh⟩
  obtain ⟨node, h, hne, hgn, hsn, hpn, hhn⟩ := hnode
  have hfreshn : ∀ x ∈ contents node,
      x.numerical_id ≠ device.numerical_id :=
    fun x hx => hfresh x (hpn.mem_iff.mp hx)
  obtain ⟨root, h2, X, Y, hr, hgr, hh2, hXY, hcr, hXlt, hYgt⟩ :=
    addR_true_good db.order hord hgn device hsn hfreshn
  refine ⟨{root := some root, order := db.order, length := db.length + 1},
    ?_, ⟨hord, by simp [hlen], Or.inr ⟨root, h2, rfl, hgr, ?_, ?_, ?_⟩⟩,
    rfl, rfl⟩
  · unfold DeviceDatabase.add
    simp only [hne, hr]
  · rw [hcr]
    exact pairwise_insert_middle (by rw [← hXY]; exact hsn) hXlt hYgt
  · rw [hcr]
    exact List.perm_middle.trans ((hXY ▸ hpn).cons device)
  · simp
    omega

theorem GoodDB_addList {db : DeviceDatabase} {l : List IoTDevice}
    (hdb : GoodDB db l) :
    ∀ ds : List IoTDevice,
    ((ds ++ l).map (fun d => d.numerical_id)).Nodup →
    ∃ db2, addList db ds = some db2 ∧ GoodDB db2 (ds ++ l) ∧
      db2.order = db.order ∧ db2.length = db.length + ds.length := by
  intro ds
  induction ds generalizing db l with
  | nil =>
      intro _
      exact ⟨db, rfl, hdb, rfl, rfl⟩
  | cons d ds ihl =>
      intro hnodup
      have hfresh : ∀ x ∈ l, x.numerical_id ≠ d.numerical_id := by
        intro x hx hxk
        have h1 : d.numerical_id ∉ ((ds ++ l).map
            (fun d => d.numerical_id)) := (List.nodup_cons.mp hnodup).1
        exact h1 (List.mem_map.mpr ⟨x, List.mem_append_right _ hx, hxk⟩)
      obtain ⟨db1, hadd, hdb1, hord1, hlen1⟩ := GoodDB_add hdb d hfresh
      have hperm : (d :: (ds ++ l)).Perm (ds ++ (d :: l)) :=
        List.perm_middle.symm
      have hnodup2 : ((ds ++ (d :: l)).map
          (fun d => d.numerical_id)).Nodup := by
        have h2 : ((d :: (ds ++ l)).map (fun d => d.numerical_id)).Perm
            ((ds ++ (d :: l)).map (fun d => d.numerical_id)) :=
          hperm.map _
        exact h2.nodup_iff.mp hnodup
      obtain ⟨db2, hlist, hdb2, hord2, hlen2⟩ := @ihl db1 (d :: l) hdb1 hnodup2
      refine ⟨db2, ?_, GoodDB_perm hdb2 ?_, by rw [hord2, hord1],
        by rw [hlen2, hlen1]; simp; omega⟩
      · unfold addList
        rw [hadd]
        exact hlist
      · exact hperm.symm.trans (by simp)

/-! ### The validator on good trees -/

theorem validateFold_nil (order level : Nat) (total : Bool × Nat × Nat) :
    validateFold order [] level total = total := by
  rw [validateFold.eq_def]

theorem validateFold_cons_some (order level : Nat) (tree : Node)
    (rest : List (Option Node)) (total : Bool × Nat × Nat) :
    validateFold order (some tree :: rest) level total =
      validateFold order rest level
        (total.1 && (validate order tree (level + 1)).1,
          min (validate order tree (level + 1)).2.1 total.2.1,
          max (validate order tree (level + 1)).2.2 total.2.2) := by
  rw [validateFold.eq_def]

theorem validateFold_map (order level v : Nat) :
    ∀ (ss : List Node) (b : Bool) (m1 m2 : Nat),
    (∀ t ∈ ss, validate order t (level + 1) = (true, v, v)) →
    validateFold order (ss.map some) level (b, m1, m2)
      = if ss.isEmpty then (b, m1, m2) else (b, min v m1, max v m2)
  | [], b, m1, m2, _ => by simp [validateFold_nil]
  | t :: ss, b, m1, m2, hall => by
      rw [List.map_cons, validateFold_cons_some, hall t (by simp)]
      have hrec := validateFold_map order level v ss (b && true)
        (min v m1) (max v m2) (fun x hx => hall x (by simp [hx]))
      rw [hrec]
      cases hss : ss.isEmpty
      · simp [Nat.min_assoc, Nat.max_assoc]
      · simp

theorem validate_leaf (order : Nat) (n : Node) (level : Nat)
    (hty : n.node_type = .Leaf) :
    validate order n level = (decide (n.len ≤ order), level, level) := by
  rw [validate.eq_def, hty]

theorem validate_regular (order : Nat) (n : Node) (level : Nat)
    (hty : n.node_type = .Regular) :
    validate order n level =
      validateFold order (n.children ++ [n.left_child]) level
        ((decide (n.len ≤ order)
            && decide (n.len ≥ (if level > 0 then order / 2 else 2))),
          usizeMax, level) := by
  rw [validate.eq_def, hty]

/-- On a good subtree, `validate` reports success and equal minimum and
maximum leaf depths `level + h` (the `usizeMax` bound keeps the initial
minimum accumulator out of the way, as on a real machine). -/
theorem validate_good (order : Nat) :
    ∀ (h : Nat) (n : Node), Good order h n → ∀ level : Nat,
    level + h ≤ usizeMax →
    validate order n level = (true, level + h, level + h) := by
  intro h
  induction h using Nat.strong_induction_on with
  | _ h ih =>
  intro n hg level hmax
  cases hg with
  | leaf devs hub =>
      rw [validate_leaf order (mkLeafN devs) level rfl, mkLeafN_len]
      simp only [Nat.add_zero]
      rw [decide_eq_true (by omega)]
  | regular h2 devs subs l hlen hpos hub hmin hsubs hl =>
      rw [validate_regular order (mkRegN devs subs l) level rfl]
      have hch : (mkRegN devs subs l).children ++ [(mkRegN devs subs l).left_child]
          = (subs ++ [l]).map some := by
        show subs.map some ++ [some l] = _
        simp
      rw [hch]
      have hall : ∀ t ∈ subs ++ [l],
          validate order t (level + 1) = (true, level + 1 + h2, level + 1 + h2) := by
        intro t ht
        rcases List.mem_append.mp ht with ht | ht
        · exact ih h2 (by omega) t (hsubs t ht) (level + 1) (by omega)
        · have : t = l := by simpa using ht
          subst this
          exact ih h2 (by omega) t hl (level + 1) (by omega)
      rw [validateFold_map order level (level + 1 + h2) (subs ++ [l]) _
        usizeMax level hall]
      have hne : (subs ++ [l]).isEmpty = false := by simp
      rw [hne]
      have hkr : (decide ((mkRegN devs subs l).len ≤ order)
          && decide ((mkRegN devs subs l).len
            ≥ (if level > 0 then order / 2 else 2))) = true := by
        rw [mkRegN_len devs subs l hlen]
        by_cases hl0 : level > 0
        · rw [if_pos hl0, decide_eq_true (by omega : devs.length + 1 ≤ order),
            decide_eq_true (by omega : devs.length + 1 ≥ order / 2)]
          rfl
        · rw [if_neg hl0, decide_eq_true (by omega : devs.length + 1 ≤ order),
            decide_eq_true (by omega : devs.length + 1 ≥ 2)]
          rfl
      rw [hkr]
      have h1 : min (level + 1 + h2) usizeMax = level + 1 + h2 :=
        Nat.min_eq_left (by omega)
      have h2m : max (level + 1 + h2) level = level + 1 + h2 :=
        Nat.max_eq_left (by omega)
      rw [h1, h2m]
      have : level + 1 + h2 = level + (h2 + 1) := by omega
      rw [this]
      simp

/-- Same for a good root at level 0: a regular root only needs `len ≥ 2`. -/
theorem validate_rootGood (order : Nat) {h : Nat} {t : Node}
    (hg : RootGood order h t) (hmax : h ≤ usizeMax) :
    validate order t 0 = (true, h, h) := by
  cases hg with
  | leaf devs hub =>
      rw [validate_leaf order (mkLeafN devs) 0 rfl, mkLeafN_len]
      rw [decide_eq_true (by omega)]
  | regular h2 devs subs l hlen hpos hub hsubs hl =>
      rw [validate_regular order (mkRegN devs subs l) 0 rfl]
      have hch : (mkRegN devs subs l).children ++ [(mkRegN devs subs l).left_child]
          = (subs ++ [l]).map some := by
        show subs.map some ++ [some l] = _
        simp
      rw [hch]
      have hall : ∀ t ∈ subs ++ [l],
          validate order t 1 = (true, 1 + h2, 1 + h2) := by
        intro t ht
        rcases List.mem_append.mp ht with ht | ht
        · exact validate_good order h2 t (hsubs t ht) 1 (by omega)
        · have : t = l := by simpa using ht
          subst this
          exact validate_good order h2 t hl 1 (by omega)
      rw [show (1 : Nat) = 0 + 1 from rfl] at hall
      rw [validateFold_map order 0 (0 + 1 + h2) (subs ++ [l]) _
        usizeMax 0 hall]
      have hne : (subs ++ [l]).isEmpty = false := by simp
      rw [hne]
      have hkr : (decide ((mkRegN devs subs l).len ≤ order)
          && decide ((mkRegN devs subs l).len
            ≥ (if (0 : Nat) > 0 then order / 2 else 2))) = true := by
        rw [mkRegN_len devs subs l hlen]
        have h0 : ¬ ((0 : Nat) > 0) := by omega
        rw [if_neg h0, decide_eq_true (by omega : devs.length + 1 ≤ order),
          decide_eq_true (by omega : devs.length + 1 ≥ 2)]
        rfl
      rw [hkr]
      have h1 : min (0 + 1 + h2) usizeMax = 0 + 1 + h2 :=
        Nat.min_eq_left (by omega)
      have h2m : max (0 + 1 + h2) 0 = 0 + 1 + h2 := Nat.max_eq_left (by omega)
      rw [h1, h2m]
      have : 0 + 1 + h2 = h2 + 1 := by omega
      rw [this]
      simp

/-! ### `find_r` on good sorted trees -/

theorem findR_found {node : Node} {id : Nat} {r : IoTDevice}
    (hgd : node.get_device id = some r) : findR node id = some (some r) := by
  rw [findR.eq_def, hgd]

theorem findR_leaf_none {node : Node} {id : Nat}
    (hgd : node.get_device id = none) (hty : node.node_type = .Leaf) :
    findR node id = some none := by
  rw [findR.eq_def, hgd, hty]
  simp

theorem findR_descend {node : Node} {id : Nat} {tree : Node}
    (hgd : node.get_device id = none) (hty : node.node_type = .Regular)
    (hgc : node.get_child id = some (some tree)) :
    findR node id = findR tree id := by
  rw [findR.eq_def, hgd, hty]
  rw [if_pos (by simp)]
  split
  · rename_i tree2 heq
    simp at heq
  · split
    · rename_i tree2 heq
      rw [hgc] at heq
      obtain rfl : tree = tree2 := by simpa using heq
      rfl
    · rename_i heq
      rw [hgc] at heq
      simp at heq
    · rename_i heq
      rw [hgc] at heq
      simp at heq

/-- `find_r` on a good sorted tree finds exactly the stored devices: a
device with the queried key when one exists, `None` otherwise, with no
indexing panic either way. -/
theorem findR_good (order : Nat) :
    ∀ (h : Nat) (n : Node), RootGood order h n →
    List.Pairwise devLT (contents n) → ∀ k : Nat,
    (∃ d, d ∈ contents n ∧ d.numerical_id = k ∧ findR n k = some (some d)) ∨
    ((∀ d ∈ contents n, d.numerical_id ≠ k) ∧ findR n k = some none) := by
  intro h
  induction h using Nat.strong_induction_on with
  | _ h ih =>
  intro n hg hsorted k
  cases hg with
  | leaf devs hub =>
      by_cases hex : ∃ d ∈ devs, d.numerical_id = k
      · obtain ⟨r, hr, hrk⟩ := getDeviceLoop_mem_some k devs hex
        have hmem := getDeviceLoop_eq_some hr
        left
        refine ⟨r, ?_, hrk, findR_found hr⟩
        rw [contents_mkLeafN]
        exact hmem.1
      · push_neg at hex
        right
        refine ⟨?_, findR_leaf_none (getDeviceLoop_eq_none k devs hex) rfl⟩
        intro d hd
        rw [contents_mkLeafN] at hd
        exact hex d hd
  | regular h2 devs subs l hlen hpos hub hsubs hl =>
      rw [contents_mkRegN] at hsorted
      have hPl := (List.pairwise_append.mp hsorted).1
      have hPint := (List.pairwise_append.mp hsorted).2.1
      have hPdevs : List.Pairwise devLT devs :=
        hPint.sublist (sublist_interD devs subs hlen)
      by_cases hex : ∃ d ∈ devs, d.numerical_id = k
      · obtain ⟨r, hr, hrk⟩ := getDeviceLoop_mem_some k devs hex
        have hmem := getDeviceLoop_eq_some hr
        left
        refine ⟨r, ?_, hrk, findR_found hr⟩
        rw [contents_mkRegN]
        exact List.mem_append_right _
          (List.Sublist.mem hmem.1 (sublist_interD devs subs hlen))
      · push_neg at hex
        have hgd : (mkRegN devs subs l).get_device k = none :=
          getDeviceLoop_eq_none k devs hex
        obtain ⟨A, B, hAB, hAlt, hBgt, hBhead⟩ :=
          sorted_split_at_key k devs hPdevs hex
        rcases List.eq_nil_or_concat A with hA0 | ⟨A2, da, hA2⟩
        · subst hA0
          simp only [List.nil_append] at hAB
          subst hAB
          have hgc : (mkRegN devs subs l).get_child k = some (some l) :=
            get_child_left_spec devs (subs.map some) (some l) .Regular k
              hBhead
          have hIne : ∀ z ∈ interD devs subs, z.numerical_id ≠ k := by
            intro z hz
            have := interD_lower_bound hlen hPint hBhead z hz
            omega
          have hfr : findR (mkRegN devs subs l) k = findR l k :=
            findR_descend hgd rfl hgc
          rcases ih h2 (by omega) l (good_rootGood hl) hPl k with
            ⟨d, hd, hdk, hf⟩ | ⟨hnone, hf⟩
          · left
            refine ⟨d, ?_, hdk, by rw [hfr]; exact hf⟩
            rw [contents_mkRegN]
            exact List.mem_append_left _ hd
          · right
            refine ⟨?_, by rw [hfr]; exact hf⟩
            intro d hd
            rw [contents_mkRegN] at hd
            rcases List.mem_append.mp hd with hd | hd
            · exact hnone d hd
            · exact hIne d hd
        · subst hA2
          simp only [List.concat_eq_append] at hAB hAlt
          have hdevs2 : devs = A2 ++ da :: B := by rw [hAB]; simp
          have hSA2lt : A2.length < subs.length := by
            have : devs.length = A2.length + 1 + B.length := by
              rw [hdevs2]; simp; omega
            omega
          obtain ⟨SA2, sa, SB, hsubs2, hSA2len⟩ :=
            list_split_at_length subs A2.length hSA2lt
          have hlB : B.length = SB.length := by
            have e1 : devs.length = A2.length + 1 + B.length := by
              rw [hdevs2]; simp; omega
            have e2 : subs.length = SA2.length + 1 + SB.length := by
              rw [hsubs2]; simp; omega
            omega
          have hinter : interD devs subs
              = interD A2 SA2 ++ da :: (contents sa ++ interD B SB) := by
            rw [hdevs2, hsubs2,
              interD_append A2 (da :: B) SA2 (sa :: SB) hSA2len.symm,
              interD_cons]
          rw [hinter] at hsorted
          obtain ⟨hb1, hb2, hb3, hb4, hb45⟩ := pairwise_five hsorted
          have hsa_sorted := (List.pairwise_append.mp hb45).1
          have hW5_sorted := (List.pairwise_append.mp hb45).2.1
          have hnodeeq : mkRegN devs subs l
              = Node.mk ((A2 ++ da :: B).map some)
                (SA2.map some ++ some sa :: SB.map some) (some l)
                .Regular := by
            rw [mkRegN, hdevs2, hsubs2]
            simp
          have hgc : (mkRegN devs subs l).get_child k = some (some sa) := by
            rw [hnodeeq]
            exact get_child_right_spec A2 da B (SA2.map some) (SB.map some)
              (some sa) (some l) .Regular k (by simp [hSA2len])
              (fun a ha => Nat.le_of_lt (hAlt a ha)) hBhead
          have hfr : findR (mkRegN devs subs l) k = findR sa k :=
            findR_descend hgd rfl hgc
          have hdak : da.numerical_id < k := hAlt da (by simp)
          have hIne : ∀ z, z ∈ contents l ∨ z ∈ interD A2 SA2 ∨ z = da ∨
              z ∈ interD B SB → z.numerical_id ≠ k := by
            intro z hz
            rcases hz with hz | hz | hz | hz
            · have h1 : z.numerical_id < da.numerical_id :=
                hb1 z hz da (Or.inr (Or.inl rfl))
              omega
            · have h1 : z.numerical_id < da.numerical_id :=
                hb2 z hz da (Or.inl rfl)
              omega
            · subst hz
              omega
            · have := interD_lower_bound hlB hW5_sorted hBhead z hz
              omega
          rcases ih h2 (by omega) sa
            (good_rootGood (hsubs sa (by rw [hsubs2]; simp))) hsa_sorted k
            with ⟨d, hd, hdk, hf⟩ | ⟨hnone, hf⟩
          · left
            refine ⟨d, ?_, hdk, by rw [hfr]; exact hf⟩
            rw [contents_mkRegN, hinter]
            refine List.mem_append_right _ ?_
            refine List.mem_append_right _ ?_
            exact List.mem_cons_of_mem da (List.mem_append_left _ hd)
          · right
            refine ⟨?_, by rw [hfr]; exact hf⟩
            intro d hd
            rw [contents_mkRegN, hinter] at hd
            rcases List.mem_append.mp hd with hd | hd
            · exact hIne d (Or.inl hd)
            · rcases List.mem_append.mp hd with hd | hd
              · exact hIne d (Or.inr (Or.inl hd))
              · rcases List.mem_cons.mp hd with rfl | hd
                · exact hIne d (Or.inr (Or.inr (Or.inl rfl)))
                · rcases List.mem_append.mp hd with hd | hd
                  · exact hnone d hd
                  · exact hIne d (Or.inr (Or.inr (Or.inr hd)))

/-- C1: from an empty store with `order ≥ 3`, inserting records with
pairwise-distinct keys keeps `is_a_valid_btree()` true after every
insertion: the fill rules checked by `validate` (every node `len ≤ order`,
non-root nodes `len ≥ order / 2`, a Regular root `len ≥ 2`) hold and the
minimum and maximum leaf depths agree.  The sequence is machine-realizable
(`ds.length ≤ usize::MAX`), which keeps the validator's depth arithmetic in
range. -/
theorem C1_valid_after_every_insert (order : Nat) (hord : 3 ≤ order)
    (ds : List IoTDevice)
    (hnodup : (ds.map (fun d => d.numerical_id)).Nodup)
    (hmax : ds.length ≤ usizeMax)
    (p q : List IoTDevice) (hpq : ds = p ++ q) (hp : p ≠ []) :
    ∃ db, addList (DeviceDatabase.new_empty order) p = some db ∧
      db.is_a_valid_btree = true := by
  have hnodupp : ((p ++ []).map (fun d : IoTDevice => d.numerical_id)).Nodup := by
    have hsub : (p.map (fun d : IoTDevice => d.numerical_id)).Sublist
        (ds.map (fun d : IoTDevice => d.numerical_id)) := by
      rw [hpq]
      exact (List.sublist_append_left p q).map _
    simpa using hnodup.sublist hsub
  obtain ⟨db, hlist, hdb, _, _⟩ :=
    GoodDB_addList (GoodDB_new order hord) p hnodupp
  refine ⟨db, hlist, ?_⟩
  obtain ⟨_, hlen, hroot⟩ := hdb
  rcases hroot with ⟨hn, hl0⟩ | ⟨t, h, ht, hg, hs, hpt, hh⟩
  · exact absurd (by simpa using hl0) hp
  · unfold DeviceDatabase.is_a_valid_btree
    rw [ht]
    have hply : (p ++ []).length = p.length := by simp
    have hplen : p.length ≤ ds.length := by rw [hpq]; simp
    have hmax2 : h ≤ usizeMax := by omega
    simp [validate_rootGood db.order hg hmax2]

/-- Witness for `C1_valid_after_every_insert`: one insertion at order 3. -/
theorem C1_valid_after_every_insert_witness :
    (3 ≤ 3) ∧
    ([IoTDevice.new 1 "a" "x"].map (fun d => d.numerical_id)).Nodup ∧
    ([IoTDevice.new 1 "a" "x"].length ≤ usizeMax) ∧
    ([IoTDevice.new 1 "a" "x"] = [IoTDevice.new 1 "a" "x"] ++ []) ∧
    ([IoTDevice.new 1 "a" "x"] ≠ []) ∧
    ∃ db, addList (DeviceDatabase.new_empty 3) [IoTDevice.new 1 "a" "x"]
        = some db ∧ db.is_a_valid_btree = true :=
  ⟨by decide, by simp, by norm_num [usizeMax], by simp, by simp,
    C1_valid_after_every_insert 3 (by decide) [IoTDevice.new 1 "a" "x"]
      (by simp) (by norm_num [usizeMax]) [IoTDevice.new 1 "a" "x"] []
      (by simp) (by simp)⟩

/-- C2: in a store built from empty with `order ≥ 3` by inserting records
with pairwise-distinct keys, `find` returns, for every inserted key `k`, a
record whose numerical identifier is `k`; for every key never inserted
(including every key when nothing was inserted) it returns `None`. -/
theorem C2_find_inserted_keys (order : Nat) (hord : 3 ≤ order)
    (ds : List IoTDevice)
    (hnodup : (ds.map (fun d => d.numerical_id)).Nodup) :
    ∃ db, addList (DeviceDatabase.new_empty order) ds = some db ∧
      (∀ d ∈ ds, ∃ r, db.find d.numerical_id = some (some r) ∧
        r.numerical_id = d.numerical_id) ∧
      (∀ k, (∀ d ∈ ds, d.numerical_id ≠ k) → db.find k = some none) := by
  obtain ⟨db, hlist, hdb, _, _⟩ :=
    GoodDB_addList (GoodDB_new order hord) ds (by simpa using hnodup)
  obtain ⟨_, hlen, hroot⟩ := hdb
  rcases hroot with ⟨hn, hl0⟩ | ⟨t, h, ht, hg, hs, hpt, hh⟩
  · have hds : ds = [] := by simpa using hl0
    subst hds
    refine ⟨db, hlist, by simp, ?_⟩
    intro k _
    unfold DeviceDatabase.find
    rw [hn]
  · have hpt2 : (contents t).Perm ds := hpt.trans (by simp)
    refine ⟨db, hlist, ?_, ?_⟩
    · intro d hd
      rcases findR_good db.order h t hg hs d.numerical_id with
        ⟨r, hr, hrk, hf⟩ | ⟨hnone, _⟩
      · refine ⟨r, ?_, hrk⟩
        unfold DeviceDatabase.find
        rw [ht]
        exact hf
      · exact absurd rfl (hnone d (hpt2.mem_iff.mpr hd))
    · intro k hk
      rcases findR_good db.order h t hg hs k with
        ⟨r, hr, hrk, _⟩ | ⟨hnone, hf⟩
      · exact absurd hrk (hk r (hpt2.mem_iff.mp hr))
      · unfold DeviceDatabase.find
        rw [ht]
        exact hf

/-- Witness for `C2_find_inserted_keys`. -/
theorem C2_find_inserted_keys_witness :
    (3 ≤ 3) ∧
    (([IoTDevice.new 2 "a" "x", IoTDevice.new 1 "b" "y"].map
      (fun d => d.numerical_id)).Nodup) ∧
    ∃ db, addList (DeviceDatabase.new_empty 3)
        [IoTDevice.new 2 "a" "x", IoTDevice.new 1 "b" "y"] = some db ∧
      (∀ d ∈ [IoTDevice.new 2 "a" "x", IoTDevice.new 1 "b" "y"],
        ∃ r, db.find d.numerical_id = some (some r) ∧
          r.numerical_id = d.numerical_id) ∧
      (∀ k, (∀ d ∈ [IoTDevice.new 2 "a" "x", IoTDevice.new 1 "b" "y"],
        d.numerical_id ≠ k) → db.find k = some none) :=
  ⟨by decide, by simp [IoTDevice.new],
    C2_find_inserted_keys 3 (by decide)
      [IoTDevice.new 2 "a" "x", IoTDevice.new 1 "b" "y"]
      (by simp [IoTDevice.new])⟩

/-- C3: in a store built from empty with `order ≥ 3` by inserting `N`
records with pairwise-distinct keys, the walk visits every stored record
exactly once, in strictly ascending key order (the visited list is a
permutation of the inserted records and strictly sorted); the walk is a
pure read of the tree. -/
theorem C3_walk_strictly_ascending (order : Nat) (hord : 3 ≤ order)
    (ds : List IoTDevice)
    (hnodup : (ds.map (fun d => d.numerical_id)).Nodup) :
    ∃ db w, addList (DeviceDatabase.new_empty order) ds = some db ∧
      db.walk = some w ∧ w.Perm ds ∧ List.Pairwise devLT w := by
  obtain ⟨db, hlist, hdb, _, _⟩ :=
    GoodDB_addList (GoodDB_new order hord) ds (by simpa using hnodup)
  obtain ⟨_, hlen, hroot⟩ := hdb
  rcases hroot with ⟨hn, hl0⟩ | ⟨t, h, ht, hg, hs, hpt, hh⟩
  · refine ⟨db, [], hlist, ?_, ?_, List.Pairwise.nil⟩
    · unfold DeviceDatabase.walk
      rw [hn]
    · have hds : ds = [] := by simpa using hl0
      rw [hds]
  · refine ⟨db, contents t, hlist, ?_, hpt.trans (by simp), hs⟩
    unfold DeviceDatabase.walk
    rw [ht]
    show walkNode t = some (contents t)
    exact walk_shape (rootGood_shape hg)

/-- Witness for `C3_walk_strictly_ascending`. -/
theorem C3_walk_strictly_ascending_witness :
    (3 ≤ 3) ∧
    (([IoTDevice.new 2 "a" "x", IoTDevice.new 1 "b" "y"].map
      (fun d => d.numerical_id)).Nodup) ∧
    ∃ db w, addList (DeviceDatabase.new_empty 3)
        [IoTDevice.new 2 "a" "x", IoTDevice.new 1 "b" "y"] = some db ∧
      db.walk = some w ∧
      w.Perm [IoTDevice.new 2 "a" "x", IoTDevice.new 1 "b" "y"] ∧
      List.Pairwise devLT w :=
  ⟨by decide, by simp [IoTDevice.new],
    C3_walk_strictly_ascending 3 (by decide)
      [IoTDevice.new 2 "a" "x", IoTDevice.new 1 "b" "y"]
      (by simp [IoTDevice.new])⟩

/-- C4: inserting `N` records with pairwise-distinct keys from an empty
store with `order ≥ 3`, in any order, leaves the store's `length` field
equal to `N`. -/
theorem C4_length_equals_count (order : Nat) (hord : 3 ≤ order)
    (ds : List IoTDevice)
    (hnodup : (ds.map (fun d => d.numerical_id)).Nodup) :
    ∃ db, addList (DeviceDatabase.new_empty order) ds = some db ∧
      db.length = ds.length := by
  obtain ⟨db, hlist, _, _, hlen⟩ :=
    GoodDB_addList (GoodDB_new order hord) ds (by simpa using hnodup)
  refine ⟨db, hlist, ?_⟩
  rw [hlen]
  show 0 + ds.length = ds.length
  omega

/-- Witness for `C4_length_equals_count`. -/
theorem C4_length_equals_count_witness :
    (3 ≤ 3) ∧
    (([IoTDevice.new 2 "a" "x", IoTDevice.new 1 "b" "y"].map
      (fun d => d.numerical_id)).Nodup) ∧
    ∃ db, addList (DeviceDatabase.new_empty 3)
        [IoTDevice.new 2 "a" "x", IoTDevice.new 1 "b" "y"] = some db ∧
      db.length = [IoTDevice.new 2 "a" "x", IoTDevice.new 1 "b" "y"].length :=
  ⟨by decide, by simp [IoTDevice.new],
    C4_length_equals_count 3 (by decide)
      [IoTDevice.new 2 "a" "x", IoTDevice.new 1 "b" "y"]
      (by simp [IoTDevice.new])⟩

/-! ### Split-counting instrumentation of the insertion path

`addRS`/`addRCoreS`/`afterOverflowS` are `add_r` and its pieces again,
carrying one extra output: the number of `split()` calls performed.  The
agreement lemmas below show that dropping the counter recovers the plain
functions, so a statement about the counter is a statement about how many
splits the real insertion performs. -/

def afterOverflowS (order : Nat) (node : Node) (isRoot : Bool) (inc : Nat)
    (sp : Nat) : Option (Node × Option Data × Nat × Nat) :=
  if node.len > order then
    match node.split with
    | none => none
    | some (new_parent, node', sibling) =>
        if isRoot then
          let parent := Node.new_regular
          let parent := parent.add_left_child (some node')
          let parent := (parent.add_key new_parent.numerical_id
            (some new_parent, some sibling)).1
          some (parent, none, inc, sp + 1)
        else
          some (node', some (some new_parent, some sibling), inc, sp + 1)
  else some (node, none, inc, sp)

mutual

/-- `addRCore` with a split counter. -/
def addRCoreS (order : Nat) (node : Node) (device : IoTDevice) :
    Option (Node × Nat × Nat) :=
  match node.node_type with
  | .Leaf =>
      let r := node.add_key device.numerical_id (some device, none)
      some (r.1, if r.2 then 1 else 0, 0)
  | .Regular =>
      match hrk : node.remove_key device.numerical_id with
      | none => none
      | some ((key, (dev, tree)), node1) =>
          match htr : tree with
          | none => none
          | some tr =>
              match addRS order tr device false with
              | none => none
              | some (child, promo, inc, sp) =>
                  let node2 := if dev.isNone then node1.add_left_child (some child)
                    else (node1.add_key key (dev, some child)).1
                  match promo with
                  | none => some (node2, inc, sp)
                  | some sr =>
                      match sr.1 with
                      | none => none
                      | some nd =>
                          some ((node2.add_key nd.numerical_id sr).1, inc, sp)
termination_by 2 * sizeOf node
decreasing_by
  subst htr
  have := sizeOf_lt_of_remove_key hrk
  omega

/-- `addR` with a split counter. -/
def addRS (order : Nat) (node : Node) (device : IoTDevice) (isRoot : Bool) :
    Option (Node × Option Data × Nat × Nat) :=
  match addRCoreS order node device with
  | none => none
  | some (node3, inc, sp) => afterOverflowS order node3 isRoot inc sp
termination_by 2 * sizeOf node + 1
decreasing_by
  omega

end

/-- `DeviceDatabase::add` with a split counter. -/
def DeviceDatabase.addS (db : DeviceDatabase) (device : IoTDevice) :
    Option (DeviceDatabase × Nat) :=
  let node := match db.root with
    | some t => t
    | none => Node.new_leaf
  match addRS db.order node device true with
  | none => none
  | some (root, _, inc, sp) =>
      some (⟨some root, db.order, db.length + inc⟩, sp)

/-- Inserting a list of devices, accumulating the number of splits. -/
def addListS (db : DeviceDatabase) :
    List IoTDevice → Option (DeviceDatabase × Nat)
  | [] => some (db, 0)
  | d :: ds =>
      match db.addS d with
      | some (db2, sp) =>
          match addListS db2 ds with
          | some (db3, sp2) => some (db3, sp + sp2)
          | none => none
      | none => none

theorem addRCoreS_leaf (order : Nat) (node : Node) (device : IoTDevice)
    (hty : node.node_type = .Leaf) :
    addRCoreS order node device =
      some ((node.add_key device.numerical_id (some device, none)).1,
        if (node.add_key device.numerical_id (some device, none)).2
          then 1 else 0, 0) := by
  rw [addRCoreS.eq_def, hty]

theorem addRCoreS_regular (order : Nat) (node : Node) (device : IoTDevice)
    (hty : node.node_type = .Regular) {key : Nat} {dev : Option IoTDevice}
    {tr node1 : Node}
    (hrk : node.remove_key device.numerical_id
      = some ((key, (dev, some tr)), node1)) :
    addRCoreS order node device =
      (match addRS order tr device false with
      | none => none
      | some (child, promo, inc, sp) =>
          let node2 := if dev.isNone then node1.add_left_child (some child)
            else (node1.add_key key (dev, some child)).1
          match promo with
          | none => some (node2, inc, sp)
          | some sr =>
              match sr.1 with
              | none => none
              | some nd => some ((node2.add_key nd.numerical_id sr).1, inc, sp)) := by
  rw [addRCoreS.eq_def, hty]
  split
  · rename_i heq
    exact NodeType.noConfusion heq
  · split
    · rename_i heq
      rw [hrk] at heq
      cases heq
    · rename_i key2 dev2 tree2 node12 heq
      rw [hrk] at heq
      obtain ⟨⟨h1, h2, h3⟩, h4⟩ : (key = key2 ∧ dev = dev2 ∧ some tr = tree2) ∧
          node1 = node12 := by
        simpa using heq
      subst h1 h2 h4
      subst h3
      rfl

theorem addRS_eq (order : Nat) (node : Node) (device : IoTDevice)
    (isRoot : Bool) :
    addRS order node device isRoot =
      match addRCoreS order node device with
      | none => none
      | some (node3, inc, sp) => afterOverflowS order node3 isRoot inc sp := by
  rw [addRS.eq_def]

theorem addRCore_regular_none (order : Nat) (node : Node)
    (device : IoTDevice) (hty : node.node_type = .Regular)
    (hrk : node.remove_key device.numerical_id = none) :
    addRCore order node device = none := by
  rw [addRCore.eq_def, hty]
  split
  · rename_i heq
    exact NodeType.noConfusion heq
  · split
    · rfl
    · rename_i key2 dev2 tree2 node12 heq
      rw [hrk] at heq
      cases heq

theorem addRCore_regular_noTree (order : Nat) (node : Node)
    (device : IoTDevice) (hty : node.node_type = .Regular) {key : Nat}
    {dev : Option IoTDevice} {node1 : Node}
    (hrk : node.remove_key device.numerical_id
      = some ((key, (dev, none)), node1)) :
    addRCore order node device = none := by
  rw [addRCore.eq_def, hty]
  split
  · rename_i heq
    exact NodeType.noConfusion heq
  · split
    · rename_i heq
      rw [hrk] at heq
    · rename_i key2 dev2 tree2 node12 heq
      rw [hrk] at heq
      have h3 : (none : Option Node) = tree2 :=
        congrArg (fun p => p.1.2.2) (Option.some.inj heq)
      subst h3
      rfl

theorem addRCoreS_regular_none (order : Nat) (node : Node)
    (device : IoTDevice) (hty : node.node_type = .Regular)
    (hrk : node.remove_key device.numerical_id = none) :
    addRCoreS order node device = none := by
  rw [addRCoreS.eq_def, hty]
  split
  · rename_i heq
    exact NodeType.noConfusion heq
  · split
    · rfl
    · rename_i key2 dev2 tree2 node12 heq
      rw [hrk] at heq
      cases heq

theorem addRCoreS_regular_noTree (order : Nat) (node : Node)
    (device : IoTDevice) (hty : node.node_type = .Regular) {key : Nat}
    {dev : Option IoTDevice} {node1 : Node}
    (hrk : node.remove_key device.numerical_id
      = some ((key, (dev, none)), node1)) :
    addRCoreS order node device = none := by
  rw [addRCoreS.eq_def, hty]
  split
  · rename_i heq
    exact NodeType.noConfusion heq
  · split
    · rename_i heq
      rw [hrk] at heq
    · rename_i key2 dev2 tree2 node12 heq
      rw [hrk] at heq
      have h3 : (none : Option Node) = tree2 :=
        congrArg (fun p => p.1.2.2) (Option.some.inj heq)
      subst h3
      rfl

theorem afterOverflowS_agrees (order : Nat) (node : Node) (isRoot : Bool)
    (inc sp : Nat) :
    (afterOverflowS order node isRoot inc sp).map
        (fun r => (r.1, r.2.1, r.2.2.1))
      = afterOverflow order node isRoot inc := by
  unfold afterOverflowS afterOverflow
  by_cases hov : node.len > order
  · rw [if_pos hov, if_pos hov]
    cases hspl : node.split with
    | none => rfl
    | some r =>
        obtain ⟨d, n1, n2⟩ := r
        cases isRoot <;> simp
  · rw [if_neg hov, if_neg hov]
    rfl

/-- Dropping the counter from `addRS`/`addRCoreS` recovers `addR`/`addRCore`. -/
theorem addRS_agrees (order : Nat) :
    ∀ (fuel : Nat) (node : Node), sizeOf node ≤ fuel →
    ∀ (device : IoTDevice),
    (addRCoreS order node device).map (fun r => (r.1, r.2.1))
      = addRCore order node device ∧
    ∀ isRoot : Bool,
    (addRS order node device isRoot).map (fun r => (r.1, r.2.1, r.2.2.1))
      = addR order node device isRoot := by
  intro fuel
  induction fuel with
  | zero =>
      intro node hsz
      exact absurd hsz (by cases node; simp [sizeOf_mk])
  | succ fuel ih =>
      intro node hsz device
      have hcore : (addRCoreS order node device).map (fun r => (r.1, r.2.1))
          = addRCore order node device := by
        cases hty : node.node_type with
        | Leaf =>
            rw [addRCoreS_leaf order node device hty,
              addRCore_leaf order node device hty]
            rfl
        | Regular =>
            cases hrk : node.remove_key device.numerical_id with
            | none =>
                rw [addRCoreS_regular_none order node device hty hrk,
                  addRCore_regular_none order node device hty hrk]
                rfl
            | some r =>
                obtain ⟨⟨key, dev, tree⟩, node1⟩ := r
                cases tree with
                | none =>
                    rw [addRCoreS_regular_noTree order node device hty hrk,
                      addRCore_regular_noTree order node device hty hrk]
                    rfl
                | some tr =>
                    have hszr : sizeOf tr ≤ fuel := by
                      have := sizeOf_lt_of_remove_key hrk
                      omega
                    have hrec := (ih tr hszr device).2 false
                    rw [addRCoreS_regular order node device hty hrk,
                      addRCore_regular order node device hty hrk]
                    cases hS : addRS order tr device false with
                    | none =>
                        have h2 : addR order tr device false = none := by
                          rw [← hrec, hS]
                          rfl
                        rw [h2]
                        rfl
                    | some r4 =>
                        obtain ⟨child, promo, inc, sp⟩ := r4
                        have h2 : addR order tr device false
                            = some (child, promo, inc) := by
                          rw [← hrec, hS]
                          rfl
                        rw [h2]
                        cases promo with
                        | none => rfl
                        | some sr =>
                            obtain ⟨sd, st⟩ := sr
                            cases sd with
                            | none => rfl
                            | some nd => rfl
      refine ⟨hcore, ?_⟩
      intro isRoot
      rw [addRS_eq, addR_eq]
      cases hc : addRCoreS order node device with
      | none =>
          have h2 : addRCore order node device = none := by
            rw [← hcore, hc]
            rfl
          rw [h2]
          rfl
      | some r3 =>
          obtain ⟨node3, inc, sp⟩ := r3
          have h2 : addRCore order node device = some (node3, inc) := by
            rw [← hcore, hc]
            rfl
          rw [h2]
          exact afterOverflowS_agrees order node3 isRoot inc sp

theorem addS_agrees (db : DeviceDatabase) (device : IoTDevice) :
    (db.addS device).map (fun r => r.1) = db.add device := by
  unfold DeviceDatabase.addS DeviceDatabase.add
  simp only []
  have hag := (addRS_agrees db.order
    (sizeOf (match db.root with | some t => t | none => Node.new_leaf))
    (match db.root with | some t => t | none => Node.new_leaf)
    (Nat.le_refl _) device).2 true
  cases hS : addRS db.order
      (match db.root with | some t => t | none => Node.new_leaf) device true
      with
  | none =>
      have h2 : addR db.order
          (match db.root with | some t => t | none => Node.new_leaf) device
          true = none := by
        rw [← hag, hS]
        rfl
      rw [h2]
      rfl
  | some r =>
      obtain ⟨root, promo, inc, sp⟩ := r
      have h2 : addR db.order
          (match db.root with | some t => t | none => Node.new_leaf) device
          true = some (root, promo, inc) := by
        rw [← hag, hS]
        rfl
      rw [h2]
      rfl

theorem addListS_agrees (ds : List IoTDevice) :
    ∀ db : DeviceDatabase,
    (addListS db ds).map (fun r => r.1) = addList db ds := by
  induction ds with
  | nil => intro db; rfl
  | cons d ds ihd =>
      intro db
      unfold addListS addList
      have hag := addS_agrees db d
      cases hS : db.addS d with
      | none =>
          have h2 : db.add d = none := by
            rw [← hag, hS]
            rfl
          rw [h2]
          rfl
      | some r =>
          obtain ⟨db2, sp⟩ := r
          have h2 : db.add d = some db2 := by
            rw [← hag, hS]
            rfl
          rw [h2]
          have hih := ihd db2
          show Option.map (fun r => r.1)
              (match addListS db2 ds with
              | some (db3, sp2) => some (db3, sp + sp2)
              | none => none) = addList db2 ds
          cases hL : addListS db2 ds with
          | none =>
              have h3 : addList db2 ds = none := by
                rw [← hih, hL]
                rfl
              rw [h3]
              rfl
          | some r2 =>
              obtain ⟨db3, sp2⟩ := r2
              have h3 : addList db2 ds = some db3 := by
                rw [← hih, hL]
                rfl
              rw [h3]
              rfl

/-! ### Split counts along the boundary insertion sequence -/

/-- Inserting into a leaf with room for one more slot: no split. -/
theorem addRS_leaf_no_split (order : Nat) (devs : List IoTDevice)
    (device : IoTDevice) (isRoot : Bool)
    (hsorted : List.Pairwise devLT devs)
    (hfresh : ∀ x ∈ devs, x.numerical_id ≠ device.numerical_id)
    (hcap : devs.length + 2 ≤ order) :
    ∃ A B, devs = A ++ B ∧
      addRS order (mkLeafN devs) device isRoot
        = some (mkLeafN (A ++ device :: B), none, 1, 0) ∧
      (∀ a ∈ A, a.numerical_id < device.numerical_id) ∧
      (∀ b ∈ B, device.numerical_id < b.numerical_id) := by
  obtain ⟨A, B, hAB, hAlt, hBgt, hBhead⟩ :=
    sorted_split_at_key device.numerical_id devs hsorted hfresh
  have e0 : mkLeafN devs = Node.mk ((A ++ B).map some)
      (List.replicate A.length none ++ List.replicate B.length none)
      none .Leaf := by
    rw [mkLeafN, hAB, List.length_append, List.replicate_add]
  have hak := add_key_spec A B (List.replicate A.length none)
    (List.replicate B.length none) none .Leaf device.numerical_id
    (some device) none (by simp) (by simp)
    (fun a ha => Nat.le_of_lt (hAlt a ha)) hBhead
  have hnode3 : ((mkLeafN devs).add_key device.numerical_id
      (some device, none)).1 = mkLeafN (A ++ device :: B) := by
    rw [e0, hak, mkLeafN]
    simp [List.replicate_add, List.replicate_succ]
  have htrue : ((mkLeafN devs).add_key device.numerical_id
      (some device, none)).2 = true := by
    rw [e0, hak]
  refine ⟨A, B, hAB, ?_, hAlt, hBgt⟩
  rw [addRS_eq, addRCoreS_leaf order (mkLeafN devs) device rfl, hnode3, htrue]
  show afterOverflowS order (mkLeafN (A ++ device :: B)) isRoot 1 0
    = some (mkLeafN (A ++ device :: B), none, 1, 0)
  have hlen2 : (mkLeafN (A ++ device :: B)).len = devs.length + 2 := by
    rw [mkLeafN_len, hAB]
    simp
    omega
  have hnov : ¬ ((mkLeafN (A ++ device :: B)).len > order) := by
    rw [hlen2]
    omega
  unfold afterOverflowS
  rw [if_neg hnov]

/-- Inserting the `order`-th device into a full leaf root: exactly one
split, producing a one-slot Regular root over two leaf halves. -/
theorem addRS_leaf_split_root (order : Nat) (hord : 3 ≤ order)
    (devs : List IoTDevice) (device : IoTDevice)
    (hsorted : List.Pairwise devLT devs)
    (hfresh : ∀ x ∈ devs, x.numerical_id ≠ device.numerical_id)
    (hcnt : devs.length + 1 = order) :
    ∃ P dm S,
      addRS order (mkLeafN devs) device true
        = some (mkRegN [dm] [mkLeafN S] (mkLeafN P), none, 1, 1) ∧
      List.Pairwise devLT (P ++ dm :: S) ∧
      (P ++ dm :: S).Perm (device :: devs) ∧
      P.length = order / 2 ∧ P.length + S.length + 1 = order := by
  obtain ⟨A, B, hAB, hAlt, hBgt, hBhead⟩ :=
    sorted_split_at_key device.numerical_id devs hsorted hfresh
  have e0 : mkLeafN devs = Node.mk ((A ++ B).map some)
      (List.replicate A.length none ++ List.replicate B.length none)
      none .Leaf := by
    rw [mkLeafN, hAB, List.length_append, List.replicate_add]
  have hak := add_key_spec A B (List.replicate A.length none)
    (List.replicate B.length none) none .Leaf device.numerical_id
    (some device) none (by simp) (by simp)
    (fun a ha => Nat.le_of_lt (hAlt a ha)) hBhead
  have hnode3 : ((mkLeafN devs).add_key device.numerical_id
      (some device, none)).1 = mkLeafN (A ++ device :: B) := by
    rw [e0, hak, mkLeafN]
    simp [List.replicate_add, List.replicate_succ]
  have htrue : ((mkLeafN devs).add_key device.numerical_id
      (some device, none)).2 = true := by
    rw [e0, hak]
  have hlenAB : A.length + B.length = devs.length := by
    rw [hAB]
    simp
  have hs2 : List.Pairwise devLT (A ++ device :: B) :=
    pairwise_insert_middle (by rw [← hAB]; exact hsorted) hAlt hBgt
  have hperm2 : (A ++ device :: B).Perm (device :: devs) := by
    rw [hAB]
    exact List.perm_middle
  obtain ⟨P, dm, S, hPS, hP⟩ :=
    list_split_at_length (A ++ device :: B) (order / 2)
      (by simp; omega)
  have htot : P.length + S.length + 1 = order := by
    have : (A ++ device :: B).length = order := by simp; omega
    rw [hPS] at this
    simp at this
    omega
  have hm : (P.length + S.length + 1) / 2 = P.length := by omega
  have hsp := split_mkLeafN P S dm hm (by rw [← hPS]; exact hs2)
  refine ⟨P, dm, S, ?_, by rw [← hPS]; exact hs2,
    by rw [← hPS]; exact hperm2, by omega, htot⟩
  rw [addRS_eq, addRCoreS_leaf order (mkLeafN devs) device rfl, hnode3, htrue]
  show afterOverflowS order (mkLeafN (A ++ device :: B)) true 1 0
    = some (mkRegN [dm] [mkLeafN S] (mkLeafN P), none, 1, 1)
  have hov : (mkLeafN (A ++ device :: B)).len > order := by
    rw [mkLeafN_len]
    simp
    omega
  unfold afterOverflowS
  rw [if_pos hov, hPS, hsp]
  have hparent : ((Node.new_regular.add_left_child
      (some (mkLeafN P))).add_key dm.numerical_id
      (some dm, some (mkLeafN S))).1 = mkRegN [dm] [mkLeafN S] (mkLeafN P) :=
    rfl
  simp [hparent]

/-- Inserting into a one-slot Regular root over two roomy leaves: the
insertion lands in one leaf, no split occurs, and the root keeps its
one-slot two-leaf shape. -/
theorem addRS_two_level (order : Nat) (hord : 3 ≤ order) (dm : IoTDevice)
    (P S : List IoTDevice) (device : IoTDevice)
    (hsorted : List.Pairwise devLT (P ++ dm :: S))
    (hfresh : ∀ x ∈ P ++ dm :: S, x.numerical_id ≠ device.numerical_id)
    (hPcap : P.length + 2 ≤ order) (hScap : S.length + 2 ≤ order) :
    ∃ root2, addRS order (mkRegN [dm] [mkLeafN S] (mkLeafN P)) device true
        = some (root2, none, 1, 0) ∧
      root2.node_type = .Regular ∧ root2.len = 2 ∧
      (∃ lc, root2.left_child = some lc ∧ lc.node_type = .Leaf) ∧
      (∃ c, root2.children = [some c] ∧ c.node_type = .Leaf) := by
  have hPP : List.Pairwise devLT P := (List.pairwise_append.mp hsorted).1
  have hdmS : List.Pairwise devLT (dm :: S) :=
    (List.pairwise_append.mp hsorted).2.1
  have hSS : List.Pairwise devLT S := (List.pairwise_cons.mp hdmS).2
  have hfreshP : ∀ x ∈ P, x.numerical_id ≠ device.numerical_id :=
    fun x hx => hfresh x (List.mem_append_left _ hx)
  have hfreshS : ∀ x ∈ S, x.numerical_id ≠ device.numerical_id :=
    fun x hx => hfresh x (List.mem_append_right _ (List.mem_cons_of_mem dm hx))
  have hfreshdm : dm.numerical_id ≠ device.numerical_id :=
    hfresh dm (List.mem_append_right _ (by simp))
  by_cases hlt : device.numerical_id < dm.numerical_id
  · -- descend into the left child
    have hrk : (mkRegN [dm] [mkLeafN S] (mkLeafN P)).remove_key
        device.numerical_id
        = some ((device.numerical_id, (none, some (mkLeafN P))),
          Node.mk [some dm] [some (mkLeafN S)] none .Regular) := by
      have := remove_key_left_spec [dm] [some (mkLeafN S)]
        (some (mkLeafN P)) .Regular device.numerical_id ?_
      · exact this
      · intro b hb
        obtain rfl : dm = b := by simpa using hb
        exact hlt
    obtain ⟨A, B, hAB, hrecA, _, _⟩ := addRS_leaf_no_split order P device
      false hPP hfreshP hPcap
    refine ⟨mkRegN [dm] [mkLeafN S] (mkLeafN (A ++ device :: B)), ?_, rfl,
      rfl, ⟨mkLeafN (A ++ device :: B), rfl, rfl⟩, ⟨mkLeafN S, rfl, rfl⟩⟩
    rw [addRS_eq, addRCoreS_regular order
      (mkRegN [dm] [mkLeafN S] (mkLeafN P)) device rfl hrk, hrecA]
    show afterOverflowS order
        (mkRegN [dm] [mkLeafN S] (mkLeafN (A ++ device :: B))) true 1 0
      = some (mkRegN [dm] [mkLeafN S] (mkLeafN (A ++ device :: B)),
          none, 1, 0)
    have hnov : ¬ ((mkRegN [dm] [mkLeafN S]
        (mkLeafN (A ++ device :: B))).len > order) := by
      rw [mkRegN_len _ _ _ (by simp)]
      simp
      omega
    unfold afterOverflowS
    rw [if_neg hnov]
  · -- descend into the slot child
    have hgt : dm.numerical_id < device.numerical_id := by omega
    have hrk : (mkRegN [dm] [mkLeafN S] (mkLeafN P)).remove_key
        device.numerical_id
        = some ((dm.numerical_id, (some dm, some (mkLeafN S))),
          Node.mk [] [] (some (mkLeafN P)) .Regular) := by
      have := remove_key_right_spec [] dm [] [] [] (some (mkLeafN S))
        (some (mkLeafN P)) .Regular device.numerical_id (by simp) ?_
        (by intro b hb; simp at hb)
      · exact this
      · intro a ha
        obtain rfl : a = dm := by simpa using ha
        omega
    obtain ⟨A, B, hAB, hrecA, _, _⟩ := addRS_leaf_no_split order S device
      false hSS hfreshS hScap
    refine ⟨mkRegN [dm] [mkLeafN (A ++ device :: B)] (mkLeafN P), ?_, rfl,
      rfl, ⟨mkLeafN P, rfl, rfl⟩, ⟨mkLeafN (A ++ device :: B), rfl, rfl⟩⟩
    rw [addRS_eq, addRCoreS_regular order
      (mkRegN [dm] [mkLeafN S] (mkLeafN P)) device rfl hrk, hrecA]
    show afterOverflowS order
        (mkRegN [dm] [mkLeafN (A ++ device :: B)] (mkLeafN P)) true 1 0
      = some (mkRegN [dm] [mkLeafN (A ++ device :: B)] (mkLeafN P),
          none, 1, 0)
    have hnov : ¬ ((mkRegN [dm] [mkLeafN (A ++ device :: B)]
        (mkLeafN P)).len > order) := by
      rw [mkRegN_len _ _ _ (by simp)]
      simp
      omega
    unfold afterOverflowS
    rw [if_neg hnov]

theorem addListS_append {db db2 : DeviceDatabase} {p : List IoTDevice}
    {s1 : Nat} :
    addListS db p = some (db2, s1) →
    ∀ {q : List IoTDevice} {db3 : DeviceDatabase} {s2 : Nat},
    addListS db2 q = some (db3, s2) →
    addListS db (p ++ q) = some (db3, s1 + s2) := by
  induction p generalizing db s1 with
  | nil =>
      intro h1 q db3 s2 h2
      obtain ⟨e1, e2⟩ : db = db2 ∧ 0 = s1 := by
        have := Option.some.inj h1
        exact ⟨congrArg Prod.fst this, congrArg Prod.snd this⟩
      subst e1
      rw [← e2, List.nil_append, Nat.zero_add]
      exact h2
  | cons d p ihp =>
      intro h1 q db3 s2 h2
      unfold addListS at h1
      rw [List.cons_append]
      unfold addListS
      cases haddS : db.addS d with
      | none =>
          rw [haddS] at h1
          exact absurd h1 (by simp)
      | some r =>
          obtain ⟨dbm, spm⟩ := r
          rw [haddS] at h1
          replace h1 : (match addListS dbm p with
            | some (db4, sp2) => some (db4, spm + sp2)
            | none => none) = some (db2, s1) := h1
          show (match addListS dbm (p ++ q) with
            | some (db4, sp2) => some (db4, spm + sp2)
            | none => none) = some (db3, s1 + s2)
          cases hrest : addListS dbm p with
          | none =>
              rw [hrest] at h1
              exact absurd h1 (by simp)
          | some r2 =>
              obtain ⟨dbr, spr⟩ := r2
              rw [hrest] at h1
              obtain ⟨e1, e2⟩ : dbr = db2 ∧ spm + spr = s1 := by
                have := Option.some.inj h1
                exact ⟨congrArg Prod.fst this, congrArg Prod.snd this⟩
              subst e1
              rw [ihp hrest h2]
              rw [← e2, Nat.add_assoc]

/-- Inserting a short distinct-key sequence into a leaf root keeps the root
a leaf and performs no splits. -/
theorem addListS_phase1 (order : Nat) :
    ∀ (p : List IoTDevice) (devs : List IoTDevice) (n : Nat),
    p.length + devs.length + 1 ≤ order →
    List.Pairwise devLT devs →
    ((p.map (fun d => d.numerical_id))
      ++ (devs.map (fun d => d.numerical_id))).Nodup →
    ∃ devs2, addListS ⟨some (mkLeafN devs), order, n⟩ p
        = some (⟨some (mkLeafN devs2), order, n + p.length⟩, 0) ∧
      devs2.length = devs.length + p.length ∧
      List.Pairwise devLT devs2 ∧ devs2.Perm (p ++ devs) := by
  intro p
  induction p with
  | nil =>
      intro devs n hcap hs hnd
      exact ⟨devs, rfl, by simp, hs, by simp⟩
  | cons d p ihp =>
      intro devs n hcap hs hnd
      have hfresh : ∀ x ∈ devs, x.numerical_id ≠ d.numerical_id := by
        intro x hx hxk
        have h1 : d.numerical_id ∉ (p.map (fun d => d.numerical_id)
            ++ devs.map (fun d => d.numerical_id)) :=
          (List.nodup_cons.mp hnd).1
        exact h1 (List.mem_append_right _
          (List.mem_map.mpr ⟨x, hx, hxk⟩))
      obtain ⟨A, B, hAB, hstep, hAlt, hBgt⟩ := addRS_leaf_no_split order
        devs d true hs hfresh (by simp at hcap; omega)
      have haddS : DeviceDatabase.addS ⟨some (mkLeafN devs), order, n⟩ d
          = some (⟨some (mkLeafN (A ++ d :: B)), order, n + 1⟩, 0) := by
        unfold DeviceDatabase.addS
        simp only []
        show (match addRS order (mkLeafN devs) d true with
          | none => none
          | some (root, _, inc, sp) =>
              some ((⟨some root, order, n + inc⟩ : DeviceDatabase), sp)) = _
        rw [hstep]
      have hs2 : List.Pairwise devLT (A ++ d :: B) :=
        pairwise_insert_middle (by rw [← hAB]; exact hs) hAlt hBgt
      have hperm2 : (A ++ d :: B).Perm (d :: devs) := by
        rw [hAB]
        exact List.perm_middle
      have hnd2 : ((p.map (fun d => d.numerical_id))
          ++ ((A ++ d :: B).map (fun d => d.numerical_id))).Nodup := by
        have hp1 : ((p.map (fun d => d.numerical_id))
            ++ ((A ++ d :: B).map (fun d => d.numerical_id))).Perm
            (d.numerical_id :: (p.map (fun d => d.numerical_id)
              ++ devs.map (fun d => d.numerical_id))) := by
          refine (List.Perm.append_left _ (hperm2.map _)).trans ?_
          show (p.map (fun d => d.numerical_id)
            ++ (d.numerical_id :: devs.map (fun d => d.numerical_id))).Perm _
          exact List.perm_middle
        exact hp1.nodup_iff.mpr hnd
      obtain ⟨devs2, hrest, hlen2, hs3, hperm3⟩ := ihp (A ++ d :: B) (n + 1)
        (by
          have : (A ++ d :: B).length = devs.length + 1 := by
            rw [hAB]
            simp
            omega
          simp at hcap
          omega) hs2 hnd2
      refine ⟨devs2, ?_, ?_, hs3, ?_⟩
      · unfold addListS
        rw [haddS]
        show (match addListS (⟨some (mkLeafN (A ++ d :: B)), order, n + 1⟩
            : DeviceDatabase) p with
          | some (db3, sp2) => some (db3, 0 + sp2)
          | none => none) = _
        rw [hrest]
        have he : n + 1 + p.length = n + (d :: p).length := by
          simp
          omega
        rw [he]
      · have : (A ++ d :: B).length = devs.length + 1 := by
          rw [hAB]
          simp
          omega
        simp
        omega
      · refine hperm3.trans ?_
        refine (List.Perm.append_left p hperm2).trans ?_
        show (p ++ (d :: devs)).Perm ((d :: p) ++ devs)
        exact List.perm_middle

/-- The full boundary run: `order - 1` distinct keys grow a single leaf
root with no split. -/
theorem addListS_phase1_empty (order : Nat) (hord : 3 ≤ order)
    (d : IoTDevice) (p : List IoTDevice)
    (hcap : p.length + 2 ≤ order)
    (hnodup : (((d :: p).map (fun d => d.numerical_id))).Nodup) :
    ∃ devs2, addListS (DeviceDatabase.new_empty order) (d :: p)
        = some (⟨some (mkLeafN devs2), order, p.length + 1⟩, 0) ∧
      devs2.length = p.length + 1 ∧
      List.Pairwise devLT devs2 ∧ devs2.Perm (d :: p) := by
  obtain ⟨A, B, hAB, hrs, _, _⟩ := addRS_leaf_no_split order [] d true
    (by simp) (by simp) (by simp; omega)
  have hA : A = [] := (List.append_eq_nil.mp hAB.symm).1
  have hB : B = [] := (List.append_eq_nil.mp hAB.symm).2
  subst hA hB
  have haddS : (DeviceDatabase.new_empty order).addS d
      = some (⟨some (mkLeafN [d]), order, 1⟩, 0) := by
    unfold DeviceDatabase.addS DeviceDatabase.new_empty
    simp only []
    show (match addRS order Node.new_leaf d true with
      | none => none
      | some (root, _, inc, sp) =>
          some ((⟨some root, order, 0 + inc⟩ : DeviceDatabase), sp))
      = _
    rw [show (Node.new_leaf : Node) = mkLeafN [] from rfl, hrs]
    rfl
  have hnd2 : ((p.map (fun d => d.numerical_id))
      ++ ([d].map (fun d => d.numerical_id))).Nodup := by
    have hp1 : ((p.map (fun d => d.numerical_id))
        ++ ([d].map (fun d => d.numerical_id))).Perm
        ((d :: p).map (fun d => d.numerical_id)) := by
      show ((p.map (fun d => d.numerical_id))
        ++ (d.numerical_id :: [])).Perm _
      exact List.perm_append_comm.trans (by simp)
    exact hp1.nodup_iff.mpr hnodup
  obtain ⟨devs2, hrest, hlen2, hs3, hperm3⟩ := addListS_phase1 order p [d] 1
    (by simp; omega) (by simp [List.pairwise_cons]) hnd2
  refine ⟨devs2, ?_, by rw [hlen2]; simp; omega, hs3, ?_⟩
  · unfold addListS
    rw [haddS]
    show (match addListS (⟨some (mkLeafN [d]), order, 1⟩
        : DeviceDatabase) p with
      | some (db3, sp2) => some (db3, 0 + sp2)
      | none => none) = _
    rw [hrest]
    have he : 1 + p.length = p.length + 1 := by omega
    rw [he]
  · refine hperm3.trans ?_
    show (p ++ [d]).Perm (d :: p)
    exact List.perm_append_comm.trans (by simp)

/-- C5: from an empty store with `order ≥ 3`, inserting exactly `order + 1`
records with pairwise-distinct keys (the root starting as a single leaf)
triggers exactly one split during the whole sequence — the split counter of
the instrumented insertion, which agrees with the plain `add` path by
`addListS_agrees`, totals 1 — and afterwards the root is a Regular node of
length 2 (one slot) whose left child and slot child are both Leaf nodes. -/
theorem C5_boundary_one_split (order : Nat) (hord : 3 ≤ order)
    (ds : List IoTDevice) (hlen : ds.length = order + 1)
    (hnodup : (ds.map (fun d => d.numerical_id)).Nodup) :
    ∃ db t, addListS (DeviceDatabase.new_empty order) ds = some (db, 1) ∧
      addList (DeviceDatabase.new_empty order) ds = some db ∧
      db.root = some t ∧ t.node_type = .Regular ∧ t.len = 2 ∧
      (∃ lc, t.left_child = some lc ∧ lc.node_type = .Leaf) ∧
      (∃ c, t.children = [some c] ∧ c.node_type = .Leaf) := by
  obtain ⟨p0, x, rest2, hds, hp0len⟩ :=
    list_split_at_length ds (order - 1) (by omega)
  have hrest2 : rest2.length = 1 := by
    have := congrArg List.length hds
    simp at this
    omega
  obtain ⟨y, rest3, hrest3⟩ : ∃ y rest3, rest2 = y :: rest3 := by
    cases rest2 with
    | nil => simp at hrest2
    | cons a b => exact ⟨a, b, rfl⟩
  have hr3 : rest3 = [] := by
    rw [hrest3] at hrest2
    simp at hrest2
    exact hrest2
  subst hr3
  rw [hrest3] at hds
  obtain ⟨d0, p1, hp01⟩ : ∃ d0 p1, p0 = d0 :: p1 := by
    cases p0 with
    | nil =>
        rw [List.length_nil] at hp0len
        omega
    | cons a b => exact ⟨a, b, rfl⟩
  have hp1len : p1.length = order - 2 := by
    have : p0.length = p1.length + 1 := by rw [hp01]; simp
    omega
  have hndall : ((p0.map (fun d => d.numerical_id))
      ++ [x.numerical_id, y.numerical_id]).Nodup := by
    have he : ds.map (fun d => d.numerical_id)
        = p0.map (fun d => d.numerical_id)
          ++ [x.numerical_id, y.numerical_id] := by
      rw [hds]
      simp
    rwa [he] at hnodup
  obtain ⟨hndp0, hndxy, hdisj⟩ := List.nodup_append.mp hndall
  have hxney : x.numerical_id ≠ y.numerical_id := by
    have h1 := (List.nodup_cons.mp hndxy).1
    simpa using h1
  have hxnotp0 : x.numerical_id ∉ p0.map (fun d => d.numerical_id) :=
    fun hm => hdisj hm (by simp)
  have hynotp0 : y.numerical_id ∉ p0.map (fun d => d.numerical_id) :=
    fun hm => hdisj hm (by simp)
  -- phase 1: the first `order - 1` inserts keep a leaf root, no splits
  have hndp0' : ((d0 :: p1).map (fun d => d.numerical_id)).Nodup := by
    rw [← hp01]
    exact hndp0
  obtain ⟨devs2, hphase1, hlen2, hsort2, hperm1⟩ :=
    addListS_phase1_empty order hord d0 p1 (by omega) hndp0'
  rw [← hp01] at hphase1 hperm1
  -- insert number `order`: the single split
  have hfreshx : ∀ z ∈ devs2, z.numerical_id ≠ x.numerical_id := by
    intro z hz hzk
    exact hxnotp0 (List.mem_map.mpr ⟨z, hperm1.subset hz, hzk⟩)
  obtain ⟨P, dm, S, haddRS2, hsort3, hperm3, hPlen, htot3⟩ :=
    addRS_leaf_split_root order hord devs2 x hsort2 hfreshx (by omega)
  have haddS2 : DeviceDatabase.addS
      (⟨some (mkLeafN devs2), order, p1.length + 1⟩ : DeviceDatabase) x
      = some ((⟨some (mkRegN [dm] [mkLeafN S] (mkLeafN P)), order,
          p1.length + 1 + 1⟩ : DeviceDatabase), 1) := by
    unfold DeviceDatabase.addS
    simp only []
    show (match addRS order (mkLeafN devs2) x true with
      | none => none
      | some (root, _, inc, sp) =>
          some ((⟨some root, order, p1.length + 1 + inc⟩
            : DeviceDatabase), sp)) = _
    rw [haddRS2]
  -- insert number `order + 1`: no further split
  have hfreshy : ∀ z ∈ P ++ dm :: S, z.numerical_id ≠ y.numerical_id := by
    intro z hz hzk
    have hz2 : z ∈ x :: devs2 := hperm3.subset hz
    rcases List.mem_cons.mp hz2 with rfl | hz3
    · exact hxney hzk
    · exact hynotp0 (List.mem_map.mpr ⟨z, hperm1.subset hz3, hzk⟩)
  obtain ⟨root2, haddRS3, hty2, hlen22, hlc2, hc2⟩ :=
    addRS_two_level order hord dm P S y hsort3 hfreshy (by omega) (by omega)
  have haddS3 : DeviceDatabase.addS
      (⟨some (mkRegN [dm] [mkLeafN S] (mkLeafN P)), order,
        p1.length + 2⟩ : DeviceDatabase) y
      = some ((⟨some root2, order, p1.length + 3⟩ : DeviceDatabase), 0) := by
    unfold DeviceDatabase.addS
    simp only []
    show (match addRS order (mkRegN [dm] [mkLeafN S] (mkLeafN P)) y true with
      | none => none
      | some (root, _, inc, sp) =>
          some ((⟨some root, order, p1.length + 2 + inc⟩
            : DeviceDatabase), sp)) = _
    rw [haddRS3]
  have hy : addListS (⟨some (mkRegN [dm] [mkLeafN S] (mkLeafN P)), order,
      p1.length + 2⟩ : DeviceDatabase) [y]
      = some ((⟨some root2, order, p1.length + 3⟩ : DeviceDatabase), 0) := by
    show (match DeviceDatabase.addS (⟨some (mkRegN [dm] [mkLeafN S]
        (mkLeafN P)), order, p1.length + 2⟩ : DeviceDatabase) y with
      | some (db2, sp) =>
          (match addListS db2 [] with
           | some (db3, sp2) => some (db3, sp + sp2)
           | none => none)
      | none => none) = _
    rw [haddS3]
    rfl
  have hxy : addListS (⟨some (mkLeafN devs2), order,
      p1.length + 1⟩ : DeviceDatabase) [x, y]
      = some ((⟨some root2, order, p1.length + 3⟩ : DeviceDatabase), 1) := by
    show (match DeviceDatabase.addS (⟨some (mkLeafN devs2), order,
        p1.length + 1⟩ : DeviceDatabase) x with
      | some (db2, sp) =>
          (match addListS db2 [y] with
           | some (db3, sp2) => some (db3, sp + sp2)
           | none => none)
      | none => none) = _
    rw [haddS2]
    show (match addListS (⟨some (mkRegN [dm] [mkLeafN S] (mkLeafN P)),
        order, p1.length + 2⟩ : DeviceDatabase) [y] with
      | some (db3, sp2) => some (db3, 1 + sp2)
      | none => none) = _
    rw [hy]
  have hfinal : addListS (DeviceDatabase.new_empty order) ds
      = some ((⟨some root2, order, p1.length + 3⟩ : DeviceDatabase), 1) := by
    rw [hds]
    have := addListS_append hphase1 hxy
    exact this
  have hreal : addList (DeviceDatabase.new_empty order) ds
      = some (⟨some root2, order, p1.length + 3⟩ : DeviceDatabase) := by
    have hag := addListS_agrees ds (DeviceDatabase.new_empty order)
    rw [hfinal] at hag
    exact hag.symm
  exact ⟨⟨some root2, order, p1.length + 3⟩, root2, hfinal, hreal, rfl,
    hty2, hlen22, hlc2, hc2⟩

/-- Witness for `C5_boundary_one_split`: order 3, four distinct keys. -/
theorem C5_boundary_one_split_witness :
    (3 ≤ 3) ∧
    ([IoTDevice.new 1 "a" "w", IoTDevice.new 2 "b" "x",
      IoTDevice.new 3 "c" "y", IoTDevice.new 4 "d" "z"].length = 3 + 1) ∧
    (([IoTDevice.new 1 "a" "w", IoTDevice.new 2 "b" "x",
      IoTDevice.new 3 "c" "y", IoTDevice.new 4 "d" "z"].map
        (fun d => d.numerical_id)).Nodup) ∧
    ∃ db t, addListS (DeviceDatabase.new_empty 3)
        [IoTDevice.new 1 "a" "w", IoTDevice.new 2 "b" "x",
          IoTDevice.new 3 "c" "y", IoTDevice.new 4 "d" "z"]
        = some (db, 1) ∧
      addList (DeviceDatabase.new_empty 3)
        [IoTDevice.new 1 "a" "w", IoTDevice.new 2 "b" "x",
          IoTDevice.new 3 "c" "y", IoTDevice.new 4 "d" "z"] = some db ∧
      db.root = some t ∧ t.node_type = .Regular ∧ t.len = 2 ∧
      (∃ lc, t.left_child = some lc ∧ lc.node_type = .Leaf) ∧
      (∃ c, t.children = [some c] ∧ c.node_type = .Leaf) :=
  ⟨by decide, by decide, by simp [IoTDevice.new],
    C5_boundary_one_split 3 (by decide)
      [IoTDevice.new 1 "a" "w", IoTDevice.new 2 "b" "x",
        IoTDevice.new 3 "c" "y", IoTDevice.new 4 "d" "z"]
      (by decide) (by simp [IoTDevice.new])⟩

end BtreeRs
